import Mathlib

/-!
ESP32 RSA accelerator experiments: Montgomery arithmetic and benchmark harness.

A shallow embedding of `main/rsa_hw.c`, `main/rsa_debug.c` and
`main/rsa_benchmark.c`.

Conventions.
* `uint32_t` and `uint64_t` values are natural numbers; every C operation that
  can wrap carries its explicit `% 2 ^ 32` or `% 2 ^ 64`.
* Arrays of words are lists, least significant word first.
* C pointers that the code checks against `NULL` are plain (non-optional)
  arguments here, so the `NULL` branches have no counterpart.
* Functions that write through a pointer return the written object.
* `size_t` is 32 bits wide on the ESP32.  Word and limb counts are kept as
  unbounded naturals: the big-integer library refuses to allocate more limbs
  than its fixed maximum, far below the point where such a count could wrap.
-/

namespace Esp32Rsa

/-! ## Montgomery constant (`rsa_hw.c`, lines 14-21) -/

/-- One pass of the loop body `x *= (2u - (n[0] * x))` in `uint32_t` arithmetic. -/
def montmul_init_step (n0 x : Nat) : Nat :=
  (x * ((2 + 2 ^ 32 - (n0 * x) % 2 ^ 32) % 2 ^ 32)) % 2 ^ 32

/-- The loop `for (unsigned int i = 32; i >= 8; i /= 2)`; the first argument
bounds the number of passes (the counter halves, so its start value is enough). -/
def montmul_init_loop (n0 : Nat) : Nat → Nat → Nat → Nat
  | 0, _, x => x
  | fuel + 1, i, x =>
    if i ≥ 8 then montmul_init_loop n0 fuel (i / 2) (montmul_init_step n0 x) else x

/-- The function `montmul_init_u32(const uint32_t *n)`: only `n[0]` is read. -/
def montmul_init_u32 (n : List Nat) : Nat :=
  let n0 := n.getD 0 0
  let x0 := n0
  let x1 := (x0 + ((((n0 + 2) % 2 ^ 32) &&& 4) <<< 1)) % 2 ^ 32
  let x := montmul_init_loop n0 32 32 x1
  ((2 ^ 32 - 1 - x) + 1) % 2 ^ 32

/-! ## Software reference arithmetic (`rsa_debug.c`, lines 48-80) -/

/-- The `while (y > 0)` loop of `modmul_u64`.  `y` is a `uint64_t` that is
shifted right once per pass, so 64 passes always reach `y = 0`; the first
argument is that bound. -/
def modmul_loop (mod : Nat) : Nat → Nat → Nat → Nat → Nat
  | 0, res, _, _ => res
  | fuel + 1, res, x, y =>
    if y > 0 then
      let res1 := if y &&& 1 ≠ 0 then ((res + x) % 2 ^ 64) % mod else res
      let x1 := ((x <<< 1) % 2 ^ 64) % mod
      modmul_loop mod fuel res1 x1 (y >>> 1)
    else res

/-- The function `modmul_u64(a, b, mod)` on `uint64_t`. -/
def modmul_u64 (a b mod : Nat) : Nat :=
  if mod = 0 then 0
  else modmul_loop mod 64 0 (a % mod) b

/-- The `while (e > 0)` loop of `modexp_u64`, bounded like `modmul_loop`. -/
def modexp_loop (mod : Nat) : Nat → Nat → Nat → Nat → Nat
  | 0, result, _, _ => result
  | fuel + 1, result, b, e =>
    if e > 0 then
      let result1 := if e &&& 1 ≠ 0 then modmul_u64 result b mod else result
      let b1 := modmul_u64 b b mod
      modexp_loop mod fuel result1 b1 (e >>> 1)
    else result

/-- The function `modexp_u64(base, exp, mod)` on `uint64_t`. -/
def modexp_u64 (base exp mod : Nat) : Nat :=
  if mod = 0 then 0
  else modexp_loop mod 64 (1 % mod) (base % mod) exp

/-! ## Benchmark statistics (`rsa_benchmark.c`, lines 16-38) -/

/-- The aggregate `bench_stats_t`.  `min_us`, `max_us` and `total_us` are
`uint64_t`; `count` is a `size_t`, 32 bits wide on the ESP32; `sumsq` is a
`double`, kept here as the exact sum of squares. -/
structure bench_stats_t where
  min_us : Nat
  max_us : Nat
  total_us : Nat
  sumsq : Nat
  count : Nat
  deriving DecidableEq, Repr

/-- The value `UINT64_MAX`. -/
def UINT64_MAX : Nat := 2 ^ 64 - 1

/-- The value `UINT32_MAX`. -/
def UINT32_MAX : Nat := 2 ^ 32 - 1

/-- The function `stats_init`. -/
def stats_init : bench_stats_t :=
  { min_us := UINT64_MAX, max_us := 0, total_us := 0, sumsq := 0, count := 0 }

/-- The function `stats_update(s, us)`. -/
def stats_update (s : bench_stats_t) (us : Nat) : bench_stats_t :=
  { min_us := if us < s.min_us then us else s.min_us
    max_us := if us > s.max_us then us else s.max_us
    total_us := (s.total_us + us) % 2 ^ 64
    sumsq := s.sumsq + us * us
    count := (s.count + 1) % 2 ^ 32 }

/-- The aggregate after `stats_init` followed by `stats_update` on each sample in order. -/
def stats_feed (samples : List Nat) : bench_stats_t :=
  samples.foldl stats_update stats_init

/-! ## Small-exponent search (`rsa_benchmark.c`, lines 94-145) -/

/-- The table `primes[]` of `choose_small_exponent`. -/
def primes : List Nat := [3, 5, 7, 11, 13, 17, 19, 23, 29]

/-- The constant `primes_count = sizeof(primes) / sizeof(primes[0])`. -/
def primes_count : Nat := primes.length

/-- The constant `target`. -/
def target : Nat := 20000

/-- The inner loop `for (size_t i = 0; i < primes_count; i++)` that counts the
selected primes and multiplies them into the `uint64_t` product; the list
argument holds the indices still to visit, and `count > 5` leaves the loop. -/
def mask_product (mask : Nat) : List Nat → Nat → Nat → Nat × Nat
  | [], count, prod => (count, prod)
  | i :: rest, count, prod =>
    if mask &&& (1 <<< i) ≠ 0 then
      if count + 1 > 5 then (count + 1, prod)
      else mask_product mask rest (count + 1) ((prod * primes.getD i 0) % 2 ^ 64)
    else mask_product mask rest count prod

/-- The loop that copies the selected primes into `best_factors[idx++]`. -/
def collect_factors (mask : Nat) : List Nat → Nat → List Nat → List Nat
  | [], _, best_factors => best_factors
  | i :: rest, idx, best_factors =>
    if mask &&& (1 <<< i) ≠ 0 then
      collect_factors mask rest (idx + 1) (best_factors.set idx (primes.getD i 0))
    else collect_factors mask rest idx best_factors

/-- The locals `best`, `best_diff`, `best_factors[5]` and `best_count`. -/
structure search_state where
  best : Nat
  best_diff : Nat
  best_factors : List Nat
  best_count : Nat
  deriving DecidableEq, Repr

/-- The body of the loop over `mask`. -/
def search_step (st : search_state) (mask : Nat) : search_state :=
  let r := mask_product mask (List.range primes_count) 0 1
  let count := r.1
  let prod := r.2
  if count = 0 ∨ count > 5 then st
  else if prod > UINT32_MAX then st
  else
    let p := prod % 2 ^ 32
    let diff := if p > target then p - target else target - p
    if diff < st.best_diff then
      { best_diff := diff
        best := p
        best_count := count
        best_factors := collect_factors mask (List.range primes_count) 0 st.best_factors }
    else st

/-- The loop `for (uint32_t mask = 1; mask < (1u << primes_count); mask++)`. -/
def search_all : search_state :=
  (List.range' 1 ((1 <<< primes_count) - 1)).foldl search_step
    { best := 0, best_diff := UINT32_MAX, best_factors := [0, 0, 0, 0, 0], best_count := 0 }

/-- The function `choose_small_exponent(factors, factor_count)`: the returned
value, the caller array `factors` after the call and `*factor_count`. -/
def choose_small_exponent (factors : List Nat) : Nat × List Nat × Nat :=
  let st := search_all
  (st.best, st.best_factors.take st.best_count ++ factors.drop st.best_count, st.best_count)

/-! ## Big integers (`mbedtls_mpi`) and the collaborators of `rsa_hw.c`

The mbedtls big-integer library and the ESP-IDF RSA peripheral driver are not
part of this repository.  Their functions are modelled here on the level the
repository code observes: limb arrays, values, return status and the order of
the hardware calls. -/

/-- The type `mbedtls_mpi`: sign `s` and the limb array `p` (32-bit limbs,
least significant first); the limb count `n` is the length of `p`. -/
structure mbedtls_mpi where
  s : Int
  p : List Nat
  deriving DecidableEq, Repr

/-- The integer encoded little-endian by an array of 32-bit words. -/
def fromWords : List Nat → Nat
  | [] => 0
  | w :: ws => w + 2 ^ 32 * fromWords ws

/-- The magnitude of a big integer. -/
def mpi_value (X : mbedtls_mpi) : Nat := fromWords X.p

/-- The lowest `n` 32-bit words of `v`, least significant first. -/
def toLimbs : Nat → Nat → List Nat
  | 0, _ => []
  | n + 1, v => v % 2 ^ 32 :: toLimbs n (v / 2 ^ 32)

/-- The first `n` words read through a `const uint32_t *` (a word past the end
of the list reads as 0). -/
def read_words : Nat → List Nat → List Nat
  | 0, _ => []
  | n + 1, ws => ws.headD 0 :: read_words n ws.tail

/-- Every word fits in 32 bits. -/
def words_ok (ws : List Nat) : Prop := ∀ w ∈ ws, w < 2 ^ 32

instance (ws : List Nat) : Decidable (words_ok ws) := by
  unfold words_ok; infer_instance

/-- A well-formed non-negative big integer. -/
def mpi_ok (X : mbedtls_mpi) : Prop := X.s = 1 ∧ words_ok X.p

instance (X : mbedtls_mpi) : Decidable (mpi_ok X) := by
  unfold mpi_ok; infer_instance

/-- The call site of a Montgomery multiplication inside `rsa_mod_exp_hw_ctx`. -/
inductive mont_site where
  | to_mont
  | init_acc
  | square
  | mul_x
  | from_mont
  deriving DecidableEq, Repr

/-- One observable call into the RSA peripheral driver. -/
inductive hw_event where
  | enable
  | disable
  | mont_op (site : mont_site) (x y : Nat)
  | mul_mod_op (x y : Nat)
  | read_result
  deriving DecidableEq, Repr

/-- The environment of the code: how many status-returning collaborator calls
were made (call number `k` fails exactly when the fault oracle is true at `k`),
the hardware calls issued so far (oldest first) and the value held by the
result block of the peripheral. -/
structure hw_state where
  calls : Nat
  trace : List hw_event
  z_block : Nat
  deriving DecidableEq, Repr

/-- Status, big integer and environment after a collaborator call (`ok` is
true for return code 0) or after a repository function that returns `bool`. -/
structure mpi_result where
  ok : Bool
  X : mbedtls_mpi
  st : hw_state
  deriving DecidableEq, Repr

/-- Records one hardware call. -/
def hw_log (e : hw_event) (st : hw_state) : hw_state :=
  { st with trace := st.trace ++ [e] }

/-- Counts one fallible collaborator call. -/
def hw_tick (st : hw_state) : hw_state :=
  { st with calls := st.calls + 1 }

/-- Modelled from the spec: `mbedtls_mpi_init` of the big-integer collaborator
(also the state left by `mbedtls_mpi_free`): no limbs, sign 1. -/
def mbedtls_mpi_init : mbedtls_mpi := { s := 1, p := [] }

/-- Modelled from the spec: `mbedtls_mpi_grow(X, nblimbs)` of the big-integer
collaborator.  It fails (out of memory, or more limbs than the library
allows) when the fault oracle says so for this call; otherwise `X` has at
least `nblimbs` limbs, the new ones zero. -/
def mbedtls_mpi_grow (fault : Nat → Bool) (X : mbedtls_mpi) (nblimbs : Nat)
    (st : hw_state) : mpi_result :=
  if fault st.calls then { ok := false, X := X, st := hw_tick st }
  else
    { ok := true
      X := { X with p := X.p ++ List.replicate (nblimbs - X.p.length) 0 }
      st := hw_tick st }

/-- Modelled from the spec: `mbedtls_mpi_lset(X, z)` of the big-integer
collaborator, which grows `X` to one limb, clears all limbs and stores `|z|`
with the sign of `z`. -/
def mbedtls_mpi_lset (fault : Nat → Bool) (X : mbedtls_mpi) (z : Int)
    (st : hw_state) : mpi_result :=
  let r := mbedtls_mpi_grow fault X 1 st
  if r.ok then
    { ok := true
      X := { s := if z < 0 then -1 else 1
             p := (r.X.p.map (fun _ => 0)).set 0 (z.natAbs % 2 ^ 32) }
      st := r.st }
  else r

/-- Modelled from the spec: `mbedtls_mpi_set_bit(X, pos, val)` of the
big-integer collaborator, for `val` 0 or 1.  `X` is grown when bit `pos` lies
beyond its limbs and `val` is 1; the call fails when the fault oracle says so. -/
def mbedtls_mpi_set_bit (fault : Nat → Bool) (X : mbedtls_mpi) (pos val : Nat)
    (st : hw_state) : mpi_result :=
  if fault st.calls then { ok := false, X := X, st := hw_tick st }
  else if X.p.length * 32 ≤ pos ∧ val = 0 then { ok := true, X := X, st := hw_tick st }
  else
    let p1 := X.p ++ List.replicate (pos / 32 + 1 - X.p.length) 0
    let w := p1.getD (pos / 32) 0
    let w1 := (w &&& (2 ^ 32 - 1 - (1 <<< (pos % 32)))) ||| (val <<< (pos % 32))
    { ok := true, X := { X with p := p1.set (pos / 32) w1 }, st := hw_tick st }

/-- Modelled from the spec: `mbedtls_mpi_get_bit(X, pos)` of the big-integer
collaborator: bit `pos` of the limb array, 0 beyond the last limb. -/
def mbedtls_mpi_get_bit (X : mbedtls_mpi) (pos : Nat) : Nat :=
  if X.p.length * 32 ≤ pos then 0
  else (X.p.getD (pos / 32) 0 >>> (pos % 32)) &&& 1

/-- Modelled from the spec: `mbedtls_mpi_cmp_int(X, z)` of the big-integer
collaborator, the sign of `X - z`. -/
def mbedtls_mpi_cmp_int (X : mbedtls_mpi) (z : Int) : Int :=
  let x : Int := X.s * (mpi_value X : Int)
  if x < z then -1 else if x = z then 0 else 1

/-- Modelled from the spec: `mbedtls_mpi_shift_l(X, count)` of the big-integer
collaborator, `X := X * 2^count`; `X` is grown by the limbs that `count` bits
can need, and the call fails when the fault oracle says so. -/
def mbedtls_mpi_shift_l (fault : Nat → Bool) (X : mbedtls_mpi) (count : Nat)
    (st : hw_state) : mpi_result :=
  if fault st.calls then { ok := false, X := X, st := hw_tick st }
  else
    { ok := true
      X := { X with p := toLimbs (X.p.length + (count + 31) / 32) (mpi_value X * 2 ^ count) }
      st := hw_tick st }

/-- Modelled from the spec: `mbedtls_mpi_mod_mpi(R, A, B)` of the big-integer
collaborator, for non-negative `A`: it fails for `B ≤ 0` and when the fault
oracle says so, and otherwise stores `A mod B` in `R`. -/
def mbedtls_mpi_mod_mpi (fault : Nat → Bool) (R A B : mbedtls_mpi)
    (st : hw_state) : mpi_result :=
  if fault st.calls then { ok := false, X := R, st := hw_tick st }
  else if mbedtls_mpi_cmp_int B 0 ≤ 0 then { ok := false, X := R, st := hw_tick st }
  else
    { ok := true
      X := { s := 1, p := toLimbs (max R.p.length A.p.length) (mpi_value A % mpi_value B) }
      st := hw_tick st }

/-- Modelled from the spec: `esp_mpi_enable_hardware_hw_op`, the collaborator
call that acquires the hardware multiplier. -/
def esp_mpi_enable_hardware_hw_op (st : hw_state) : hw_state :=
  hw_log hw_event.enable st

/-- Modelled from the spec: `esp_mpi_disable_hardware_hw_op`, the collaborator
call that releases the hardware multiplier. -/
def esp_mpi_disable_hardware_hw_op (st : hw_state) : hw_state :=
  hw_log hw_event.disable st

/-- The inverse of `r` modulo `M`: the least `y < M` with `r * y ≡ 1 (mod M)`. -/
def mod_inverse (r M : Nat) : Nat :=
  ((List.range M).find? (fun y => decide ((r * y) % M = 1 % M))).getD 0

/-- Modelled from the spec: the Montgomery product of the hardware,
`mont(a, b) = a * b * r^-1 mod M` with `r = 2^(32 * hw_words)`. -/
def mont (M hw_words a b : Nat) : Nat :=
  (a * b * mod_inverse (2 ^ (32 * hw_words)) M) % M

/-- Modelled from the spec: `esp_mont_hw_op(Z, X, Y, M, Mprime, hw_words, again)`,
one hardware Montgomery multiplication.  The operation is started, `Z` is
grown to `hw_words` limbs (the only way to fail) and the `hw_words` result
words are read into `Z`. -/
def esp_mont_hw_op (fault : Nat → Bool) (site : mont_site) (Z X Y M : mbedtls_mpi)
    (Mprime hw_words : Nat) (again : Bool) (st : hw_state) : mpi_result :=
  let _unused := (Mprime, again)
  let v := mont (mpi_value M) hw_words (mpi_value X) (mpi_value Y)
  let st1 := hw_log (hw_event.mont_op site (mpi_value X) (mpi_value Y)) st
  if fault st1.calls then { ok := false, X := { Z with s := 1 }, st := hw_tick st1 }
  else
    { ok := true
      X := { s := 1, p := toLimbs hw_words v ++ List.replicate (Z.p.length - hw_words) 0 }
      st := hw_tick { st1 with z_block := v } }

/-- Modelled from the spec: `esp_mpi_mul_mpi_mod_hw_op(X, Y, M, Rinv, Mprime, hw_words)`,
two Montgomery passes `mont(mont(X, Y), Rinv)` whose result stays in the
result block of the peripheral. -/
def esp_mpi_mul_mpi_mod_hw_op (X Y M Rinv : mbedtls_mpi) (Mprime hw_words : Nat)
    (st : hw_state) : hw_state :=
  let _unused := Mprime
  let m := mpi_value M
  let v := mont m hw_words (mont m hw_words (mpi_value X) (mpi_value Y)) (mpi_value Rinv)
  { hw_log (hw_event.mul_mod_op (mpi_value X) (mpi_value Y)) st with z_block := v }

/-- Modelled from the spec: `mpi_hal_read_result_hw_op(p, n, hw_words)`, which
copies `hw_words` words of the result block to `p` and clears the limbs above. -/
def mpi_hal_read_result_hw_op (Z : mbedtls_mpi) (hw_words : Nat) (st : hw_state) :
    mbedtls_mpi × hw_state :=
  ({ Z with p := toLimbs hw_words st.z_block ++ List.replicate (Z.p.length - hw_words) 0 },
    hw_log hw_event.read_result st)

/-! ## Montgomery context and engines (`rsa_hw.c`, lines 23-197) -/

/-- The inner loop `for (int j = 31; j >= 0; j--)` of `mpi_msb`: the argument
`k` is `j + 1`; the result is the index of the highest set bit below `k`. -/
def mpi_msb_bit (limb : Nat) : Nat → Option Nat
  | 0 => none
  | j + 1 => if limb &&& (1 <<< j) ≠ 0 then some j else mpi_msb_bit limb j

/-- The outer loop `for (int i = n - 1; i >= 0; i--)` of `mpi_msb`: the
argument `k` is `i + 1`. -/
def mpi_msb_limbs (p : List Nat) : Nat → Nat
  | 0 => 0
  | i + 1 =>
    let limb := p.getD i 0
    if limb ≠ 0 then
      match mpi_msb_bit limb 32 with
      | some j => i * 32 + j
      | none => mpi_msb_limbs p i
    else mpi_msb_limbs p i

/-- The function `mpi_msb(X)`. -/
def mpi_msb (X : mbedtls_mpi) : Nat :=
  if X.p.length ≠ 0 then mpi_msb_limbs X.p X.p.length else 0

/-- The function `rsa_mpi_set_words(X, words, n_words)`. -/
def rsa_mpi_set_words (fault : Nat → Bool) (X : mbedtls_mpi) (words : List Nat)
    (n_words : Nat) (st : hw_state) : mpi_result :=
  let r := mbedtls_mpi_grow fault X n_words st
  if ¬ r.ok then { ok := false, X := r.X, st := r.st }
  else
    { ok := true
      X := { s := 1, p := read_words n_words words ++ r.X.p.drop n_words }
      st := r.st }

/-- The type `rsa_mont_ctx_t`. -/
structure rsa_mont_ctx_t where
  words : Nat
  hw_words : Nat
  mprime : Nat
  M : mbedtls_mpi
  Rinv : mbedtls_mpi
  deriving DecidableEq, Repr

/-- Status, context and environment after `rsa_mont_ctx_init`. -/
structure ctx_result where
  ok : Bool
  ctx : rsa_mont_ctx_t
  st : hw_state
  deriving DecidableEq, Repr

/-- The function `rsa_mont_ctx_free` (`mbedtls_mpi_free` leaves an empty integer). -/
def rsa_mont_ctx_free (_ctx : rsa_mont_ctx_t) : rsa_mont_ctx_t :=
  { words := 0, hw_words := 0, mprime := 0, M := mbedtls_mpi_init, Rinv := mbedtls_mpi_init }

/-- The function `rsa_mont_ctx_init(ctx, M_words, words)`.  The collaborator
`esp_mpi_hardware_words` is a parameter. -/
def rsa_mont_ctx_init (esp_mpi_hardware_words : Nat → Nat) (fault : Nat → Bool)
    (ctx : rsa_mont_ctx_t) (M_words : List Nat) (words : Nat) (st : hw_state) :
    ctx_result :=
  if words = 0 then { ok := false, ctx := ctx, st := st }
  else if (M_words.getD 0 0) &&& 1 = 0 then { ok := false, ctx := ctx, st := st }
  else
    let ctx1 : rsa_mont_ctx_t :=
      { ctx with words := words, hw_words := esp_mpi_hardware_words words,
                 M := mbedtls_mpi_init, Rinv := mbedtls_mpi_init }
    let r1 := rsa_mpi_set_words fault ctx1.M M_words words st
    if ¬ r1.ok then
      { ok := false, ctx := rsa_mont_ctx_free { ctx1 with M := r1.X }, st := r1.st }
    else
      let ctx2 := { ctx1 with M := r1.X }
      let r2 := mbedtls_mpi_lset fault ctx2.Rinv 1 r1.st
      if ¬ r2.ok then
        { ok := false, ctx := rsa_mont_ctx_free { ctx2 with Rinv := r2.X }, st := r2.st }
      else
        let r3 := mbedtls_mpi_shift_l fault r2.X (ctx2.hw_words * 2 * 32) r2.st
        if ¬ r3.ok then
          { ok := false, ctx := rsa_mont_ctx_free { ctx2 with Rinv := r3.X }, st := r3.st }
        else
          let r4 := mbedtls_mpi_mod_mpi fault r3.X r3.X ctx2.M r3.st
          if ¬ r4.ok then
            { ok := false, ctx := rsa_mont_ctx_free { ctx2 with Rinv := r4.X }, st := r4.st }
          else
            { ok := true
              ctx := { ctx2 with Rinv := r4.X, mprime := montmul_init_u32 ctx2.M.p }
              st := r4.st }

/-- The function `rsa_mod_mult_hw_ctx(ctx, X, Y, Z)`. -/
def rsa_mod_mult_hw_ctx (fault : Nat → Bool) (ctx : rsa_mont_ctx_t)
    (X Y Z : mbedtls_mpi) (st : hw_state) : mpi_result :=
  let st1 := esp_mpi_enable_hardware_hw_op st
  let st2 := esp_mpi_mul_mpi_mod_hw_op X Y ctx.M ctx.Rinv ctx.mprime ctx.hw_words st1
  let r := mbedtls_mpi_grow fault Z ctx.hw_words st2
  if ¬ r.ok then
    { ok := false, X := r.X, st := esp_mpi_disable_hardware_hw_op r.st }
  else
    let z := mpi_hal_read_result_hw_op r.X ctx.hw_words r.st
    { ok := true, X := z.1, st := esp_mpi_disable_hardware_hw_op z.2 }

/-- The loop `for (int i = t; i >= 0; i--)` of `rsa_mod_exp_hw_ctx`: the
argument `k` is `i + 1`.  A failing step disables the hardware and returns false. -/
def exp_loop (fault : Nat → Bool) (ctx : rsa_mont_ctx_t) (E X_mont : mbedtls_mpi)
    (t : Nat) : Nat → mbedtls_mpi → hw_state → mpi_result
  | 0, Z, st => { ok := true, X := Z, st := st }
  | i + 1, Z, st =>
    let r1 : mpi_result :=
      if i ≠ t then
        esp_mont_hw_op fault mont_site.square Z Z Z ctx.M ctx.mprime ctx.hw_words true st
      else { ok := true, X := Z, st := st }
    if ¬ r1.ok then
      { ok := false, X := r1.X, st := esp_mpi_disable_hardware_hw_op r1.st }
    else
      let r2 : mpi_result :=
        if mbedtls_mpi_get_bit E i ≠ 0 then
          esp_mont_hw_op fault mont_site.mul_x r1.X r1.X X_mont ctx.M ctx.mprime
            ctx.hw_words true r1.st
        else r1
      if ¬ r2.ok then
        { ok := false, X := r2.X, st := esp_mpi_disable_hardware_hw_op r2.st }
      else exp_loop fault ctx E X_mont t i r2.X r2.st

/-- The function `rsa_mod_exp_hw_ctx(ctx, X, E, Z, feed_wdt)`. -/
def rsa_mod_exp_hw_ctx (fault : Nat → Bool) (ctx : rsa_mont_ctx_t)
    (X E Z : mbedtls_mpi) (feed_wdt : Bool) (st : hw_state) : mpi_result :=
  let _unused := feed_wdt
  if mbedtls_mpi_cmp_int E 0 = 0 then mbedtls_mpi_lset fault Z 1 st
  else
    let X_mont := mbedtls_mpi_init
    let one := mbedtls_mpi_init
    let g1 := mbedtls_mpi_grow fault X_mont ctx.hw_words st
    if ¬ g1.ok then { ok := false, X := Z, st := g1.st }
    else
      let g2 := mbedtls_mpi_grow fault Z ctx.hw_words g1.st
      if ¬ g2.ok then { ok := false, X := g2.X, st := g2.st }
      else
        let g3 := mbedtls_mpi_grow fault one ctx.hw_words g2.st
        if ¬ g3.ok then { ok := false, X := g2.X, st := g3.st }
        else
          let g4 := mbedtls_mpi_set_bit fault g3.X 0 1 g3.st
          if ¬ g4.ok then { ok := false, X := g2.X, st := g4.st }
          else
            let t := mpi_msb E
            let st1 := esp_mpi_enable_hardware_hw_op g4.st
            let m1 := esp_mont_hw_op fault mont_site.to_mont g1.X X ctx.Rinv ctx.M
              ctx.mprime ctx.hw_words false st1
            if ¬ m1.ok then
              { ok := false, X := g2.X, st := esp_mpi_disable_hardware_hw_op m1.st }
            else
              let m2 := esp_mont_hw_op fault mont_site.init_acc g2.X ctx.Rinv g4.X ctx.M
                ctx.mprime ctx.hw_words true m1.st
              if ¬ m2.ok then
                { ok := false, X := m2.X, st := esp_mpi_disable_hardware_hw_op m2.st }
              else
                let l := exp_loop fault ctx E m1.X t (t + 1) m2.X m2.st
                if ¬ l.ok then l
                else
                  let m3 := esp_mont_hw_op fault mont_site.from_mont l.X l.X g4.X ctx.M
                    ctx.mprime ctx.hw_words true l.st
                  if ¬ m3.ok then
                    { ok := false, X := m3.X, st := esp_mpi_disable_hardware_hw_op m3.st }
                  else
                    { ok := true, X := m3.X, st := esp_mpi_disable_hardware_hw_op m3.st }

/-! ## Concrete environments used in the examples -/

/-- An instance of the collaborator `esp_mpi_hardware_words`: the word count
rounded up to whole blocks of 16 words (512 bits). -/
def hardware_words_16 (words : Nat) : Nat := (words + 15) / 16 * 16

/-- The fault oracle under which every collaborator call succeeds. -/
def no_fault : Nat → Bool := fun _ => false

/-- An environment in which nothing has happened yet. -/
def hw_idle : hw_state := { calls := 0, trace := [], z_block := 0 }

/-- An unused context object (the state left by `rsa_mont_ctx_free`). -/
def ctx_unset : rsa_mont_ctx_t :=
  { words := 0, hw_words := 0, mprime := 0, M := mbedtls_mpi_init, Rinv := mbedtls_mpi_init }

/-- The non-negative big integer with the given limbs. -/
def mpi_of_words (ws : List Nat) : mbedtls_mpi := { s := 1, p := ws }

/-- The fault oracle under which exactly collaborator call number `n` fails. -/
def fault_at (n : Nat) : Nat → Bool := fun k => decide (k = n)

/-! ## Derived statistics (`rsa_benchmark.c`, lines 40-50)

The `double` arithmetic is read as exact arithmetic in an ordered field `K`
(the rationals when evaluating, the reals when `sqrt` is the real square
root).  A division is a partial operation, so that a division by zero shows
in the result. -/

/-- The quotient `a / b` of two `double` values; `none` when the divisor is zero. -/
def double_div {K : Type} [LinearOrderedField K] (a b : K) : Option K :=
  if b = 0 then none else some (a / b)

/-- The function `stats_avg_us`. -/
def stats_avg_us {K : Type} [LinearOrderedField K] (s : bench_stats_t) : Option K :=
  if s.count = 0 then some 0
  else double_div (s.total_us : K) (s.count : K)

/-- The function `stats_stddev_us`; the library function `sqrt` is a parameter. -/
def stats_stddev_us {K : Type} [LinearOrderedField K] (sqrt : K → K) (s : bench_stats_t) :
    Option K :=
  if s.count = 0 then some 0
  else
    match (stats_avg_us s : Option K) with
    | none => none
    | some mean =>
      match double_div (s.sumsq : K) (s.count : K) with
      | none => none
      | some q =>
        let var := q - mean * mean
        some (if var > 0 then sqrt var else 0)

/-- The arithmetic mean of the samples. -/
def sample_mean {K : Type} [LinearOrderedField K] (samples : List Nat) : K :=
  (samples.map (fun (x : Nat) => (x : K))).sum / (samples.length : K)

/-- The population variance `(1/n) * sum (x_i - mean)^2` of the samples. -/
def sample_variance {K : Type} [LinearOrderedField K] (samples : List Nat) : K :=
  (1 / (samples.length : K)) *
    (samples.map (fun (x : Nat) => ((x : K) - sample_mean samples) ^ 2)).sum

/-! ## Random operands (`rsa_benchmark.c`, lines 64-92) -/

/-- Word `j` of a buffer filled by `fill_random_words`: its four bytes are the
low bytes of four consecutive values of `esp_random()`, lowest address first
(the target is little-endian).  `rnd i` is the value returned by call `i`. -/
def random_word (rnd : Nat → Nat) (j : Nat) : Nat :=
  (rnd (4 * j) &&& 0xFF) + (rnd (4 * j + 1) &&& 0xFF) * 2 ^ 8
    + (rnd (4 * j + 2) &&& 0xFF) * 2 ^ 16 + (rnd (4 * j + 3) &&& 0xFF) * 2 ^ 24

/-- The function `fill_random_words(num, words)`. -/
def fill_random_words (rnd : Nat → Nat) (num : List Nat) (words : Nat) : List Nat :=
  (List.range words).map (random_word rnd) ++ num.drop words

/-- The function `set_msb(num, bits)`. -/
def set_msb (num : List Nat) (bits : Nat) : List Nat :=
  let last := bits / 32 - 1
  num.set last (num.getD last 0 ||| 0x80000000)

/-- The function `clear_msb(num, bits)`. -/
def clear_msb (num : List Nat) (bits : Nat) : List Nat :=
  let last := bits / 32 - 1
  num.set last (num.getD last 0 &&& 0x7FFFFFFF)

/-- The function `generate_modulus(M, bits)`. -/
def generate_modulus (rnd : Nat → Nat) (M : List Nat) (bits : Nat) : List Nat :=
  let words := bits / 32
  let M1 := fill_random_words rnd M words
  let M2 := set_msb M1 bits
  M2.set 0 (M2.getD 0 0 ||| 0x01)

/-- The function `generate_operand(X, bits)`. -/
def generate_operand (rnd : Nat → Nat) (X : List Nat) (bits : Nat) : List Nat :=
  let words := bits / 32
  let X1 := fill_random_words rnd X words
  clear_msb X1 bits

/-! ## The Montgomery constant as the specification describes it (section 4.1) -/

/-- The iteration `x <- x * (2 - M0 * x) mod 2^32` of the specification,
applied `k` times. -/
def montmul_spec_iterate (M0 : Nat) : Nat → Nat → Nat
  | 0, x => x
  | k + 1, x =>
    montmul_spec_iterate M0 k (Int.toNat (((x : Int) * (2 - (M0 : Int) * x)) % 2 ^ 32))

/-- The procedure of the specification with the iteration count
`log2(32) = 5`: start from `x = M0` plus the parity correction
`((M0 + 2) & 4) << 1`, iterate five times, return `-x mod 2^32`. -/
def montmul_init_spec (M0 : Nat) : Nat :=
  let x0 := (M0 + ((((M0 + 2) % 2 ^ 32) &&& 4) <<< 1)) % 2 ^ 32
  let x := montmul_spec_iterate M0 5 x0
  Int.toNat ((-(x : Int)) % 2 ^ 32)

/-! ## Observing the hardware calls of one execution -/

/-- The hardware calls logged between two environment states. -/
def events_since (before after : hw_state) : List hw_event :=
  after.trace.drop before.trace.length

/-- An acquire or a release of the hardware multiplier. -/
def is_toggle (e : hw_event) : Bool :=
  match e with
  | hw_event.enable => true
  | hw_event.disable => true
  | _ => false

/-- A Montgomery multiplication issued by `esp_mont_hw_op`. -/
def is_mont (e : hw_event) : Bool :=
  match e with
  | hw_event.mont_op _ _ _ => true
  | _ => false

/-- A Montgomery multiplication issued from the given call site. -/
def is_mont_at (site : mont_site) (e : hw_event) : Bool :=
  match e with
  | hw_event.mont_op s _ _ => decide (s = site)
  | _ => false

/-- The number of ones in the binary expansion of `n`. -/
def popcount (n : Nat) : Nat := (Nat.digits 2 n).sum

/-- The number of indices `i < k` at which `mbedtls_mpi_get_bit(E, i)` is set. -/
def exp_bits (E : mbedtls_mpi) : Nat → Nat
  | 0 => 0
  | k + 1 => exp_bits E k + (if mbedtls_mpi_get_bit E k ≠ 0 then 1 else 0)

/-! ## The timed benchmark loop (`rsa_benchmark.c`, lines 196-219 and 295-316) -/

/-- One line printed by the timed loop: the record of `csv_iter`, the
`Progress: i/n` line and the `Failed at iteration i` line. -/
inductive bench_line where
  | csv (iter us : Nat)
  | progress (done total : Nat)
  | failed (i : Nat)
  deriving DecidableEq, Repr

/-- The locals `stats` and `successful_ops` and the lines printed so far. -/
structure bench_run where
  stats : bench_stats_t
  successful_ops : Nat
  lines : List bench_line
  deriving DecidableEq, Repr

/-- The loop `for (size_t i = 0; i < iterations; i++)` shared by
`benchmark_modmult_ctx` and `benchmark_modexp_ctx`.  `outcome i` is `none`
when the operation of iteration `i` fails and the elapsed time `end - start`
otherwise; the first argument counts the iterations still to run. -/
def benchmark_loop (iterations : Nat) (outcome : Nat → Option Nat) :
    Nat → Nat → bench_run → bench_run
  | 0, _, r => r
  | fuel + 1, i, r =>
    match outcome i with
    | some us =>
      let lines1 := r.lines ++ [bench_line.csv (i + 1) us]
      let lines2 :=
        if iterations ≥ 5 ∧ (i + 1) % (iterations / 5) = 0 then
          lines1 ++ [bench_line.progress (i + 1) iterations]
        else lines1
      benchmark_loop iterations outcome fuel (i + 1)
        { stats := stats_update r.stats us
          successful_ops := (r.successful_ops + 1) % 2 ^ 32
          lines := lines2 }
    | none => { r with lines := r.lines ++ [bench_line.failed i] }

/-- The timed loop from `stats_init` and `successful_ops = 0`. -/
def benchmark_run (iterations : Nat) (outcome : Nat → Option Nat) : bench_run :=
  benchmark_loop iterations outcome iterations 0
    { stats := stats_init, successful_ops := 0, lines := [] }

/-- A `Progress` line. -/
def is_progress (l : bench_line) : Bool :=
  match l with
  | bench_line.progress _ _ => true
  | _ => false

/-! ## Intermediate values of the reference multiplication (`rsa_debug.c`, lines 55-61) -/

/-- The values of the expressions `res + x` and `x << 1` evaluated by the
loop of `modmul_u64`, over the unbounded integers (before they are stored in
a `uint64_t`), in the order of evaluation.  The loop state evolves as in
`modmul_loop`. -/
def modmul_intermediates (mod : Nat) : Nat → Nat → Nat → Nat → List Nat
  | 0, _, _, _ => []
  | fuel + 1, res, x, y =>
    if y > 0 then
      let sums := if y &&& 1 ≠ 0 then [res + x] else []
      let res1 := if y &&& 1 ≠ 0 then ((res + x) % 2 ^ 64) % mod else res
      let x1 := ((x <<< 1) % 2 ^ 64) % mod
      sums ++ [x <<< 1] ++ modmul_intermediates mod fuel res1 x1 (y >>> 1)
    else []

/-- The intermediate values of one call `modmul_u64(a, b, mod)`. -/
def modmul_u64_intermediates (a b mod : Nat) : List Nat :=
  if mod = 0 then []
  else modmul_intermediates mod 64 0 (a % mod) b

/-! ## Montgomery constant: proofs -/

theorem and_four_eq (a : Nat) : a &&& 4 = a / 4 % 2 * 4 := by
  have h := Nat.and_two_pow a 2
  rw [Nat.testBit_to_div_mod] at h
  have h4 : (2 : Nat) ^ 2 = 4 := by norm_num
  rw [h4] at h
  rw [h]
  rcases Nat.mod_two_eq_zero_or_one (a / 4) with h0 | h1
  · simp [h0]
  · simp [h1]

/-- In the integers, one loop pass computes `x * (2 - n0 * x)` modulo `2 ^ 32`. -/
theorem montmul_init_step_modEq (n0 x : Nat) :
    (montmul_init_step n0 x : ℤ) ≡ (x : ℤ) * (2 - (n0 : ℤ) * x) [ZMOD (2 : ℤ) ^ 32] := by
  unfold montmul_init_step
  have hle : (n0 * x) % 2 ^ 32 ≤ 2 + 2 ^ 32 :=
    le_trans (Nat.le_of_lt (Nat.mod_lt _ (by norm_num))) (by norm_num)
  have h1 : (((2 + 2 ^ 32 - (n0 * x) % 2 ^ 32 : ℕ) : ℤ)) ≡ 2 - (n0 : ℤ) * x [ZMOD (2 : ℤ) ^ 32] := by
    rw [Nat.cast_sub hle]
    push_cast
    have h2 : ((n0 : ℤ) * x) % 2 ^ 32 ≡ (n0 : ℤ) * x [ZMOD (2 : ℤ) ^ 32] := Int.mod_modEq _ _
    have h3 : (2 + 2 ^ 32 : ℤ) ≡ 2 [ZMOD (2 : ℤ) ^ 32] := by
      have : (2 + 2 ^ 32 : ℤ) = 2 + 2 ^ 32 * 1 := by ring
      rw [this]
      exact Int.modEq_add_fac_self
    exact Int.ModEq.sub h3 h2
  push_cast
  calc ((x : ℤ) * (((2 + 2 ^ 32 - (n0 * x) % 2 ^ 32 : ℕ) : ℤ) % 2 ^ 32)) % 2 ^ 32
      ≡ (x : ℤ) * (((2 + 2 ^ 32 - (n0 * x) % 2 ^ 32 : ℕ) : ℤ) % 2 ^ 32) [ZMOD (2 : ℤ) ^ 32] :=
        Int.mod_modEq _ _
    _ ≡ (x : ℤ) * ((2 + 2 ^ 32 - (n0 * x) % 2 ^ 32 : ℕ) : ℤ) [ZMOD (2 : ℤ) ^ 32] :=
        Int.ModEq.mul_left _ (Int.mod_modEq _ _)
    _ ≡ (x : ℤ) * (2 - (n0 : ℤ) * x) [ZMOD (2 : ℤ) ^ 32] := Int.ModEq.mul_left _ h1

/-- Newton step: an inverse of `n0` modulo `2 ^ k` becomes one modulo `2 ^ (2 * k)`. -/
theorem montmul_init_step_lift (n0 x k : Nat) (hk : 2 * k ≤ 32)
    (h : ((2 : ℤ) ^ k) ∣ ((n0 : ℤ) * x - 1)) :
    ((2 : ℤ) ^ (2 * k)) ∣ ((n0 : ℤ) * (montmul_init_step n0 x : ℤ) - 1) := by
  have hstep := montmul_init_step_modEq n0 x
  have hdvd : ((2 : ℤ) ^ (2 * k)) ∣ (2 : ℤ) ^ 32 := pow_dvd_pow 2 hk
  have hstep2 : (montmul_init_step n0 x : ℤ) ≡ (x : ℤ) * (2 - (n0 : ℤ) * x) [ZMOD (2 : ℤ) ^ (2 * k)] :=
    Int.ModEq.of_dvd hdvd hstep
  have h3 : (n0 : ℤ) * (montmul_init_step n0 x : ℤ) - 1
      ≡ (n0 : ℤ) * ((x : ℤ) * (2 - (n0 : ℤ) * x)) - 1 [ZMOD (2 : ℤ) ^ (2 * k)] :=
    Int.ModEq.sub_right _ (Int.ModEq.mul_left _ hstep2)
  have hsq : ((2 : ℤ) ^ (2 * k)) ∣ ((n0 : ℤ) * ((x : ℤ) * (2 - (n0 : ℤ) * x)) - 1) := by
    obtain ⟨c, hc⟩ := h
    refine ⟨-(c * c), ?_⟩
    have hx : (n0 : ℤ) * x = 2 ^ k * c + 1 := by linarith
    have : (n0 : ℤ) * ((x : ℤ) * (2 - (n0 : ℤ) * x)) = ((n0 : ℤ) * x) * (2 - (n0 : ℤ) * x) := by ring
    rw [this, hx, two_mul, pow_add]
    ring
  exact Int.modEq_zero_iff_dvd.mp (h3.trans (Int.modEq_zero_iff_dvd.mpr hsq))

theorem montmul_init_loop_eq (n0 x : Nat) :
    montmul_init_loop n0 32 32 x
      = montmul_init_step n0 (montmul_init_step n0 (montmul_init_step n0 x)) := by
  simp [montmul_init_loop]

/-- The start value `n0 + (((n0 + 2) & 4) << 1)` inverts an odd `n0` modulo 16. -/
theorem montmul_init_start (n0 : Nat) (hodd : n0 % 2 = 1) :
    ((2 : ℤ) ^ 4) ∣ ((n0 : ℤ) * ((n0 + ((((n0 + 2) % 2 ^ 32) &&& 4) <<< 1)) % 2 ^ 32 : ℕ) - 1) := by
  rw [and_four_eq, Nat.shiftLeft_eq]
  set x1 := (n0 + (n0 + 2) % 2 ^ 32 / 4 % 2 * 4 * 2 ^ 1) % 2 ^ 32 with hx1
  have hx : x1 % 16 = (n0 % 16 + (n0 % 16 + 2) / 4 % 2 * 8) % 16 := by
    rw [hx1]; omega
  have hmul : (n0 * x1) % 16 = 1 := by
    rw [Nat.mul_mod, hx]
    have hr : n0 % 16 < 16 := Nat.mod_lt _ (by norm_num)
    have hr2 : n0 % 16 % 2 = 1 := by omega
    generalize n0 % 16 = r at hr hr2
    interval_cases r <;> simp_all
  have : ((n0 * x1 : ℕ) : ℤ) % 16 = 1 := by exact_mod_cast hmul
  have h16 : (2 : ℤ) ^ 4 = 16 := by norm_num
  rw [h16]
  push_cast at this
  exact Int.dvd_of_emod_eq_zero (by omega)

theorem montmul_init_step_lt (n0 x : Nat) : montmul_init_step n0 x < 2 ^ 32 :=
  Nat.mod_lt _ (by norm_num)

/-- C4: for every odd 32-bit least-significant modulus word `M0`, the constant
`mprime = montmul_init_u32(M0)` is a 32-bit word with `M0 * mprime ≡ -1 (mod 2^32)`,
that is, the product reduced modulo `2^32` is `2^32 - 1`. -/
theorem montmul_init_u32_spec (M0 : Nat) (rest : List Nat)
    (h32 : M0 < 2 ^ 32) (hodd : M0 % 2 = 1) :
    montmul_init_u32 (M0 :: rest) < 2 ^ 32 ∧
      (M0 * montmul_init_u32 (M0 :: rest)) % 2 ^ 32 = 2 ^ 32 - 1 := by
  have _ := h32
  have h4 := montmul_init_start M0 hodd
  set x1 := (M0 + ((((M0 + 2) % 2 ^ 32) &&& 4) <<< 1)) % 2 ^ 32 with hx1
  have h8 := montmul_init_step_lift M0 x1 4 (by norm_num) h4
  have h16 := montmul_init_step_lift M0 _ 8 (by norm_num) h8
  have h32b := montmul_init_step_lift M0 _ 16 (by norm_num) h16
  set x3 := montmul_init_step M0 (montmul_init_step M0 (montmul_init_step M0 x1)) with hx3
  have hlt : x3 < 2 ^ 32 := montmul_init_step_lt _ _
  have hval : montmul_init_u32 (M0 :: rest) = (2 ^ 32 - 1 - x3 + 1) % 2 ^ 32 := by
    simp only [montmul_init_u32, List.getD_cons_zero, montmul_init_loop_eq]
  refine ⟨by rw [hval]; exact Nat.mod_lt _ (by norm_num), ?_⟩
  rw [hval]
  have hsub : 2 ^ 32 - 1 - x3 + 1 = 2 ^ 32 - x3 := by omega
  rw [hsub, Nat.mul_mod, Nat.mod_mod, ← Nat.mul_mod]
  obtain ⟨c, hc⟩ := h32b
  have hz : ((M0 * (2 ^ 32 - x3) : ℕ) : ℤ) = 2 ^ 32 * (M0 - c - 1) + (2 ^ 32 - 1) := by
    rw [Nat.cast_mul, Nat.cast_sub (Nat.le_of_lt hlt)]
    push_cast
    have : (2 : ℤ) ^ (2 * 16) = 2 ^ 32 := by norm_num
    rw [this] at hc
    linear_combination (-1 : ℤ) * hc
  have hz2 : ((M0 * (2 ^ 32 - x3) : ℕ) : ℤ) % 2 ^ 32 = 2 ^ 32 - 1 := by
    rw [hz, add_comm, Int.add_mul_emod_self_left]
    norm_num
  omega

theorem montmul_init_u32_spec_witness :
    montmul_init_u32 [5] < 2 ^ 32 ∧ (5 * montmul_init_u32 [5]) % 2 ^ 32 = 2 ^ 32 - 1 :=
  montmul_init_u32_spec 5 [] (by decide) (by decide)

/-! ## Software reference arithmetic: proofs -/

/-- Loop invariant of `modmul_u64`: with a modulus of at most `2 ^ 63` no
intermediate value wraps, and the loop adds `x * y` to `res` modulo `mod`. -/
theorem modmul_loop_spec (mod : Nat) (hmod : 0 < mod) (hmod63 : mod ≤ 2 ^ 63) :
    ∀ (fuel res x y : Nat), res < mod → x < mod → y < 2 ^ fuel →
      modmul_loop mod fuel res x y = (res + x * y) % mod := by
  intro fuel
  induction fuel with
  | zero =>
    intro res x y hres _ hy
    have hy0 : y = 0 := by simpa using hy
    subst hy0
    simp [modmul_loop, Nat.mod_eq_of_lt hres]
  | succ fuel ih =>
    intro res x y hres hx hy
    unfold modmul_loop
    by_cases hy0 : y > 0
    · simp only [hy0, if_true]
      have hx1 : (x <<< 1) % 2 ^ 64 = 2 * x := by
        rw [Nat.shiftLeft_eq, pow_one, Nat.mod_eq_of_lt (by omega)]
        ring
      have hsum : (res + x) % 2 ^ 64 = res + x := Nat.mod_eq_of_lt (by omega)
      have hy2 : y >>> 1 < 2 ^ fuel := by
        rw [Nat.shiftRight_eq_div_pow, pow_one]
        rw [pow_succ] at hy
        omega
      rw [hx1, hsum, Nat.and_one_is_mod]
      have hdecomp : y = 2 * (y >>> 1) + y % 2 := by
        rw [Nat.shiftRight_eq_div_pow, pow_one]; omega
      rcases Nat.mod_two_eq_zero_or_one y with h0 | h1
      · rw [h0] at hdecomp ⊢
        simp only [ne_eq, not_true_eq_false, if_false]
        rw [ih res _ _ hres (Nat.mod_lt _ hmod) hy2]
        have : (res + 2 * x % mod * (y >>> 1)) ≡ res + x * y [MOD mod] := by
          have h2 : 2 * x % mod * (y >>> 1) ≡ 2 * x * (y >>> 1) [MOD mod] :=
            Nat.ModEq.mul_right _ (Nat.mod_modEq _ _)
          have h3 : 2 * x * (y >>> 1) = x * y := by
            conv_rhs => rw [hdecomp]
            ring
          rw [h3] at h2
          exact Nat.ModEq.add_left _ h2
        exact this
      · rw [h1] at hdecomp ⊢
        simp only [ne_eq, one_ne_zero, not_false_eq_true, if_true]
        rw [ih _ _ _ (Nat.mod_lt _ hmod) (Nat.mod_lt _ hmod) hy2]
        have : ((res + x) % mod + 2 * x % mod * (y >>> 1)) ≡ res + x * y [MOD mod] := by
          have h2 : 2 * x % mod * (y >>> 1) ≡ 2 * x * (y >>> 1) [MOD mod] :=
            Nat.ModEq.mul_right _ (Nat.mod_modEq _ _)
          have h1 : (res + x) % mod ≡ res + x [MOD mod] := Nat.mod_modEq _ _
          have h3 : res + x + 2 * x * (y >>> 1) = res + x * y := by
            conv_rhs => rw [hdecomp]
            ring
          rw [← h3]
          exact Nat.ModEq.add h1 h2
        exact this
    · have hy00 : y = 0 := by omega
      subst hy00
      simp [Nat.mod_eq_of_lt hres]

theorem modmul_u64_eq (a b mod : Nat) (hb : b < 2 ^ 64) (hmod : 0 < mod)
    (hmod63 : mod ≤ 2 ^ 63) : modmul_u64 a b mod = (a * b) % mod := by
  unfold modmul_u64
  rw [if_neg (by omega),
    modmul_loop_spec mod hmod hmod63 64 0 (a % mod) b hmod (Nat.mod_lt _ hmod) hb]
  rw [Nat.zero_add]
  exact Nat.ModEq.mul_right _ (Nat.mod_modEq _ _)

/-- C7 as stated fails: with the 64-bit modulus `2^64 - 1` the doubling
`x << 1` of `x = 2^63` wraps to 0, so `modmul_u64(2^63, 2, 2^64 - 1)` is 0
whereas `(2^63 * 2) mod (2^64 - 1)` is 1. -/
theorem modmul_u64_wraps :
    (2 ^ 63 < 2 ^ 64 ∧ 2 < 2 ^ 64 ∧ 2 ^ 64 - 1 < 2 ^ 64 ∧ 2 ^ 64 - 1 ≠ 0) ∧
      modmul_u64 (2 ^ 63) 2 (2 ^ 64 - 1) = 0 ∧ (2 ^ 63 * 2) % (2 ^ 64 - 1) = 1 := by
  decide

/-- C7 (amended): for all 64-bit operands `a` and `b` and every modulus with
`0 < mod ≤ 2^63`, the reference `modmul_u64(a, b, mod)` equals `(a*b) mod mod`
computed over the unbounded integers. -/
theorem modmul_u64_correct (a b mod : Nat) (ha : a < 2 ^ 64) (hb : b < 2 ^ 64)
    (hmod : 0 < mod) (hmod63 : mod ≤ 2 ^ 63) :
    modmul_u64 a b mod = (a * b) % mod := by
  have _ := ha
  exact modmul_u64_eq a b mod hb hmod hmod63

theorem modmul_u64_correct_witness :
    modmul_u64 (2 ^ 63) 2 (2 ^ 63) = (2 ^ 63 * 2) % 2 ^ 63 :=
  modmul_u64_correct (2 ^ 63) 2 (2 ^ 63) (by decide) (by decide) (by decide) (by decide)

/-- Loop invariant of `modexp_u64` (right-to-left square and multiply). -/
theorem modexp_loop_spec (mod : Nat) (hmod : 0 < mod) (hmod63 : mod ≤ 2 ^ 63) :
    ∀ (fuel result b e : Nat), result < mod → b < mod → e < 2 ^ fuel →
      modexp_loop mod fuel result b e = (result * b ^ e) % mod := by
  intro fuel
  induction fuel with
  | zero =>
    intro result b e hres _ he
    have he0 : e = 0 := by simpa using he
    subst he0
    simp [modexp_loop, Nat.mod_eq_of_lt hres]
  | succ fuel ih =>
    intro result b e hres hb he
    have hmodlt : mod < 2 ^ 64 := by omega
    unfold modexp_loop
    by_cases he0 : e > 0
    · simp only [he0, if_true]
      have he2 : e >>> 1 < 2 ^ fuel := by
        rw [Nat.shiftRight_eq_div_pow, pow_one]
        rw [pow_succ] at he
        omega
      have hdecomp : e = 2 * (e >>> 1) + e % 2 := by
        rw [Nat.shiftRight_eq_div_pow, pow_one]; omega
      have hbb : modmul_u64 b b mod = (b * b) % mod :=
        modmul_u64_eq b b mod (by omega) hmod hmod63
      have hrb : modmul_u64 result b mod = (result * b) % mod :=
        modmul_u64_eq result b mod (by omega) hmod hmod63
      rw [hbb, hrb, Nat.and_one_is_mod]
      have hsq : ((b * b) % mod) ^ (e >>> 1) ≡ b ^ (2 * (e >>> 1)) [MOD mod] := by
        rw [pow_mul, pow_two]
        exact Nat.ModEq.pow _ (Nat.mod_modEq _ _)
      rcases Nat.mod_two_eq_zero_or_one e with h0 | h1
      · rw [h0] at hdecomp ⊢
        simp only [ne_eq, not_true_eq_false, if_false]
        rw [ih result _ _ hres (Nat.mod_lt _ hmod) he2]
        have h3 : b ^ e = b ^ (2 * (e >>> 1)) := by
          conv_lhs => rw [hdecomp]
          simp
        rw [h3]
        exact Nat.ModEq.mul_left _ hsq
      · rw [h1] at hdecomp ⊢
        simp only [ne_eq, one_ne_zero, not_false_eq_true, if_true]
        rw [ih _ _ _ (Nat.mod_lt _ hmod) (Nat.mod_lt _ hmod) he2]
        have h3 : result * b ^ e = result * b * b ^ (2 * (e >>> 1)) := by
          conv_lhs => rw [hdecomp]
          rw [pow_add, pow_one]
          ring
        rw [h3]
        exact Nat.ModEq.mul (Nat.mod_modEq _ _) hsq
    · have he00 : e = 0 := by omega
      subst he00
      simp [Nat.mod_eq_of_lt hres]

/-- C8: for all single-word (32-bit) values `base`, `exp` and `mod` with
`mod ≥ 1`, the reference `modexp_u64(base, exp, mod)` equals
`base^exp mod mod` over the unbounded integers; in particular
`modexp_u64(base, 0, mod) = 1 mod mod` and `modexp_u64(2, 3, 5) = 3`. -/
theorem modexp_u64_correct (base exp mod : Nat) (hbase : base < 2 ^ 32)
    (hexp : exp < 2 ^ 32) (hmod32 : mod < 2 ^ 32) (hmod : 1 ≤ mod) :
    modexp_u64 base exp mod = base ^ exp % mod ∧
      modexp_u64 base 0 mod = 1 % mod ∧ modexp_u64 2 3 5 = 3 := by
  have _ := hbase
  have hgen : ∀ e, e < 2 ^ 64 → modexp_u64 base e mod = base ^ e % mod := by
    intro e he
    unfold modexp_u64
    rw [if_neg (by omega),
      modexp_loop_spec mod hmod (by omega) 64 (1 % mod) (base % mod) e
        (Nat.mod_lt _ hmod) (Nat.mod_lt _ hmod) he]
    have h1 : 1 % mod * (base % mod) ^ e ≡ 1 * base ^ e [MOD mod] :=
      Nat.ModEq.mul (Nat.mod_modEq _ _) (Nat.ModEq.pow _ (Nat.mod_modEq _ _))
    rw [one_mul] at h1
    exact h1
  refine ⟨hgen exp (by omega), ?_, by decide⟩
  rw [hgen 0 (by norm_num), pow_zero]

theorem modexp_u64_correct_witness :
    modexp_u64 2 3 5 = 2 ^ 3 % 5 ∧ modexp_u64 2 0 5 = 1 % 5 ∧ modexp_u64 2 3 5 = 3 :=
  modexp_u64_correct 2 3 5 (by decide) (by decide) (by decide) (by decide)

/-! ## Small-exponent search: proofs -/

theorem search_all_eq :
    search_all
      = { best := 19635, best_diff := 365, best_factors := [3, 5, 7, 11, 17], best_count := 5 } := by
  decide!

theorem sublists_closest : ∀ s ∈ primes.sublists, 1 ≤ s.length → s.length ≤ 5 →
    Int.natAbs ((19635 : Int) - 20000) ≤ Int.natAbs ((s.prod : Int) - 20000) := by
  decide!

/-- C9: the value `p` returned by `choose_small_exponent` is the product of a
subset of 1 to 5 distinct primes from `{3,5,7,11,13,17,19,23,29}` (a sublist
of the duplicate-free table), and for every subset `s` of 1 to 5 distinct
primes from that list with product `q`, `|p - 20000| ≤ |q - 20000|`. -/
theorem choose_small_exponent_closest (factors s : List Nat)
    (hs : s.Sublist primes) (h1 : 1 ≤ s.length) (h5 : s.length ≤ 5) :
    (∃ t : List Nat, t.Sublist primes ∧ 1 ≤ t.length ∧ t.length ≤ 5 ∧
        t.prod = (choose_small_exponent factors).1) ∧
      Int.natAbs (((choose_small_exponent factors).1 : Int) - 20000)
        ≤ Int.natAbs ((s.prod : Int) - 20000) := by
  have hp : (choose_small_exponent factors).1 = 19635 := by
    simp only [choose_small_exponent, search_all_eq]
  rw [hp]
  refine ⟨⟨[3, 5, 7, 11, 17], by decide, by decide, by decide, by decide⟩, ?_⟩
  exact sublists_closest s (List.mem_sublists.mpr hs) h1 h5

theorem choose_small_exponent_closest_witness :
    (∃ t : List Nat, t.Sublist primes ∧ 1 ≤ t.length ∧ t.length ≤ 5 ∧
        t.prod = (choose_small_exponent [0, 0, 0, 0, 0]).1) ∧
      Int.natAbs (((choose_small_exponent [0, 0, 0, 0, 0]).1 : Int) - 20000)
        ≤ Int.natAbs ((([5, 7, 19, 29] : List Nat).prod : Int) - 20000) :=
  choose_small_exponent_closest [0, 0, 0, 0, 0] [5, 7, 19, 29]
    (by decide) (by decide) (by decide)

/-! ## Benchmark statistics: proofs -/

theorem stats_foldl_count (samples : List Nat) (s : bench_stats_t) :
    (samples.foldl stats_update s).count = (s.count + samples.length) % 2 ^ 32 ∨
      (samples = [] ∧ (samples.foldl stats_update s).count = s.count) := by
  induction samples generalizing s with
  | nil => right; simp
  | cons x xs ih =>
    left
    rcases ih (stats_update s x) with h | ⟨hnil, h⟩
    · rw [List.foldl_cons, h]
      simp only [stats_update, List.length_cons]
      omega
    · subst hnil
      simp only [List.foldl_cons, List.foldl_nil, stats_update, List.length_cons,
        List.length_nil]

theorem stats_feed_count (samples : List Nat) :
    (stats_feed samples).count = samples.length % 2 ^ 32 := by
  unfold stats_feed
  rcases stats_foldl_count samples stats_init with h | ⟨hnil, h⟩
  · rw [h]; simp [stats_init]
  · subst hnil; simp [stats_init]

theorem stats_foldl_total (samples : List Nat) (s : bench_stats_t) :
    (samples.foldl stats_update s).total_us % 2 ^ 64 = (s.total_us + samples.sum) % 2 ^ 64 := by
  induction samples generalizing s with
  | nil => simp
  | cons x xs ih =>
    rw [List.foldl_cons, ih]
    simp only [stats_update, List.sum_cons]
    omega

theorem stats_foldl_total_lt (samples : List Nat) (s : bench_stats_t)
    (h : s.total_us < 2 ^ 64) : (samples.foldl stats_update s).total_us < 2 ^ 64 := by
  induction samples generalizing s with
  | nil => simpa using h
  | cons x xs ih =>
    rw [List.foldl_cons]
    apply ih
    simp only [stats_update]
    exact Nat.mod_lt _ (by norm_num)

theorem stats_foldl_min (samples : List Nat) (s : bench_stats_t) :
    ((samples.foldl stats_update s).min_us = s.min_us ∨
        (samples.foldl stats_update s).min_us ∈ samples) ∧
      (samples.foldl stats_update s).min_us ≤ s.min_us ∧
      ∀ x ∈ samples, (samples.foldl stats_update s).min_us ≤ x := by
  induction samples generalizing s with
  | nil => simp
  | cons y ys ih =>
    rw [List.foldl_cons]
    obtain ⟨h1, h2, h3⟩ := ih (stats_update s y)
    have hm : (stats_update s y).min_us = if y < s.min_us then y else s.min_us := rfl
    refine ⟨?_, ?_, ?_⟩
    · rcases h1 with h | h
      · rw [h, hm]
        by_cases hy : y < s.min_us
        · right; simp [hy]
        · left; simp [hy]
      · right; exact List.mem_cons_of_mem _ h
    · rw [hm] at h2
      by_cases hy : y < s.min_us
      · simp only [hy, if_true] at h2; omega
      · simpa [hy] using h2
    · intro x hx
      rcases List.mem_cons.mp hx with hxy | hxys
      · subst hxy
        rw [hm] at h2
        by_cases hy : x < s.min_us
        · simpa [hy] using h2
        · simp only [hy, if_false] at h2; omega
      · exact h3 x hxys

theorem stats_foldl_max (samples : List Nat) (s : bench_stats_t) :
    ((samples.foldl stats_update s).max_us = s.max_us ∨
        (samples.foldl stats_update s).max_us ∈ samples) ∧
      s.max_us ≤ (samples.foldl stats_update s).max_us ∧
      ∀ x ∈ samples, x ≤ (samples.foldl stats_update s).max_us := by
  induction samples generalizing s with
  | nil => simp
  | cons y ys ih =>
    rw [List.foldl_cons]
    obtain ⟨h1, h2, h3⟩ := ih (stats_update s y)
    have hm : (stats_update s y).max_us = if y > s.max_us then y else s.max_us := rfl
    refine ⟨?_, ?_, ?_⟩
    · rcases h1 with h | h
      · rw [h, hm]
        by_cases hy : y > s.max_us
        · right; simp [hy]
        · left; simp [hy]
      · right; exact List.mem_cons_of_mem _ h
    · rw [hm] at h2
      by_cases hy : y > s.max_us
      · simp only [hy, if_true] at h2; omega
      · simpa [hy] using h2
    · intro x hx
      rcases List.mem_cons.mp hx with hxy | hxys
      · subst hxy
        rw [hm] at h2
        by_cases hy : x > s.max_us
        · simpa [hy] using h2
        · simp only [hy, if_false] at h2; omega
      · exact h3 x hxys

/-- C10 as stated fails: `count` is a 32-bit `size_t`, so it wraps.  After
`2^32` samples of 0 microseconds (a non-empty sequence of 64-bit samples whose
sum 0 is below `2^64`) `count` is 0, not the sequence length `2^32`. -/
theorem stats_count_wraps :
    List.replicate (2 ^ 32) 0 ≠ [] ∧
      (∀ x ∈ List.replicate (2 ^ 32) 0, x < 2 ^ 64) ∧
      (List.replicate (2 ^ 32) 0).sum < 2 ^ 64 ∧
      (stats_feed (List.replicate (2 ^ 32) 0)).count = 0 ∧
      (stats_feed (List.replicate (2 ^ 32) 0)).count
        ≠ (List.replicate (2 ^ 32) 0).length := by
  have hcount : (stats_feed (List.replicate (2 ^ 32) 0)).count = 0 := by
    rw [stats_feed_count, List.length_replicate, Nat.mod_self]
  refine ⟨?_, ?_, ?_, hcount, ?_⟩
  · intro h
    have := congrArg List.length h
    rw [List.length_replicate] at this
    simp at this
  · intro x hx
    rw [List.eq_of_mem_replicate hx]
    norm_num
  · rw [List.sum_replicate]
    norm_num
  · rw [hcount, List.length_replicate]
    norm_num

/-- C10 (amended): for every non-empty sequence of fewer than `2^32` 64-bit
samples whose sum is below `2^64`, after `stats_init` followed by
`stats_update` on each sample in order, `count` equals the sequence length,
`total_us` equals the sum of the samples, `min_us` is the smallest sample and
`max_us` is the largest sample. -/
theorem stats_feed_correct (samples : List Nat) (hne : samples ≠ [])
    (h64 : ∀ x ∈ samples, x < 2 ^ 64) (hsum : samples.sum < 2 ^ 64)
    (hlen : samples.length < 2 ^ 32) :
    (stats_feed samples).count = samples.length ∧
      (stats_feed samples).total_us = samples.sum ∧
      ((stats_feed samples).min_us ∈ samples ∧
        ∀ x ∈ samples, (stats_feed samples).min_us ≤ x) ∧
      ((stats_feed samples).max_us ∈ samples ∧
        ∀ x ∈ samples, x ≤ (stats_feed samples).max_us) := by
  refine ⟨?_, ?_, ⟨?_, ?_⟩, ⟨?_, ?_⟩⟩
  · rw [stats_feed_count, Nat.mod_eq_of_lt hlen]
  · have h1 := stats_foldl_total samples stats_init
    have h2 := stats_foldl_total_lt samples stats_init (by simp [stats_init])
    unfold stats_feed
    rw [Nat.mod_eq_of_lt h2] at h1
    rw [h1]
    simp only [stats_init, Nat.zero_add]
    exact Nat.mod_eq_of_lt hsum
  · obtain ⟨h1, _, h3⟩ := stats_foldl_min samples stats_init
    unfold stats_feed
    rcases h1 with h | h
    · obtain ⟨y, hy⟩ := List.exists_mem_of_ne_nil samples hne
      have hle := h3 y hy
      have hy64 := h64 y hy
      rw [h] at hle ⊢
      simp only [stats_init, UINT64_MAX] at hle ⊢
      have hyeq : 2 ^ 64 - 1 = y := by omega
      rw [hyeq]
      exact hy
    · exact h
  · exact (stats_foldl_min samples stats_init).2.2
  · obtain ⟨h1, _, h3⟩ := stats_foldl_max samples stats_init
    unfold stats_feed
    rcases h1 with h | h
    · obtain ⟨y, hy⟩ := List.exists_mem_of_ne_nil samples hne
      have hall : ∀ x ∈ samples, x = 0 := by
        intro x hx
        have := h3 x hx
        rw [h] at this
        simpa [stats_init] using this
      rw [h]
      simp only [stats_init]
      rw [← hall y hy]
      exact hy
    · exact h
  · exact (stats_foldl_max samples stats_init).2.2

theorem stats_feed_correct_witness :
    (stats_feed [10, 20, 30]).count = ([10, 20, 30] : List Nat).length ∧
      (stats_feed [10, 20, 30]).total_us = ([10, 20, 30] : List Nat).sum ∧
      ((stats_feed [10, 20, 30]).min_us ∈ ([10, 20, 30] : List Nat) ∧
        ∀ x ∈ ([10, 20, 30] : List Nat), (stats_feed [10, 20, 30]).min_us ≤ x) ∧
      ((stats_feed [10, 20, 30]).max_us ∈ ([10, 20, 30] : List Nat) ∧
        ∀ x ∈ ([10, 20, 30] : List Nat), x ≤ (stats_feed [10, 20, 30]).max_us) :=
  stats_feed_correct [10, 20, 30] (by decide) (by decide) (by decide) (by decide)

theorem stats_feed_example :
    stats_feed [10, 20, 30]
      = { min_us := 10, max_us := 30, total_us := 60, sumsq := 1400, count := 3 } := by
  decide

/-! ## Word arrays and big integers: lemmas -/

theorem fromWords_append (a b : List Nat) :
    fromWords (a ++ b) = fromWords a + 2 ^ (32 * a.length) * fromWords b := by
  induction a with
  | nil => simp [fromWords]
  | cons w ws ih =>
    rw [List.cons_append]
    simp only [fromWords, List.length_cons]
    rw [ih, Nat.mul_succ, pow_add]
    ring

theorem fromWords_replicate_zero (k : Nat) : fromWords (List.replicate k 0) = 0 := by
  induction k with
  | zero => rfl
  | succ k ih => simp [List.replicate_succ, fromWords, ih]

theorem toLimbs_length (n v : Nat) : (toLimbs n v).length = n := by
  induction n generalizing v with
  | zero => rfl
  | succ n ih => simp [toLimbs, ih]

theorem fromWords_toLimbs (n v : Nat) : fromWords (toLimbs n v) = v % 2 ^ (32 * n) := by
  induction n generalizing v with
  | zero => simp [toLimbs, fromWords, Nat.mod_one]
  | succ n ih =>
    simp only [toLimbs, fromWords, ih]
    rw [Nat.mul_succ, pow_add, mul_comm (2 ^ (32 * n)) (2 ^ 32), Nat.mod_mul]

theorem words_ok_toLimbs (n v : Nat) : words_ok (toLimbs n v) := by
  induction n generalizing v with
  | zero => intro w hw; simp [toLimbs] at hw
  | succ n ih =>
    intro w hw
    simp only [toLimbs, List.mem_cons] at hw
    rcases hw with h | h
    · rw [h]; exact Nat.mod_lt _ (by norm_num)
    · exact ih _ w h

theorem fromWords_lt (ws : List Nat) (h : words_ok ws) :
    fromWords ws < 2 ^ (32 * ws.length) := by
  induction ws with
  | nil => simp [fromWords]
  | cons w ws ih =>
    have hw : w < 2 ^ 32 := h w (List.mem_cons_self _ _)
    have hws : fromWords ws < 2 ^ (32 * ws.length) :=
      ih (fun x hx => h x (List.mem_cons_of_mem _ hx))
    simp only [fromWords, List.length_cons]
    rw [Nat.mul_succ, pow_add, mul_comm (2 ^ (32 * ws.length)) (2 ^ 32)]
    have h1 : fromWords ws + 1 ≤ 2 ^ (32 * ws.length) := hws
    calc w + 2 ^ 32 * fromWords ws
        < 2 ^ 32 + 2 ^ 32 * fromWords ws := by omega
      _ = 2 ^ 32 * (fromWords ws + 1) := by ring
      _ ≤ 2 ^ 32 * 2 ^ (32 * ws.length) := Nat.mul_le_mul_left _ h1

theorem read_words_self (ws : List Nat) : read_words ws.length ws = ws := by
  induction ws with
  | nil => rfl
  | cons w ws ih => simp [read_words, ih]

theorem read_words_length (n : Nat) (ws : List Nat) : (read_words n ws).length = n := by
  induction n generalizing ws with
  | zero => rfl
  | succ n ih => simp [read_words, ih]

theorem read_words_head (n : Nat) (ws : List Nat) :
    (read_words (n + 1) ws).getD 0 0 = ws.getD 0 0 := by
  cases ws <;> simp [read_words]

/-! ## The Montgomery product: lemmas -/

theorem mod_inverse_spec (r M : Nat) (hM : 0 < M) (hco : Nat.Coprime r M) :
    (r * mod_inverse r M) % M = 1 % M := by
  have hex : ∃ y ∈ List.range M, decide ((r * y) % M = 1 % M) = true := by
    by_cases h1 : M = 1
    · subst h1
      exact ⟨0, by simp, by simp⟩
    · obtain ⟨m, hm⟩ := Nat.exists_mul_emod_eq_one_of_coprime hco (by omega)
      refine ⟨m % M, List.mem_range.mpr (Nat.mod_lt _ hM), ?_⟩
      rw [decide_eq_true_eq, Nat.mul_mod, Nat.mod_mod, ← Nat.mul_mod, hm]
      exact (Nat.mod_eq_of_lt (by omega)).symm
  have hsome := List.find?_isSome.mpr hex
  obtain ⟨y, hy⟩ := Option.isSome_iff_exists.mp hsome
  have hp := List.find?_some hy
  unfold mod_inverse
  rw [hy]
  simpa using hp

theorem coprime_two_pow_of_odd (k M : Nat) (hodd : M % 2 = 1) : Nat.Coprime (2 ^ k) M :=
  Nat.Coprime.pow_left k (Nat.coprime_two_left.mpr (Nat.odd_iff.mpr hodd))

theorem mont_lt (M hw a b : Nat) (hM : 0 < M) : mont M hw a b < M :=
  Nat.mod_lt _ hM

/-- The defining property of the Montgomery product: `r * mont(a, b) ≡ a * b (mod M)`. -/
theorem mont_spec (M hw a b : Nat) (hodd : M % 2 = 1) :
    2 ^ (32 * hw) * mont M hw a b ≡ a * b [MOD M] := by
  have hM : 0 < M := by omega
  have hinv := mod_inverse_spec (2 ^ (32 * hw)) M hM (coprime_two_pow_of_odd _ M hodd)
  set r := 2 ^ (32 * hw)
  set ri := mod_inverse r M
  have h1 : r * ri ≡ 1 [MOD M] := by
    unfold Nat.ModEq; rw [hinv]
  have h2 : r * mont M hw a b ≡ r * (a * b * ri) [MOD M] :=
    Nat.ModEq.mul_left _ (Nat.mod_modEq _ _)
  have h3 : r * (a * b * ri) = (a * b) * (r * ri) := by ring
  rw [h3] at h2
  have h4 : (a * b) * (r * ri) ≡ (a * b) * 1 [MOD M] := Nat.ModEq.mul_left _ h1
  rw [mul_one] at h4
  exact h2.trans h4

/-- Cancelling the radix: `r * u ≡ r * v (mod M)` gives `u ≡ v (mod M)` for odd `M`. -/
theorem radix_cancel (M hw u v : Nat) (hodd : M % 2 = 1)
    (h : 2 ^ (32 * hw) * u ≡ 2 ^ (32 * hw) * v [MOD M]) : u ≡ v [MOD M] := by
  have hco : Nat.gcd M (2 ^ (32 * hw)) = 1 := by
    have := coprime_two_pow_of_odd (32 * hw) M hodd
    rw [Nat.coprime_comm] at this
    exact this
  exact Nat.ModEq.cancel_left_of_coprime hco h

/-! ## Bits of a big integer: lemmas -/

theorem fromWords_testBit (ws : List Nat) (h : words_ok ws) (pos : Nat) :
    (fromWords ws).testBit pos = (ws.getD (pos / 32) 0).testBit (pos % 32) := by
  induction ws generalizing pos with
  | nil => simp [fromWords]
  | cons w ws ih =>
    have hw : w < 2 ^ 32 := h w (List.mem_cons_self _ _)
    have hws : words_ok ws := fun x hx => h x (List.mem_cons_of_mem _ hx)
    simp only [fromWords]
    rw [add_comm, Nat.testBit_mul_pow_two_add _ hw]
    by_cases hp : pos < 32
    · rw [if_pos hp]
      have h0 : pos / 32 = 0 := Nat.div_eq_of_lt hp
      rw [h0, Nat.mod_eq_of_lt hp]
      rfl
    · rw [if_neg hp, ih hws]
      have h1 : pos / 32 = (pos - 32) / 32 + 1 := by omega
      have h2 : pos % 32 = (pos - 32) % 32 := by omega
      rw [h1, h2, List.getD_cons_succ]

/-- The collaborator `mbedtls_mpi_get_bit` returns bit `pos` of the value. -/
theorem get_bit_eq (X : mbedtls_mpi) (h : words_ok X.p) (pos : Nat) :
    mbedtls_mpi_get_bit X pos = mpi_value X / 2 ^ pos % 2 := by
  have key : (X.p.getD (pos / 32) 0 >>> (pos % 32)) &&& 1 = mpi_value X / 2 ^ pos % 2 := by
    rw [Nat.and_one_is_mod, Nat.shiftRight_eq_div_pow, ← Nat.toNat_testBit,
      ← fromWords_testBit X.p h pos, Nat.toNat_testBit]
    rfl
  unfold mbedtls_mpi_get_bit
  by_cases hlen : X.p.length * 32 ≤ pos
  · rw [if_pos hlen, ← key, List.getD_eq_default _ _ (by omega)]
    simp
  · rw [if_neg hlen, key]

theorem and_shift_ne_zero (limb j : Nat) :
    limb &&& (1 <<< j) ≠ 0 ↔ limb.testBit j = true := by
  rw [Nat.one_shiftLeft, Nat.and_two_pow]
  cases limb.testBit j <;> simp

/-- The inner loop of `mpi_msb` finds the top bit of a non-zero limb below `2^k`. -/
theorem mpi_msb_bit_spec (limb : Nat) :
    ∀ k : Nat, limb < 2 ^ k → limb ≠ 0 →
      ∃ j, mpi_msb_bit limb k = some j ∧ 2 ^ j ≤ limb ∧ limb < 2 ^ (j + 1) := by
  intro k
  induction k with
  | zero => intro h0 hne; simp at h0; exact absurd h0 hne
  | succ k ih =>
    intro hlt hne
    unfold mpi_msb_bit
    by_cases hb : limb.testBit k = true
    · rw [if_pos ((and_shift_ne_zero limb k).mpr hb)]
      exact ⟨k, rfl, Nat.testBit_implies_ge hb, hlt⟩
    · rw [if_neg (fun hc => hb ((and_shift_ne_zero limb k).mp hc))]
      have hlt2 : limb < 2 ^ k := by
        apply Nat.lt_pow_two_of_testBit
        intro i hi
        rcases Nat.eq_or_lt_of_le hi with h | h
        · rw [← h]; simpa using hb
        · exact Nat.testBit_lt_two_pow
            (lt_of_lt_of_le hlt (Nat.pow_le_pow_right (by norm_num) h))
      exact ih hlt2 hne

/-- The outer loop of `mpi_msb`: when all limbs from index `k` on are zero and
the value is not, the result is the index of the most significant set bit. -/
theorem mpi_msb_limbs_spec (p : List Nat) (hp : words_ok p) :
    ∀ k : Nat, fromWords (p.drop k) = 0 → fromWords p ≠ 0 →
      2 ^ mpi_msb_limbs p k ≤ fromWords p ∧ fromWords p < 2 ^ (mpi_msb_limbs p k + 1) := by
  intro k
  induction k with
  | zero =>
    intro h0 hne
    rw [List.drop_zero] at h0
    exact absurd h0 hne
  | succ k ih =>
    intro hdrop hne
    unfold mpi_msb_limbs
    by_cases hk : k < p.length
    · have hcons := List.drop_eq_getElem_cons hk
      have hget : p.getD k 0 = p[k] := List.getD_eq_getElem _ _ hk
      have hdk : fromWords (p.drop k) = p[k] := by
        rw [hcons]; simp only [fromWords]; rw [hdrop]; simp
      by_cases hz : p[k] = 0
      · simp only [hget, hz, ne_eq, not_true_eq_false, if_false]
        exact ih (by rw [hdk, hz]) hne
      · have hlimb : p[k] < 2 ^ 32 := hp _ (List.getElem_mem _)
        obtain ⟨j, hj, hlo, hhi⟩ := mpi_msb_bit_spec p[k] 32 hlimb hz
        simp only [hget, ne_eq, hz, not_false_eq_true, if_true, hj]
        have hsplit : fromWords p
            = fromWords (p.take k) + 2 ^ (32 * k) * p[k] := by
          conv_lhs => rw [← List.take_append_drop k p]
          rw [fromWords_append, hdk, List.length_take, Nat.min_eq_left (Nat.le_of_lt hk)]
        have hlow : fromWords (p.take k) < 2 ^ (32 * k) := by
          have := fromWords_lt (p.take k)
            (fun x hx => hp x (List.mem_of_mem_take hx))
          rwa [List.length_take, Nat.min_eq_left (Nat.le_of_lt hk)] at this
        have e1 : 2 ^ (k * 32 + j) = 2 ^ (32 * k) * 2 ^ j := by
          rw [← pow_add]; congr 1; ring
        have e2 : 2 ^ (k * 32 + j + 1) = 2 ^ (32 * k) * 2 ^ (j + 1) := by
          rw [← pow_add]; congr 1; ring
        rw [hsplit, e1, e2]
        constructor
        · calc 2 ^ (32 * k) * 2 ^ j ≤ 2 ^ (32 * k) * p[k] := Nat.mul_le_mul_left _ hlo
            _ ≤ fromWords (p.take k) + 2 ^ (32 * k) * p[k] := Nat.le_add_left _ _
        · have h1 : p[k] + 1 ≤ 2 ^ (j + 1) := hhi
          calc fromWords (p.take k) + 2 ^ (32 * k) * p[k]
              < 2 ^ (32 * k) + 2 ^ (32 * k) * p[k] := by omega
            _ = 2 ^ (32 * k) * (p[k] + 1) := by ring
            _ ≤ 2 ^ (32 * k) * 2 ^ (j + 1) := Nat.mul_le_mul_left _ h1
    · have hge : p.length ≤ k := by omega
      have hget : p.getD k 0 = 0 := List.getD_eq_default _ _ hge
      simp only [hget, ne_eq, not_true_eq_false, if_false]
      exact ih (by rw [List.drop_of_length_le hge]; rfl) hne

/-- The function `mpi_msb` returns the index `t` of the most significant set
bit of a non-zero big integer: `2^t ≤ E < 2^(t+1)`. -/
theorem mpi_msb_spec (E : mbedtls_mpi) (hE : words_ok E.p) (hne : mpi_value E ≠ 0) :
    2 ^ mpi_msb E ≤ mpi_value E ∧ mpi_value E < 2 ^ (mpi_msb E + 1) := by
  unfold mpi_msb
  have hlen : E.p.length ≠ 0 := by
    intro h0
    have : E.p = [] := List.length_eq_zero.mp h0
    apply hne
    simp [mpi_value, this, fromWords]
  rw [if_pos hlen]
  exact mpi_msb_limbs_spec E.p hE E.p.length (by simp [fromWords]) hne

/-! ## Collaborator calls: lemmas -/

theorem grow_ok_X (fault : Nat → Bool) (X : mbedtls_mpi) (n : Nat) (st : hw_state)
    (h : (mbedtls_mpi_grow fault X n st).ok = true) :
    (mbedtls_mpi_grow fault X n st).X
      = { X with p := X.p ++ List.replicate (n - X.p.length) 0 } := by
  unfold mbedtls_mpi_grow at h ⊢
  by_cases hf : fault st.calls = true
  · simp [hf] at h
  · simp [hf]

theorem grow_nofault (fault : Nat → Bool) (hf : ∀ k, fault k = false) (X : mbedtls_mpi)
    (n : Nat) (st : hw_state) : (mbedtls_mpi_grow fault X n st).ok = true := by
  simp [mbedtls_mpi_grow, hf]

theorem fromWords_map_zero (l : List Nat) : fromWords (l.map (fun _ => 0)) = 0 := by
  induction l with
  | nil => rfl
  | cons a t ih =>
    rw [List.map_cons]
    simp only [fromWords]
    rw [ih]
    norm_num

theorem words_ok_map_zero (l : List Nat) : words_ok (l.map (fun _ => 0)) := by
  intro w hw
  obtain ⟨_, _, rfl⟩ := List.mem_map.mp hw
  norm_num

theorem words_ok_append (a b : List Nat) (ha : words_ok a) (hb : words_ok b) :
    words_ok (a ++ b) := by
  intro w hw
  rcases List.mem_append.mp hw with h | h
  · exact ha w h
  · exact hb w h

theorem words_ok_replicate_zero (k : Nat) : words_ok (List.replicate k 0) := by
  intro w hw
  rw [List.eq_of_mem_replicate hw]
  norm_num

theorem lset_one_ok_X (fault : Nat → Bool) (X : mbedtls_mpi) (st : hw_state)
    (h : (mbedtls_mpi_lset fault X 1 st).ok = true) :
    (mbedtls_mpi_lset fault X 1 st).X.s = 1 ∧
      words_ok (mbedtls_mpi_lset fault X 1 st).X.p ∧
      mpi_value (mbedtls_mpi_lset fault X 1 st).X = 1 := by
  unfold mbedtls_mpi_lset at h ⊢
  simp only [] at h ⊢
  by_cases hg : (mbedtls_mpi_grow fault X 1 st).ok = true
  · rw [if_pos hg]
    have hX := grow_ok_X fault X 1 st hg
    rw [hX]
    simp only []
    have hne : ∃ a t, X.p ++ List.replicate (1 - X.p.length) 0 = a :: t := by
      cases hp : X.p with
      | nil => exact ⟨0, [], by simp⟩
      | cons a t => exact ⟨a, t ++ List.replicate (1 - (a :: t).length) 0, by simp⟩
    obtain ⟨a, t, hat⟩ := hne
    rw [hat]
    refine ⟨by norm_num, ?_, ?_⟩
    · intro w hw
      simp only [List.map_cons, List.set_cons_zero, List.mem_cons] at hw
      rcases hw with h1 | h1
      · rw [h1]; norm_num
      · exact words_ok_map_zero t w h1
    · simp only [mpi_value, List.map_cons, List.set_cons_zero, fromWords, fromWords_map_zero]
      norm_num
  · rw [if_neg hg] at h
    exact absurd h hg

theorem lset_nofault (fault : Nat → Bool) (hf : ∀ k, fault k = false) (X : mbedtls_mpi)
    (z : Int) (st : hw_state) : (mbedtls_mpi_lset fault X z st).ok = true := by
  simp [mbedtls_mpi_lset, grow_nofault fault hf]

theorem shift_l_ok_X (fault : Nat → Bool) (X : mbedtls_mpi) (count : Nat) (st : hw_state)
    (hX : words_ok X.p) (h : (mbedtls_mpi_shift_l fault X count st).ok = true) :
    (mbedtls_mpi_shift_l fault X count st).X.s = X.s ∧
      words_ok (mbedtls_mpi_shift_l fault X count st).X.p ∧
      mpi_value (mbedtls_mpi_shift_l fault X count st).X = mpi_value X * 2 ^ count := by
  unfold mbedtls_mpi_shift_l at h ⊢
  by_cases hf : fault st.calls = true
  · simp [hf] at h
  · simp only [hf, Bool.false_eq_true, if_false]
    refine ⟨trivial, words_ok_toLimbs _ _, ?_⟩
    simp only [mpi_value]
    rw [fromWords_toLimbs]
    apply Nat.mod_eq_of_lt
    have h1 : fromWords X.p < 2 ^ (32 * X.p.length) := fromWords_lt X.p hX
    have h2 : count ≤ 32 * ((count + 31) / 32) := by omega
    calc fromWords X.p * 2 ^ count
        < 2 ^ (32 * X.p.length) * 2 ^ count :=
          Nat.mul_lt_mul_of_pos_right h1 (pow_pos (by norm_num) _)
      _ ≤ 2 ^ (32 * X.p.length) * 2 ^ (32 * ((count + 31) / 32)) :=
          Nat.mul_le_mul_left _ (Nat.pow_le_pow_right (by norm_num) h2)
      _ = 2 ^ (32 * (X.p.length + (count + 31) / 32)) := by
          rw [← pow_add]; congr 1; ring

theorem shift_l_nofault (fault : Nat → Bool) (hf : ∀ k, fault k = false) (X : mbedtls_mpi)
    (count : Nat) (st : hw_state) : (mbedtls_mpi_shift_l fault X count st).ok = true := by
  simp [mbedtls_mpi_shift_l, hf]

theorem cmp_int_zero_pos (B : mbedtls_mpi) (hs : B.s = 1) (hv : 0 < mpi_value B) :
    ¬ mbedtls_mpi_cmp_int B 0 ≤ 0 := by
  unfold mbedtls_mpi_cmp_int
  simp only [hs, one_mul]
  have h1 : ¬ ((mpi_value B : Int) < 0) := by omega
  have h2 : ¬ ((mpi_value B : Int) = 0) := by omega
  rw [if_neg h1, if_neg h2]
  norm_num

theorem mod_mpi_ok_X (fault : Nat → Bool) (R A B : mbedtls_mpi) (st : hw_state)
    (hA : words_ok A.p) (h : (mbedtls_mpi_mod_mpi fault R A B st).ok = true) :
    (mbedtls_mpi_mod_mpi fault R A B st).X.s = 1 ∧
      words_ok (mbedtls_mpi_mod_mpi fault R A B st).X.p ∧
      mpi_value (mbedtls_mpi_mod_mpi fault R A B st).X = mpi_value A % mpi_value B := by
  unfold mbedtls_mpi_mod_mpi at h ⊢
  by_cases hf : fault st.calls = true
  · simp [hf] at h
  · by_cases hc : mbedtls_mpi_cmp_int B 0 ≤ 0
    · simp [hc, hf] at h
    · simp only [hc, hf, Bool.false_eq_true, if_false]
      refine ⟨trivial, words_ok_toLimbs _ _, ?_⟩
      simp only [mpi_value]
      rw [fromWords_toLimbs]
      apply Nat.mod_eq_of_lt
      have h1 : fromWords A.p < 2 ^ (32 * A.p.length) := fromWords_lt A.p hA
      have h2 : fromWords A.p % fromWords B.p ≤ fromWords A.p := Nat.mod_le _ _
      have h3 : 2 ^ (32 * A.p.length) ≤ 2 ^ (32 * max R.p.length A.p.length) :=
        Nat.pow_le_pow_right (by norm_num) (by omega)
      omega

theorem mod_mpi_nofault (fault : Nat → Bool) (hf : ∀ k, fault k = false)
    (R A B : mbedtls_mpi) (st : hw_state) (hs : B.s = 1) (hv : 0 < mpi_value B) :
    (mbedtls_mpi_mod_mpi fault R A B st).ok = true := by
  unfold mbedtls_mpi_mod_mpi
  rw [hf, if_neg Bool.false_ne_true, if_neg (cmp_int_zero_pos B hs hv)]

theorem set_words_ok_X (fault : Nat → Bool) (words : List Nat) (n : Nat) (st : hw_state)
    (h : (rsa_mpi_set_words fault mbedtls_mpi_init words n st).ok = true) :
    (rsa_mpi_set_words fault mbedtls_mpi_init words n st).X
      = { s := 1, p := read_words n words } := by
  unfold rsa_mpi_set_words at h ⊢
  simp only [] at h ⊢
  by_cases hg : (mbedtls_mpi_grow fault mbedtls_mpi_init n st).ok = true
  · simp only [hg, not_true_eq_false, if_false]
    rw [grow_ok_X fault _ n st hg]
    simp [mbedtls_mpi_init]
  · simp [hg] at h

theorem set_words_nofault (fault : Nat → Bool) (hf : ∀ k, fault k = false)
    (X : mbedtls_mpi) (words : List Nat) (n : Nat) (st : hw_state) :
    (rsa_mpi_set_words fault X words n st).ok = true := by
  simp [rsa_mpi_set_words, grow_nofault fault hf]

theorem mont_op_nofault (fault : Nat → Bool) (hf : ∀ k, fault k = false) (site : mont_site)
    (Z X Y M : mbedtls_mpi) (mp hw : Nat) (again : Bool) (st : hw_state) :
    (esp_mont_hw_op fault site Z X Y M mp hw again st).ok = true := by
  simp [esp_mont_hw_op, hf]

/-- Without a fault and with a modulus that fits the hardware width, the
big integer written by `esp_mont_hw_op` holds the Montgomery product. -/
theorem mont_op_value (fault : Nat → Bool) (hf : ∀ k, fault k = false) (site : mont_site)
    (Z X Y M : mbedtls_mpi) (mp hw : Nat) (again : Bool) (st : hw_state)
    (hM : 0 < mpi_value M) (hfit : mpi_value M ≤ 2 ^ (32 * hw)) :
    mpi_value (esp_mont_hw_op fault site Z X Y M mp hw again st).X
      = mont (mpi_value M) hw (mpi_value X) (mpi_value Y) := by
  simp only [esp_mont_hw_op, hf, Bool.false_eq_true, if_false, mpi_value]
  rw [fromWords_append, fromWords_replicate_zero, fromWords_toLimbs, Nat.mul_zero, Nat.add_zero]
  exact Nat.mod_eq_of_lt (lt_of_lt_of_le (mont_lt _ _ _ _ hM) hfit)

/-! ## Montgomery context: lemmas -/

/-- What a successful `rsa_mont_ctx_init` has checked and stored. -/
theorem ctx_init_success (hwc : Nat → Nat) (fault : Nat → Bool) (ctx : rsa_mont_ctx_t)
    (M_words : List Nat) (words : Nat) (st : hw_state)
    (h : (rsa_mont_ctx_init hwc fault ctx M_words words st).ok = true) :
    words ≠ 0 ∧ M_words.getD 0 0 % 2 = 1 ∧
      (rsa_mont_ctx_init hwc fault ctx M_words words st).ctx.words = words ∧
      (rsa_mont_ctx_init hwc fault ctx M_words words st).ctx.hw_words = hwc words ∧
      (rsa_mont_ctx_init hwc fault ctx M_words words st).ctx.M
        = { s := 1, p := read_words words M_words } ∧
      (rsa_mont_ctx_init hwc fault ctx M_words words st).ctx.mprime
        = montmul_init_u32 (read_words words M_words) ∧
      (rsa_mont_ctx_init hwc fault ctx M_words words st).ctx.Rinv.s = 1 ∧
      words_ok (rsa_mont_ctx_init hwc fault ctx M_words words st).ctx.Rinv.p ∧
      mpi_value (rsa_mont_ctx_init hwc fault ctx M_words words st).ctx.Rinv
        = 2 ^ (hwc words * 2 * 32) % fromWords (read_words words M_words) := by
  simp only [rsa_mont_ctx_init] at h ⊢
  by_cases hw0 : words = 0
  · rw [if_pos hw0] at h; exact absurd h Bool.false_ne_true
  by_cases hev : M_words.getD 0 0 &&& 1 = 0
  · rw [if_neg hw0, if_pos hev] at h; exact absurd h Bool.false_ne_true
  rw [if_neg hw0, if_neg hev] at h ⊢
  have hodd : M_words.getD 0 0 % 2 = 1 := by
    rw [Nat.and_one_is_mod] at hev
    omega
  by_cases h1 : (rsa_mpi_set_words fault mbedtls_mpi_init M_words words st).ok = true
  swap
  · rw [if_pos h1] at h; exact absurd h Bool.false_ne_true
  have hM := set_words_ok_X fault M_words words st h1
  rw [if_neg (not_not.mpr h1)] at h ⊢
  set st1 := (rsa_mpi_set_words fault mbedtls_mpi_init M_words words st).st
  by_cases h2 : (mbedtls_mpi_lset fault mbedtls_mpi_init 1 st1).ok = true
  swap
  · rw [if_pos h2] at h; exact absurd h Bool.false_ne_true
  obtain ⟨hs2, hok2, hv2⟩ := lset_one_ok_X fault mbedtls_mpi_init st1 h2
  rw [if_neg (not_not.mpr h2)] at h ⊢
  set R2 := (mbedtls_mpi_lset fault mbedtls_mpi_init 1 st1).X
  set st2 := (mbedtls_mpi_lset fault mbedtls_mpi_init 1 st1).st
  by_cases h3 : (mbedtls_mpi_shift_l fault R2 (hwc words * 2 * 32) st2).ok = true
  swap
  · rw [if_pos h3] at h; exact absurd h Bool.false_ne_true
  obtain ⟨_, hok3, hv3⟩ := shift_l_ok_X fault R2 (hwc words * 2 * 32) st2 hok2 h3
  rw [if_neg (not_not.mpr h3)] at h ⊢
  set R3 := (mbedtls_mpi_shift_l fault R2 (hwc words * 2 * 32) st2).X
  set st3 := (mbedtls_mpi_shift_l fault R2 (hwc words * 2 * 32) st2).st
  by_cases h4 : (mbedtls_mpi_mod_mpi fault R3 R3
      (rsa_mpi_set_words fault mbedtls_mpi_init M_words words st).X st3).ok = true
  swap
  · rw [if_pos h4] at h; exact absurd h Bool.false_ne_true
  obtain ⟨hs4, hok4, hv4⟩ := mod_mpi_ok_X fault R3 R3 _ st3 hok3 h4
  rw [if_neg (not_not.mpr h4)]
  refine ⟨hw0, hodd, rfl, rfl, hM, ?_, hs4, hok4, ?_⟩
  · show montmul_init_u32 (rsa_mpi_set_words fault mbedtls_mpi_init M_words words st).X.p = _
    rw [hM]
  · show mpi_value (mbedtls_mpi_mod_mpi fault R3 R3
      (rsa_mpi_set_words fault mbedtls_mpi_init M_words words st).X st3).X = _
    rw [hv4, hv3, hv2, hM, one_mul]
    rfl

/-- Without a fault, `rsa_mont_ctx_init` accepts every non-empty word array
whose least significant word is odd. -/
theorem ctx_init_nofault (hwc : Nat → Nat) (fault : Nat → Bool) (hf : ∀ k, fault k = false)
    (ctx : rsa_mont_ctx_t) (M_words : List Nat) (words : Nat) (st : hw_state)
    (hw0 : words ≠ 0) (hodd : M_words.getD 0 0 % 2 = 1) :
    (rsa_mont_ctx_init hwc fault ctx M_words words st).ok = true := by
  simp only [rsa_mont_ctx_init]
  have hev : ¬ (M_words.getD 0 0 &&& 1 = 0) := by
    rw [Nat.and_one_is_mod]; omega
  rw [if_neg hw0, if_neg hev]
  have h1 := set_words_nofault fault hf mbedtls_mpi_init M_words words st
  have hM := set_words_ok_X fault M_words words st h1
  rw [if_neg (not_not.mpr h1)]
  have h2 := lset_nofault fault hf mbedtls_mpi_init 1
    (rsa_mpi_set_words fault mbedtls_mpi_init M_words words st).st
  rw [if_neg (not_not.mpr h2)]
  have h3 := shift_l_nofault fault hf
    (mbedtls_mpi_lset fault mbedtls_mpi_init 1
      (rsa_mpi_set_words fault mbedtls_mpi_init M_words words st).st).X (hwc words * 2 * 32)
    (mbedtls_mpi_lset fault mbedtls_mpi_init 1
      (rsa_mpi_set_words fault mbedtls_mpi_init M_words words st).st).st
  rw [if_neg (not_not.mpr h3)]
  have hpos : 0 < mpi_value (rsa_mpi_set_words fault mbedtls_mpi_init M_words words st).X := by
    rw [hM]
    obtain ⟨n, rfl⟩ := Nat.exists_eq_succ_of_ne_zero hw0
    have hh : M_words.headD 0 = M_words.getD 0 0 := by cases M_words <;> rfl
    simp only [mpi_value, read_words, fromWords, hh]
    omega
  have hs : (rsa_mpi_set_words fault mbedtls_mpi_init M_words words st).X.s = 1 := by
    rw [hM]
  have h4 := mod_mpi_nofault fault hf
    (mbedtls_mpi_shift_l fault
      (mbedtls_mpi_lset fault mbedtls_mpi_init 1
        (rsa_mpi_set_words fault mbedtls_mpi_init M_words words st).st).X (hwc words * 2 * 32)
      (mbedtls_mpi_lset fault mbedtls_mpi_init 1
        (rsa_mpi_set_words fault mbedtls_mpi_init M_words words st).st).st).X
    (mbedtls_mpi_shift_l fault
      (mbedtls_mpi_lset fault mbedtls_mpi_init 1
        (rsa_mpi_set_words fault mbedtls_mpi_init M_words words st).st).X (hwc words * 2 * 32)
      (mbedtls_mpi_lset fault mbedtls_mpi_init 1
        (rsa_mpi_set_words fault mbedtls_mpi_init M_words words st).st).st).X
    (rsa_mpi_set_words fault mbedtls_mpi_init M_words words st).X
    (mbedtls_mpi_shift_l fault
      (mbedtls_mpi_lset fault mbedtls_mpi_init 1
        (rsa_mpi_set_words fault mbedtls_mpi_init M_words words st).st).X (hwc words * 2 * 32)
      (mbedtls_mpi_lset fault mbedtls_mpi_init 1
        (rsa_mpi_set_words fault mbedtls_mpi_init M_words words st).st).st).st hs hpos
  rw [if_neg (not_not.mpr h4)]

/-! ## Modular multiplication and exponentiation engines: lemmas -/

theorem toLimbs_zero (n : Nat) : toLimbs n 0 = List.replicate n 0 := by
  induction n with
  | zero => rfl
  | succ n ih => simp [toLimbs, ih, List.replicate_succ]

/-- The radix stored in the context is the square of the Montgomery radix. -/
theorem rinv_modEq (M hw Rv : Nat) (hR : Rv = 2 ^ (hw * 2 * 32) % M) :
    Rv ≡ 2 ^ (32 * hw) * 2 ^ (32 * hw) [MOD M] := by
  have e : 2 ^ (hw * 2 * 32) = 2 ^ (32 * hw) * 2 ^ (32 * hw) := by
    rw [← pow_add]; congr 1; ring
  rw [hR, e]
  exact Nat.mod_modEq _ _

/-- Two Montgomery passes against the stored radix give the plain product. -/
theorem mont_mont_rinv (M hw x y Rv : Nat) (hodd : M % 2 = 1)
    (hR : Rv = 2 ^ (hw * 2 * 32) % M) :
    mont M hw (mont M hw x y) Rv = (x * y) % M := by
  have hM : 0 < M := by omega
  set r := 2 ^ (32 * hw) with hr
  have h1 : r * mont M hw (mont M hw x y) Rv ≡ mont M hw x y * Rv [MOD M] :=
    mont_spec M hw _ _ hodd
  have h2 : mont M hw x y * Rv ≡ mont M hw x y * (r * r) [MOD M] :=
    Nat.ModEq.mul_left _ (rinv_modEq M hw Rv hR)
  have h3 : mont M hw x y * (r * r) = r * (r * mont M hw x y) := by ring
  have h4 : r * (r * mont M hw x y) ≡ r * (x * y) [MOD M] :=
    Nat.ModEq.mul_left _ (mont_spec M hw x y hodd)
  rw [h3] at h2
  have h5 : mont M hw (mont M hw x y) Rv ≡ x * y [MOD M] :=
    radix_cancel M hw _ _ hodd (h1.trans (h2.trans h4))
  have h6 : mont M hw (mont M hw x y) Rv % M = (x * y) % M := h5
  rwa [Nat.mod_eq_of_lt (mont_lt _ _ _ _ hM)] at h6

/-- The big integer `one` of `rsa_mod_exp_hw_ctx` has value 1. -/
theorem one_value (fault : Nat → Bool) (hf : ∀ k, fault k = false) (hw : Nat)
    (st st2 : hw_state) :
    (mbedtls_mpi_set_bit fault (mbedtls_mpi_grow fault mbedtls_mpi_init hw st).X 0 1 st2).ok
        = true ∧
      mpi_value
        (mbedtls_mpi_set_bit fault (mbedtls_mpi_grow fault mbedtls_mpi_init hw st).X 0 1 st2).X
        = 1 := by
  rw [grow_ok_X fault _ hw st (grow_nofault fault hf _ _ _)]
  cases hw with
  | zero =>
    simp [mbedtls_mpi_set_bit, mbedtls_mpi_init, hf, mpi_value, fromWords]
  | succ n =>
    simp [mbedtls_mpi_set_bit, mbedtls_mpi_init, hf, mpi_value, fromWords,
      List.replicate_succ, fromWords_replicate_zero]

/-- Loop invariant of the left-to-right square and multiply: entering the
loop at bit index `k - 1` with `Z ≡ r * x^(e / 2^k)`, it ends with
`Z ≡ r * x^e` (all modulo `M`), and never fails without a fault. -/
theorem exp_loop_spec (fault : Nat → Bool) (hf : ∀ k, fault k = false)
    (ctx : rsa_mont_ctx_t) (E X_mont : mbedtls_mpi) (t x : Nat)
    (hodd : mpi_value ctx.M % 2 = 1)
    (hfit : mpi_value ctx.M ≤ 2 ^ (32 * ctx.hw_words))
    (hE : words_ok E.p) (he : mpi_value E < 2 ^ (t + 1))
    (hxm : mpi_value X_mont ≡ x * 2 ^ (32 * ctx.hw_words) [MOD mpi_value ctx.M]) :
    ∀ (k : Nat) (Z : mbedtls_mpi) (st : hw_state), k ≤ t + 1 →
      mpi_value Z ≡ 2 ^ (32 * ctx.hw_words) * x ^ (mpi_value E / 2 ^ k) [MOD mpi_value ctx.M] →
      (exp_loop fault ctx E X_mont t k Z st).ok = true ∧
        mpi_value (exp_loop fault ctx E X_mont t k Z st).X
          ≡ 2 ^ (32 * ctx.hw_words) * x ^ mpi_value E [MOD mpi_value ctx.M] := by
  have hM : 0 < mpi_value ctx.M := by omega
  intro k
  induction k with
  | zero =>
    intro Z st _ hZ
    simp only [pow_zero, Nat.div_one] at hZ
    exact ⟨rfl, hZ⟩
  | succ k ih =>
    intro Z st hk hZ
    set m := mpi_value ctx.M with hm
    set r := 2 ^ (32 * ctx.hw_words) with hr
    set q := mpi_value E / 2 ^ (k + 1) with hq
    have hdecomp : mpi_value E / 2 ^ k = 2 * q + mpi_value E / 2 ^ k % 2 := by
      have : q = mpi_value E / 2 ^ k / 2 := by
        rw [hq, pow_succ, Nat.div_div_eq_div_mul]
      rw [this]; omega
    -- the squaring step
    obtain ⟨r1, hr1, hr1ok, hr1v⟩ : ∃ r1 : mpi_result,
        r1 = (if k ≠ t then
            esp_mont_hw_op fault mont_site.square Z Z Z ctx.M ctx.mprime ctx.hw_words true st
          else { ok := true, X := Z, st := st }) ∧ r1.ok = true ∧
          mpi_value r1.X ≡ r * x ^ (2 * q) [MOD m] := by
      refine ⟨_, rfl, ?_, ?_⟩
      · by_cases hkt : k ≠ t
        · rw [if_pos hkt]; exact mont_op_nofault fault hf _ _ _ _ _ _ _ _ _
        · rw [if_neg hkt]
      · by_cases hkt : k ≠ t
        · rw [if_pos hkt, mont_op_value fault hf _ _ _ _ _ _ _ _ _ hM hfit]
          have h1 : r * mont m ctx.hw_words (mpi_value Z) (mpi_value Z)
              ≡ mpi_value Z * mpi_value Z [MOD m] := mont_spec m _ _ _ hodd
          have h2 : mpi_value Z * mpi_value Z ≡ (r * x ^ q) * (r * x ^ q) [MOD m] :=
            Nat.ModEq.mul hZ hZ
          have h3 : (r * x ^ q) * (r * x ^ q) = r * (r * x ^ (2 * q)) := by
            rw [two_mul, pow_add]; ring
          rw [h3] at h2
          exact radix_cancel m ctx.hw_words _ _ hodd (h1.trans h2)
        · rw [if_neg hkt]
          have hkt2 : k = t := not_not.mp hkt
          have hq0 : q = 0 := by
            rw [hq, hkt2]; exact Nat.div_eq_of_lt he
          have hZ2 := hZ
          rw [hq0] at hZ2 ⊢
          simpa using hZ2
    -- the multiplication by the Montgomery form of X
    obtain ⟨r2, hr2, hr2ok, hr2v⟩ : ∃ r2 : mpi_result,
        r2 = (if mbedtls_mpi_get_bit E k ≠ 0 then
            esp_mont_hw_op fault mont_site.mul_x r1.X r1.X X_mont ctx.M ctx.mprime
              ctx.hw_words true r1.st
          else r1) ∧ r2.ok = true ∧
          mpi_value r2.X ≡ r * x ^ (mpi_value E / 2 ^ k) [MOD m] := by
      refine ⟨_, rfl, ?_, ?_⟩
      · by_cases hb : mbedtls_mpi_get_bit E k ≠ 0
        · rw [if_pos hb]; exact mont_op_nofault fault hf _ _ _ _ _ _ _ _ _
        · rw [if_neg hb]; exact hr1ok
      · rw [get_bit_eq E hE k]
        by_cases hb : mpi_value E / 2 ^ k % 2 ≠ 0
        · rw [if_pos hb, mont_op_value fault hf _ _ _ _ _ _ _ _ _ hM hfit]
          have hb1 : mpi_value E / 2 ^ k % 2 = 1 := by omega
          have h1 : r * mont m ctx.hw_words (mpi_value r1.X) (mpi_value X_mont)
              ≡ mpi_value r1.X * mpi_value X_mont [MOD m] := mont_spec m _ _ _ hodd
          have h2 : mpi_value r1.X * mpi_value X_mont ≡ (r * x ^ (2 * q)) * (x * r) [MOD m] :=
            Nat.ModEq.mul hr1v hxm
          have h3 : (r * x ^ (2 * q)) * (x * r) = r * (r * x ^ (mpi_value E / 2 ^ k)) := by
            rw [hdecomp, hb1, pow_add, pow_one]; ring
          rw [h3] at h2
          exact radix_cancel m ctx.hw_words _ _ hodd (h1.trans h2)
        · rw [if_neg hb]
          have hb0 : mpi_value E / 2 ^ k % 2 = 0 := by omega
          rw [hdecomp, hb0, Nat.add_zero]
          exact hr1v
    have hstep : exp_loop fault ctx E X_mont t (k + 1) Z st
        = exp_loop fault ctx E X_mont t k r2.X r2.st := by
      conv_lhs => unfold exp_loop
      simp only []
      rw [← hr1, if_neg (not_not.mpr hr1ok), ← hr2, if_neg (not_not.mpr hr2ok)]
    rw [hstep]
    exact ih r2.X r2.st (by omega) hr2v

/-! ## Claims about the Montgomery context and the two engines -/

/-- Facts about a successfully built context that the engines rely on. -/
theorem ctx_init_modulus (hwc : Nat → Nat) (fault : Nat → Bool) (hcap : ∀ n, n ≤ hwc n)
    (ctx0 : rsa_mont_ctx_t) (M_words : List Nat) (st : hw_state) (hMw : words_ok M_words)
    (hctx : (rsa_mont_ctx_init hwc fault ctx0 M_words M_words.length st).ok = true) :
    mpi_value (rsa_mont_ctx_init hwc fault ctx0 M_words M_words.length st).ctx.M
        = fromWords M_words ∧
      fromWords M_words % 2 = 1 ∧
      fromWords M_words
        ≤ 2 ^ (32 * (rsa_mont_ctx_init hwc fault ctx0 M_words M_words.length st).ctx.hw_words) ∧
      mpi_value (rsa_mont_ctx_init hwc fault ctx0 M_words M_words.length st).ctx.Rinv
        = 2 ^ ((rsa_mont_ctx_init hwc fault ctx0 M_words M_words.length st).ctx.hw_words * 2 * 32)
            % fromWords M_words := by
  obtain ⟨hw0, hodd, _, hhw, hM, _, _, _, hR⟩ :=
    ctx_init_success hwc fault ctx0 M_words M_words.length st hctx
  rw [read_words_self] at hM hR
  have hval : mpi_value (rsa_mont_ctx_init hwc fault ctx0 M_words M_words.length st).ctx.M
      = fromWords M_words := by rw [hM]; rfl
  refine ⟨hval, ?_, ?_, ?_⟩
  · cases M_words with
    | nil => exact absurd rfl hw0
    | cons w ws =>
      simp only [List.getD_cons_zero] at hodd
      simp only [fromWords]
      omega
  · rw [hhw]
    have h1 := fromWords_lt M_words hMw
    have h2 : 2 ^ (32 * M_words.length) ≤ 2 ^ (32 * hwc M_words.length) :=
      Nat.pow_le_pow_right (by norm_num) (Nat.mul_le_mul_left _ (hcap _))
    omega
  · rw [hR, hhw]

/-- C1: modelling the hardware primitive `esp_mont_hw_op` as
`mont(a,b) = a*b*r^-1 mod M` with `r = 2^(32*hw_words)`: for every context
successfully built by `rsa_mont_ctx_init` from an (odd) modulus `M`, every
`X < M` and every exponent `E ≥ 1`, `rsa_mod_exp_hw_ctx` succeeds and leaves
`Z = X^E mod M`.  Allocation is assumed to succeed (no injected fault) and the
hardware word capacity to be at least the word count. -/
theorem rsa_mod_exp_hw_ctx_correct (hwc : Nat → Nat) (fault : Nat → Bool)
    (hf : ∀ k, fault k = false) (hcap : ∀ n, n ≤ hwc n)
    (ctx0 : rsa_mont_ctx_t) (M_words : List Nat) (X E Z : mbedtls_mpi) (feed_wdt : Bool)
    (st st2 : hw_state) (hMw : words_ok M_words)
    (hctx : (rsa_mont_ctx_init hwc fault ctx0 M_words M_words.length st).ok = true)
    (hX : mpi_value X < fromWords M_words) (hE : mpi_ok E) (hE1 : 1 ≤ mpi_value E) :
    (rsa_mod_exp_hw_ctx fault (rsa_mont_ctx_init hwc fault ctx0 M_words M_words.length st).ctx
        X E Z feed_wdt st2).ok = true ∧
      mpi_value (rsa_mod_exp_hw_ctx fault
        (rsa_mont_ctx_init hwc fault ctx0 M_words M_words.length st).ctx
        X E Z feed_wdt st2).X = mpi_value X ^ mpi_value E % fromWords M_words := by
  have _ := hX
  obtain ⟨hMv, hodd, hfit, hRv⟩ := ctx_init_modulus hwc fault hcap ctx0 M_words st hMw hctx
  set ctx := (rsa_mont_ctx_init hwc fault ctx0 M_words M_words.length st).ctx with hctxdef
  rw [← hMv] at hodd hfit hRv ⊢
  set m := mpi_value ctx.M with hm
  have hM : 0 < m := by omega
  have hcmp : ¬ (mbedtls_mpi_cmp_int E 0 = 0) := by
    unfold mbedtls_mpi_cmp_int
    simp only [hE.1, one_mul]
    have h1 : ¬ ((mpi_value E : Int) < 0) := by omega
    have h2 : ¬ ((mpi_value E : Int) = 0) := by omega
    rw [if_neg h1, if_neg h2]
    norm_num
  simp only [rsa_mod_exp_hw_ctx]
  rw [if_neg hcmp]
  rw [if_neg (not_not.mpr (grow_nofault fault hf _ _ _)),
    if_neg (not_not.mpr (grow_nofault fault hf _ _ _)),
    if_neg (not_not.mpr (grow_nofault fault hf _ _ _))]
  obtain ⟨hone_ok, hone_v⟩ := one_value fault hf ctx.hw_words
    (mbedtls_mpi_grow fault Z ctx.hw_words
      (mbedtls_mpi_grow fault mbedtls_mpi_init ctx.hw_words st2).st).st
    (mbedtls_mpi_grow fault mbedtls_mpi_init ctx.hw_words
      (mbedtls_mpi_grow fault Z ctx.hw_words
        (mbedtls_mpi_grow fault mbedtls_mpi_init ctx.hw_words st2).st).st).st
  rw [if_neg (not_not.mpr hone_ok)]
  rw [if_neg (not_not.mpr (mont_op_nofault fault hf _ _ _ _ _ _ _ _ _)),
    if_neg (not_not.mpr (mont_op_nofault fault hf _ _ _ _ _ _ _ _ _))]
  set r := 2 ^ (32 * ctx.hw_words) with hr
  -- X in Montgomery form
  have hxm : mpi_value (esp_mont_hw_op fault mont_site.to_mont
      (mbedtls_mpi_grow fault mbedtls_mpi_init ctx.hw_words st2).X X ctx.Rinv ctx.M ctx.mprime
      ctx.hw_words false
      (esp_mpi_enable_hardware_hw_op
        (mbedtls_mpi_set_bit fault
          (mbedtls_mpi_grow fault mbedtls_mpi_init ctx.hw_words
            (mbedtls_mpi_grow fault Z ctx.hw_words
              (mbedtls_mpi_grow fault mbedtls_mpi_init ctx.hw_words st2).st).st).X 0 1
          (mbedtls_mpi_grow fault mbedtls_mpi_init ctx.hw_words
            (mbedtls_mpi_grow fault Z ctx.hw_words
              (mbedtls_mpi_grow fault mbedtls_mpi_init ctx.hw_words st2).st).st).st).st)).X
      ≡ mpi_value X * r [MOD m] := by
    rw [mont_op_value fault hf _ _ _ _ _ _ _ _ _ hM hfit]
    have h1 : r * mont m ctx.hw_words (mpi_value X) (mpi_value ctx.Rinv)
        ≡ mpi_value X * mpi_value ctx.Rinv [MOD m] := mont_spec m _ _ _ hodd
    have h2 : mpi_value X * mpi_value ctx.Rinv ≡ mpi_value X * (r * r) [MOD m] :=
      Nat.ModEq.mul_left _ (rinv_modEq m ctx.hw_words _ hRv)
    have h3 : mpi_value X * (r * r) = r * (mpi_value X * r) := by ring
    rw [h3] at h2
    exact radix_cancel m ctx.hw_words _ _ hodd (h1.trans h2)
  have hmsb := (mpi_msb_spec E hE.2 (by omega)).2
  -- the accumulator starts as the Montgomery form of 1
  have hacc : ∀ (Z0 : mbedtls_mpi) (s0 : hw_state), mpi_value (esp_mont_hw_op fault
      mont_site.init_acc Z0 ctx.Rinv
      (mbedtls_mpi_set_bit fault
        (mbedtls_mpi_grow fault mbedtls_mpi_init ctx.hw_words
          (mbedtls_mpi_grow fault Z ctx.hw_words
            (mbedtls_mpi_grow fault mbedtls_mpi_init ctx.hw_words st2).st).st).X 0 1
        (mbedtls_mpi_grow fault mbedtls_mpi_init ctx.hw_words
          (mbedtls_mpi_grow fault Z ctx.hw_words
            (mbedtls_mpi_grow fault mbedtls_mpi_init ctx.hw_words st2).st).st).st).X
      ctx.M ctx.mprime ctx.hw_words true s0).X
      ≡ r * mpi_value X ^ (mpi_value E / 2 ^ (mpi_msb E + 1)) [MOD m] := by
    intro Z0 s0
    rw [mont_op_value fault hf _ _ _ _ _ _ _ _ _ hM hfit, hone_v,
      Nat.div_eq_of_lt hmsb, pow_zero, mul_one]
    have h1 : r * mont m ctx.hw_words (mpi_value ctx.Rinv) 1
        ≡ mpi_value ctx.Rinv * 1 [MOD m] := mont_spec m _ _ _ hodd
    rw [mul_one] at h1
    exact radix_cancel m ctx.hw_words _ _ hodd
      (h1.trans (rinv_modEq m ctx.hw_words _ hRv))
  obtain ⟨hlok, hlv⟩ := exp_loop_spec fault hf ctx E _ (mpi_msb E) (mpi_value X)
    hodd hfit hE.2 hmsb hxm (mpi_msb E + 1) _ _ (le_refl _) (hacc _ _)
  rw [if_neg (not_not.mpr hlok),
    if_neg (not_not.mpr (mont_op_nofault fault hf _ _ _ _ _ _ _ _ _))]
  refine ⟨rfl, ?_⟩
  show mpi_value (esp_mont_hw_op fault mont_site.from_mont _ _ _ ctx.M ctx.mprime
    ctx.hw_words true _).X = _
  rw [mont_op_value fault hf _ _ _ _ _ _ _ _ _ hM hfit, hone_v]
  have key : ∀ z : Nat, z ≡ r * mpi_value X ^ mpi_value E [MOD m] →
      mont m ctx.hw_words z 1 = mpi_value X ^ mpi_value E % m := by
    intro z hz
    have h1 := mont_spec m ctx.hw_words z 1 hodd
    rw [mul_one] at h1
    have h2 := radix_cancel m ctx.hw_words _ _ hodd (h1.trans hz)
    have h3 : mont m ctx.hw_words z 1 % m = mpi_value X ^ mpi_value E % m := h2
    rwa [Nat.mod_eq_of_lt (mont_lt _ _ _ _ hM)] at h3
  exact key _ hlv

theorem hardware_words_16_ge (n : Nat) : n ≤ hardware_words_16 n := by
  unfold hardware_words_16; omega

theorem rsa_mod_exp_hw_ctx_correct_witness :
    ((rsa_mod_exp_hw_ctx no_fault
        (rsa_mont_ctx_init hardware_words_16 no_fault ctx_unset [5]
          ([5] : List Nat).length hw_idle).ctx
        (mpi_of_words [2]) (mpi_of_words [3]) mbedtls_mpi_init false hw_idle).ok = true ∧
      mpi_value (rsa_mod_exp_hw_ctx no_fault
        (rsa_mont_ctx_init hardware_words_16 no_fault ctx_unset [5]
          ([5] : List Nat).length hw_idle).ctx
        (mpi_of_words [2]) (mpi_of_words [3]) mbedtls_mpi_init false hw_idle).X
        = mpi_value (mpi_of_words [2]) ^ mpi_value (mpi_of_words [3]) % fromWords [5]) ∧
      mpi_value (mpi_of_words [2]) ^ mpi_value (mpi_of_words [3]) % fromWords [5] = 3 :=
  ⟨rsa_mod_exp_hw_ctx_correct hardware_words_16 no_fault (fun _ => rfl) hardware_words_16_ge
    ctx_unset [5] (mpi_of_words [2]) (mpi_of_words [3]) mbedtls_mpi_init false hw_idle hw_idle
    (by decide) (by decide!) (by decide) (by decide) (by decide), by decide⟩

/-- The end-to-end scenario evaluated on the model: X = 2, E = 3, M = 5 gives 3. -/
theorem rsa_mod_exp_hw_ctx_example :
    (rsa_mod_exp_hw_ctx no_fault
        (rsa_mont_ctx_init hardware_words_16 no_fault ctx_unset [5] 1 hw_idle).ctx
        (mpi_of_words [2]) (mpi_of_words [3]) mbedtls_mpi_init false hw_idle).X
      = mpi_of_words (3 :: List.replicate 15 0) := by
  decide!

/-- C2 fails on the code for the modulus 1: the context for `M = 1` is built
successfully, and `rsa_mod_exp_hw_ctx` with `E = 0` succeeds with `Z = 1`,
whereas `1 mod M` is 0. -/
theorem rsa_mod_exp_zero_exponent_modulus_one :
    (rsa_mont_ctx_init hardware_words_16 no_fault ctx_unset [1] 1 hw_idle).ok = true ∧
      (rsa_mod_exp_hw_ctx no_fault
        (rsa_mont_ctx_init hardware_words_16 no_fault ctx_unset [1] 1 hw_idle).ctx
        (mpi_of_words [0]) (mpi_of_words [0]) mbedtls_mpi_init false hw_idle).ok = true ∧
      mpi_value (rsa_mod_exp_hw_ctx no_fault
        (rsa_mont_ctx_init hardware_words_16 no_fault ctx_unset [1] 1 hw_idle).ctx
        (mpi_of_words [0]) (mpi_of_words [0]) mbedtls_mpi_init false hw_idle).X = 1 ∧
      1 % fromWords [1] = 0 := by
  decide!

theorem grow_z_block (fault : Nat → Bool) (X : mbedtls_mpi) (n : Nat) (st : hw_state) :
    (mbedtls_mpi_grow fault X n st).st.z_block = st.z_block := by
  unfold mbedtls_mpi_grow
  by_cases hf : fault st.calls = true
  · simp [hf, hw_tick]
  · simp [hf, hw_tick]

/-- C3: modelling the hardware primitive `esp_mpi_mul_mpi_mod_hw_op` as two
Montgomery passes `mont(mont(X,Y), Rinv)` with `mont(a,b) = a*b*r^-1 mod M`
and `r = 2^(32*hw_words)`: for every context successfully built from an (odd)
modulus `M` and all `X, Y < M`, `rsa_mod_mult_hw_ctx` succeeds with
`Z = (X*Y) mod M`; when `M` is a single word this is the software reference
`modmul_u64(X, Y, M)`, held in word 0 of `Z` with all higher words zero.
Allocation is assumed to succeed and the hardware word capacity to be at
least the word count. -/
theorem rsa_mod_mult_hw_ctx_correct (hwc : Nat → Nat) (fault : Nat → Bool)
    (hf : ∀ k, fault k = false) (hcap : ∀ n, n ≤ hwc n)
    (ctx0 : rsa_mont_ctx_t) (M_words : List Nat) (X Y Z : mbedtls_mpi)
    (st st2 : hw_state) (hMw : words_ok M_words)
    (hctx : (rsa_mont_ctx_init hwc fault ctx0 M_words M_words.length st).ok = true)
    (hX : mpi_value X < fromWords M_words) (hY : mpi_value Y < fromWords M_words) :
    (rsa_mod_mult_hw_ctx fault (rsa_mont_ctx_init hwc fault ctx0 M_words M_words.length st).ctx
        X Y Z st2).ok = true ∧
      mpi_value (rsa_mod_mult_hw_ctx fault
        (rsa_mont_ctx_init hwc fault ctx0 M_words M_words.length st).ctx X Y Z st2).X
        = (mpi_value X * mpi_value Y) % fromWords M_words ∧
      (fromWords M_words < 2 ^ 32 →
        (rsa_mod_mult_hw_ctx fault
          (rsa_mont_ctx_init hwc fault ctx0 M_words M_words.length st).ctx X Y Z st2).X.p.headD 0
          = modmul_u64 (mpi_value X) (mpi_value Y) (fromWords M_words) ∧
        ∀ w ∈ (rsa_mod_mult_hw_ctx fault
          (rsa_mont_ctx_init hwc fault ctx0 M_words M_words.length st).ctx X Y Z st2).X.p.tail,
          w = 0) := by
  have _ := hX
  obtain ⟨hMv, hodd, hfit, hRv⟩ := ctx_init_modulus hwc fault hcap ctx0 M_words st hMw hctx
  obtain ⟨hw0, _, _, hhw, _⟩ := ctx_init_success hwc fault ctx0 M_words M_words.length st hctx
  set ctx := (rsa_mont_ctx_init hwc fault ctx0 M_words M_words.length st).ctx with hctxdef
  rw [← hMv] at hodd hfit hRv hX hY ⊢
  set m := mpi_value ctx.M with hm
  have hM : 0 < m := by omega
  have hhw1 : 1 ≤ ctx.hw_words := by
    rw [hhw]
    exact le_trans (Nat.one_le_iff_ne_zero.mpr hw0) (hcap _)
  simp only [rsa_mod_mult_hw_ctx]
  rw [if_neg (not_not.mpr (grow_nofault fault hf _ _ _))]
  have hz : (mbedtls_mpi_grow fault Z ctx.hw_words
      (esp_mpi_mul_mpi_mod_hw_op X Y ctx.M ctx.Rinv ctx.mprime ctx.hw_words
        (esp_mpi_enable_hardware_hw_op st2))).st.z_block
      = (mpi_value X * mpi_value Y) % m := by
    rw [grow_z_block]
    simp only [esp_mpi_mul_mpi_mod_hw_op]
    exact mont_mont_rinv m ctx.hw_words _ _ _ hodd hRv
  simp only [mpi_hal_read_result_hw_op]
  rw [hz]
  have hlt : (mpi_value X * mpi_value Y) % m < 2 ^ (32 * ctx.hw_words) :=
    lt_of_lt_of_le (Nat.mod_lt _ hM) hfit
  refine ⟨trivial, ?_, ?_⟩
  · simp only [mpi_value]
    rw [fromWords_append, fromWords_replicate_zero, fromWords_toLimbs, Nat.mul_zero,
      Nat.add_zero]
    exact Nat.mod_eq_of_lt hlt
  · intro h32
    have href : modmul_u64 (mpi_value X) (mpi_value Y) m = (mpi_value X * mpi_value Y) % m :=
      modmul_u64_eq _ _ _ (by omega) hM (by omega)
    have hz32 : (mpi_value X * mpi_value Y) % m < 2 ^ 32 :=
      lt_trans (Nat.mod_lt _ hM) h32
    obtain ⟨n, hn⟩ : ∃ n, ctx.hw_words = n + 1 := ⟨ctx.hw_words - 1, by omega⟩
    rw [href, hn]
    simp only [toLimbs, List.cons_append, List.headD_cons, List.tail_cons]
    refine ⟨Nat.mod_eq_of_lt hz32, ?_⟩
    intro w hw
    rw [Nat.div_eq_of_lt hz32, toLimbs_zero] at hw
    rcases List.mem_append.mp hw with h | h
    · exact List.eq_of_mem_replicate h
    · exact List.eq_of_mem_replicate h

theorem rsa_mod_mult_hw_ctx_correct_witness :
    (rsa_mod_mult_hw_ctx no_fault
        (rsa_mont_ctx_init hardware_words_16 no_fault ctx_unset [5]
          ([5] : List Nat).length hw_idle).ctx
        (mpi_of_words [2]) (mpi_of_words [3]) mbedtls_mpi_init hw_idle).ok = true ∧
      mpi_value (rsa_mod_mult_hw_ctx no_fault
        (rsa_mont_ctx_init hardware_words_16 no_fault ctx_unset [5]
          ([5] : List Nat).length hw_idle).ctx
        (mpi_of_words [2]) (mpi_of_words [3]) mbedtls_mpi_init hw_idle).X
        = (mpi_value (mpi_of_words [2]) * mpi_value (mpi_of_words [3])) % fromWords [5] ∧
      (fromWords [5] < 2 ^ 32 →
        (rsa_mod_mult_hw_ctx no_fault
          (rsa_mont_ctx_init hardware_words_16 no_fault ctx_unset [5]
            ([5] : List Nat).length hw_idle).ctx
          (mpi_of_words [2]) (mpi_of_words [3]) mbedtls_mpi_init hw_idle).X.p.headD 0
          = modmul_u64 (mpi_value (mpi_of_words [2])) (mpi_value (mpi_of_words [3]))
              (fromWords [5]) ∧
        ∀ w ∈ (rsa_mod_mult_hw_ctx no_fault
          (rsa_mont_ctx_init hardware_words_16 no_fault ctx_unset [5]
            ([5] : List Nat).length hw_idle).ctx
          (mpi_of_words [2]) (mpi_of_words [3]) mbedtls_mpi_init hw_idle).X.p.tail,
          w = 0) :=
  rsa_mod_mult_hw_ctx_correct hardware_words_16 no_fault (fun _ => rfl) hardware_words_16_ge
    ctx_unset [5] (mpi_of_words [2]) (mpi_of_words [3]) mbedtls_mpi_init hw_idle hw_idle
    (by decide) (by decide!) (by decide) (by decide)

/-- The end-to-end scenario evaluated on the model: X = 2, Y = 3, M = 5 gives
1 in word 0 and zero in all higher words. -/
theorem rsa_mod_mult_hw_ctx_example :
    (rsa_mod_mult_hw_ctx no_fault
        (rsa_mont_ctx_init hardware_words_16 no_fault ctx_unset [5] 1 hw_idle).ctx
        (mpi_of_words [2]) (mpi_of_words [3]) mbedtls_mpi_init hw_idle).X.p
      = 1 :: List.replicate 15 0 := by
  decide!

/-- C5: assuming buffer allocation succeeds (no injected fault),
`rsa_mont_ctx_init(ctx, M_words, words)` fails if and only if `words == 0` or
the least-significant word `M_words[0]` is even; for every non-empty word
array with odd `M_words[0]` it succeeds. -/
theorem rsa_mont_ctx_init_fails_iff (hwc : Nat → Nat) (fault : Nat → Bool)
    (hf : ∀ k, fault k = false) (ctx : rsa_mont_ctx_t) (M_words : List Nat) (words : Nat)
    (st : hw_state) :
    ((rsa_mont_ctx_init hwc fault ctx M_words words st).ok = false ↔
        (words = 0 ∨ M_words.getD 0 0 % 2 = 0)) ∧
      (words ≠ 0 → M_words.getD 0 0 % 2 = 1 →
        (rsa_mont_ctx_init hwc fault ctx M_words words st).ok = true) := by
  refine ⟨⟨?_, ?_⟩, ctx_init_nofault hwc fault hf ctx M_words words st⟩
  · intro hfail
    by_contra hcon
    push_neg at hcon
    have hok := ctx_init_nofault hwc fault hf ctx M_words words st hcon.1 (by omega)
    rw [hok] at hfail
    exact absurd hfail (by decide)
  · intro hcase
    cases hres : (rsa_mont_ctx_init hwc fault ctx M_words words st).ok with
    | false => rfl
    | true =>
      obtain ⟨hw0, hodd, _⟩ := ctx_init_success hwc fault ctx M_words words st hres
      rcases hcase with h | h
      · exact absurd h hw0
      · omega

theorem rsa_mont_ctx_init_fails_iff_witness :
    ((rsa_mont_ctx_init hardware_words_16 no_fault ctx_unset [6, 1] 2 hw_idle).ok = false ↔
        (2 = 0 ∨ ([6, 1] : List Nat).getD 0 0 % 2 = 0)) ∧
      (2 ≠ 0 → ([6, 1] : List Nat).getD 0 0 % 2 = 1 →
        (rsa_mont_ctx_init hardware_words_16 no_fault ctx_unset [6, 1] 2 hw_idle).ok = true) :=
  rsa_mont_ctx_init_fails_iff hardware_words_16 no_fault (fun _ => rfl) ctx_unset [6, 1] 2 hw_idle

/-- C6: whenever `rsa_mont_ctx_init` succeeds on modulus words `M_words` of
length `words`, the resulting context has `ctx.words = words`,
`ctx.hw_words = hardware_word_capacity(words)`, `ctx.M` equal to the integer
encoded little-endian by `M_words`, `ctx.Rinv = 2^(hw_words*64) mod M` (hence
`Rinv < M`), and `ctx.mprime = montmul_init_u32(M_words)`. -/
theorem rsa_mont_ctx_init_fields (hwc : Nat → Nat) (fault : Nat → Bool)
    (ctx0 : rsa_mont_ctx_t) (M_words : List Nat) (words : Nat) (st : hw_state)
    (hlen : M_words.length = words)
    (hctx : (rsa_mont_ctx_init hwc fault ctx0 M_words words st).ok = true) :
    (rsa_mont_ctx_init hwc fault ctx0 M_words words st).ctx.words = words ∧
      (rsa_mont_ctx_init hwc fault ctx0 M_words words st).ctx.hw_words = hwc words ∧
      mpi_value (rsa_mont_ctx_init hwc fault ctx0 M_words words st).ctx.M
        = fromWords M_words ∧
      mpi_value (rsa_mont_ctx_init hwc fault ctx0 M_words words st).ctx.Rinv
        = 2 ^ ((rsa_mont_ctx_init hwc fault ctx0 M_words words st).ctx.hw_words * 64)
            % fromWords M_words ∧
      mpi_value (rsa_mont_ctx_init hwc fault ctx0 M_words words st).ctx.Rinv
        < fromWords M_words ∧
      (rsa_mont_ctx_init hwc fault ctx0 M_words words st).ctx.mprime
        = montmul_init_u32 M_words := by
  obtain ⟨hw0, hodd, hwords, hhw, hM, hmp, _, _, hR⟩ :=
    ctx_init_success hwc fault ctx0 M_words words st hctx
  subst hlen
  rw [read_words_self] at hM hmp hR
  have hpos : 0 < fromWords M_words := by
    cases M_words with
    | nil => exact absurd rfl hw0
    | cons w ws =>
      simp only [List.getD_cons_zero] at hodd
      simp only [fromWords]
      omega
  have hR2 : mpi_value (rsa_mont_ctx_init hwc fault ctx0 M_words M_words.length st).ctx.Rinv
      = 2 ^ ((rsa_mont_ctx_init hwc fault ctx0 M_words M_words.length st).ctx.hw_words * 64)
          % fromWords M_words := by
    rw [hR, hhw, Nat.mul_assoc]
  refine ⟨hwords, hhw, by rw [hM]; rfl, hR2, ?_, hmp⟩
  rw [hR2]
  exact Nat.mod_lt _ hpos

theorem rsa_mont_ctx_init_fields_witness :
    (rsa_mont_ctx_init hardware_words_16 no_fault ctx_unset [5] 1 hw_idle).ctx.words = 1 ∧
      (rsa_mont_ctx_init hardware_words_16 no_fault ctx_unset [5] 1 hw_idle).ctx.hw_words
        = hardware_words_16 1 ∧
      mpi_value (rsa_mont_ctx_init hardware_words_16 no_fault ctx_unset [5] 1 hw_idle).ctx.M
        = fromWords [5] ∧
      mpi_value (rsa_mont_ctx_init hardware_words_16 no_fault ctx_unset [5] 1 hw_idle).ctx.Rinv
        = 2 ^ ((rsa_mont_ctx_init hardware_words_16 no_fault ctx_unset [5] 1
            hw_idle).ctx.hw_words * 64) % fromWords [5] ∧
      mpi_value (rsa_mont_ctx_init hardware_words_16 no_fault ctx_unset [5] 1 hw_idle).ctx.Rinv
        < fromWords [5] ∧
      (rsa_mont_ctx_init hardware_words_16 no_fault ctx_unset [5] 1 hw_idle).ctx.mprime
        = montmul_init_u32 [5] :=
  rsa_mont_ctx_init_fields hardware_words_16 no_fault ctx_unset [5] 1 hw_idle
    (by decide) (by decide!)

/-! ## Derived statistics: proofs -/

/-- C11: on a statistics aggregate with `count = 0` (in particular directly
after `stats_init`), `stats_avg_us` and `stats_stddev_us` both return 0.0 and
no division by zero is evaluated (each result is a value, not the `none` of a
division by zero). -/
theorem stats_zero_count {K : Type} [LinearOrderedField K] (sqrt : K → K)
    (s : bench_stats_t) (h : s.count = 0) :
    (stats_avg_us s : Option K) = some 0 ∧ stats_stddev_us sqrt s = some 0 ∧
      (stats_avg_us stats_init : Option K) = some 0 ∧
      stats_stddev_us sqrt stats_init = some 0 := by
  refine ⟨?_, ?_, ?_, ?_⟩
  · unfold stats_avg_us; rw [if_pos h]
  · unfold stats_stddev_us; rw [if_pos h]
  · unfold stats_avg_us; rw [if_pos (show stats_init.count = 0 from rfl)]
  · unfold stats_stddev_us; rw [if_pos (show stats_init.count = 0 from rfl)]

theorem stats_zero_count_witness :
    (stats_avg_us stats_init : Option ℚ) = some 0 ∧
      stats_stddev_us (fun q : ℚ => q) stats_init = some 0 ∧
      (stats_avg_us stats_init : Option ℚ) = some 0 ∧
      stats_stddev_us (fun q : ℚ => q) stats_init = some 0 :=
  stats_zero_count (fun q : ℚ => q) stats_init rfl

theorem stats_foldl_sumsq (samples : List Nat) (s : bench_stats_t) :
    (samples.foldl stats_update s).sumsq = s.sumsq + (samples.map (fun x => x * x)).sum := by
  induction samples generalizing s with
  | nil => simp
  | cons x xs ih =>
    rw [List.foldl_cons, ih]
    simp only [stats_update, List.map_cons, List.sum_cons]
    omega

theorem stats_feed_total (samples : List Nat) (hsum : samples.sum < 2 ^ 64) :
    (stats_feed samples).total_us = samples.sum := by
  have h1 := stats_foldl_total samples stats_init
  have h2 := stats_foldl_total_lt samples stats_init (by simp [stats_init])
  unfold stats_feed
  rw [Nat.mod_eq_of_lt h2] at h1
  rw [h1]
  simp only [stats_init, Nat.zero_add]
  exact Nat.mod_eq_of_lt hsum

theorem stats_feed_sumsq (samples : List Nat) :
    (stats_feed samples).sumsq = (samples.map (fun x => x * x)).sum := by
  unfold stats_feed
  rw [stats_foldl_sumsq]
  simp [stats_init]

/-- Expanding the squares: `sum (x - c)^2 = sum x^2 - 2 c sum x + n c^2`. -/
theorem sum_sq_sub {K : Type} [LinearOrderedField K] (samples : List Nat) (c : K) :
    (samples.map (fun (x : Nat) => ((x : K) - c) ^ 2)).sum
      = (((samples.map (fun x => x * x)).sum : Nat) : K)
        - 2 * c * (((samples.sum : Nat)) : K) + (samples.length : K) * c ^ 2 := by
  induction samples with
  | nil => simp
  | cons x xs ih =>
    simp only [List.map_cons, List.sum_cons, List.length_cons]
    rw [ih]
    push_cast
    ring

theorem sum_map_cast {K : Type} [LinearOrderedField K] (samples : List Nat) :
    (samples.map (fun (x : Nat) => (x : K))).sum = ((samples.sum : Nat) : K) := by
  induction samples with
  | nil => simp
  | cons x xs ih =>
    simp only [List.map_cons, List.sum_cons]
    rw [ih]
    push_cast
    ring

/-- The variance computed from the aggregate is the population variance. -/
theorem variance_from_aggregate {K : Type} [LinearOrderedField K] (samples : List Nat)
    (hne : samples ≠ []) :
    (((samples.map (fun x => x * x)).sum : Nat) : K) / (samples.length : K)
        - ((samples.sum : Nat) : K) / (samples.length : K)
          * (((samples.sum : Nat) : K) / (samples.length : K))
      = sample_variance samples := by
  have hn : (samples.length : K) ≠ 0 := by
    have : samples.length ≠ 0 := fun h => hne (List.length_eq_zero.mp h)
    exact_mod_cast this
  unfold sample_variance sample_mean
  rw [sum_sq_sub, sum_map_cast]
  field_simp
  ring

theorem sample_variance_nonneg {K : Type} [LinearOrderedField K] (samples : List Nat) :
    (0 : K) ≤ sample_variance samples := by
  unfold sample_variance
  apply mul_nonneg
  · positivity
  · apply List.sum_nonneg
    intro y hy
    obtain ⟨x, _, rfl⟩ := List.mem_map.mp hy
    positivity

/-- C12 as stated fails: `total_us` is a `uint64_t` and wraps.  For the two
samples `2^63, 2^63` the running sum is 0, so `stats_avg_us` returns 0 whereas
the arithmetic mean is `2^63`. -/
theorem stats_avg_wraps :
    ([2 ^ 63, 2 ^ 63] : List Nat) ≠ [] ∧
      (stats_avg_us (stats_feed [2 ^ 63, 2 ^ 63]) : Option ℝ) = some 0 ∧
      (sample_mean [2 ^ 63, 2 ^ 63] : ℝ) = 2 ^ 63 ∧
      (stats_avg_us (stats_feed [2 ^ 63, 2 ^ 63]) : Option ℝ)
        ≠ some (sample_mean [2 ^ 63, 2 ^ 63]) := by
  have hfeed : stats_feed [2 ^ 63, 2 ^ 63]
      = { min_us := 2 ^ 63, max_us := 2 ^ 63, total_us := 0,
          sumsq := 2 ^ 63 * 2 ^ 63 + 2 ^ 63 * 2 ^ 63, count := 2 } := by
    decide
  have havg : (stats_avg_us (stats_feed [2 ^ 63, 2 ^ 63]) : Option ℝ) = some 0 := by
    rw [hfeed]
    simp [stats_avg_us, double_div]
  have hmean : (sample_mean [2 ^ 63, 2 ^ 63] : ℝ) = 2 ^ 63 := by
    simp [sample_mean]
    norm_num
  refine ⟨by simp, havg, hmean, ?_⟩
  rw [havg, hmean]
  intro h
  have h2 := Option.some.inj h
  norm_num at h2

/-- C12 (amended): interpreting the double arithmetic as exact real
arithmetic, for every non-empty sequence of fewer than `2^32` 64-bit samples
whose sum is below `2^64`, fed through `stats_update`, `stats_avg_us` returns
the arithmetic mean of the samples and `stats_stddev_us` returns their
population standard deviation `sqrt((1/n) * sum (x_i - mean)^2)`, computed
only from `count`, `total_us` and `sumsq`. -/
theorem stats_mean_stddev (samples : List Nat) (hne : samples ≠ [])
    (h64 : ∀ x ∈ samples, x < 2 ^ 64) (hsum : samples.sum < 2 ^ 64)
    (hlen : samples.length < 2 ^ 32) :
    (stats_avg_us (stats_feed samples) : Option ℝ) = some (sample_mean samples) ∧
      stats_stddev_us Real.sqrt (stats_feed samples)
        = some (Real.sqrt (sample_variance samples)) := by
  have hcount : (stats_feed samples).count = samples.length := by
    rw [stats_feed_count, Nat.mod_eq_of_lt hlen]
  have htotal : (stats_feed samples).total_us = samples.sum :=
    stats_feed_total samples hsum
  have hlen0 : samples.length ≠ 0 := fun h => hne (List.length_eq_zero.mp h)
  have hn : ((samples.length : Nat) : ℝ) ≠ 0 := by exact_mod_cast hlen0
  have _ := h64
  have havg : (stats_avg_us (stats_feed samples) : Option ℝ) = some (sample_mean samples) := by
    unfold stats_avg_us double_div
    rw [hcount, htotal, if_neg hlen0, if_neg hn]
    unfold sample_mean
    rw [sum_map_cast]
  refine ⟨havg, ?_⟩
  unfold stats_stddev_us
  rw [havg]
  unfold double_div
  rw [hcount, stats_feed_sumsq, if_neg hlen0, if_neg hn]
  simp only []
  have hvar : (((samples.map (fun x => x * x)).sum : Nat) : ℝ) / (samples.length : ℝ)
      - sample_mean samples * sample_mean samples = sample_variance samples := by
    rw [← variance_from_aggregate samples hne]
    unfold sample_mean
    rw [sum_map_cast]
  rw [hvar]
  by_cases hpos : sample_variance samples > (0 : ℝ)
  · rw [if_pos hpos]
  · rw [if_neg hpos]
    have hz : sample_variance samples = (0 : ℝ) :=
      le_antisymm (not_lt.mp hpos) (sample_variance_nonneg samples)
    rw [hz, Real.sqrt_zero]

theorem stats_mean_stddev_witness :
    ((stats_avg_us (stats_feed [10, 20, 30]) : Option ℝ) = some (sample_mean [10, 20, 30]) ∧
      stats_stddev_us Real.sqrt (stats_feed [10, 20, 30])
        = some (Real.sqrt (sample_variance [10, 20, 30]))) ∧
      (sample_mean [10, 20, 30] : ℝ) = 20 ∧ (sample_variance [10, 20, 30] : ℝ) = 200 / 3 :=
  ⟨stats_mean_stddev [10, 20, 30] (by decide) (by decide) (by decide) (by decide),
    by simp [sample_mean]; norm_num,
    by simp [sample_variance, sample_mean]; norm_num⟩

/-! ## Random operands: proofs -/

theorem random_word_lt (rnd : Nat → Nat) (j : Nat) : random_word rnd j < 2 ^ 32 := by
  unfold random_word
  have h0 : rnd (4 * j) &&& 0xFF ≤ 0xFF := Nat.and_le_right
  have h1 : rnd (4 * j + 1) &&& 0xFF ≤ 0xFF := Nat.and_le_right
  have h2 : rnd (4 * j + 2) &&& 0xFF ≤ 0xFF := Nat.and_le_right
  have h3 : rnd (4 * j + 3) &&& 0xFF ≤ 0xFF := Nat.and_le_right
  omega

theorem fill_random_words_ok (rnd : Nat → Nat) (num : List Nat) (words : Nat)
    (hlen : num.length = words) :
    words_ok (fill_random_words rnd num words) ∧
      (fill_random_words rnd num words).length = words := by
  unfold fill_random_words
  rw [List.drop_of_length_le (by omega), List.append_nil]
  refine ⟨?_, by simp⟩
  intro w hw
  obtain ⟨j, _, rfl⟩ := List.mem_map.mp hw
  exact random_word_lt rnd j

theorem words_ok_set (l : List Nat) (i v : Nat) (hl : words_ok l) (hv : v < 2 ^ 32) :
    words_ok (l.set i v) := by
  intro w hw
  rcases List.mem_or_eq_of_mem_set hw with h | h
  · exact hl w h
  · rw [h]; exact hv

theorem getD_set_self (l : List Nat) (i v : Nat) (h : i < l.length) :
    (l.set i v).getD i 0 = v := by
  simp [List.getD_eq_getElem?_getD, h]

theorem getD_set_ne (l : List Nat) (i j v : Nat) (h : i ≠ j) :
    (l.set i v).getD j 0 = l.getD j 0 := by
  simp [List.getD_eq_getElem?_getD, List.getElem?_set_ne h]

theorem fromWords_lt_of_testBit (X M : List Nat) (n : Nat) (hX : words_ok X)
    (hM : words_ok M) (hXl : X.length = n + 1) (hMl : M.length = n + 1)
    (hXb : (X.getD n 0).testBit 31 = false) (hMb : (M.getD n 0).testBit 31 = true) :
    (fromWords M).testBit (32 * (n + 1) - 1) = true ∧
      (fromWords X).testBit (32 * (n + 1) - 1) = false ∧ fromWords X < fromWords M := by
  have hdiv : (32 * (n + 1) - 1) / 32 = n := by omega
  have hmod : (32 * (n + 1) - 1) % 32 = 31 := by omega
  have hMt : (fromWords M).testBit (32 * (n + 1) - 1) = true := by
    rw [fromWords_testBit M hM, hdiv, hmod]; exact hMb
  have hXt : (fromWords X).testBit (32 * (n + 1) - 1) = false := by
    rw [fromWords_testBit X hX, hdiv, hmod]; exact hXb
  refine ⟨hMt, hXt, Nat.lt_of_testBit _ hXt hMt ?_⟩
  intro j hj
  have hXlt := fromWords_lt X hX
  have hMlt := fromWords_lt M hM
  rw [hXl] at hXlt
  rw [hMl] at hMlt
  have hpow : 2 ^ (32 * (n + 1)) ≤ 2 ^ j := Nat.pow_le_pow_right (by norm_num) (by omega)
  rw [Nat.testBit_lt_two_pow (lt_of_lt_of_le hXlt hpow),
    Nat.testBit_lt_two_pow (lt_of_lt_of_le hMlt hpow)]

/-- C13: for every bit width `bits` that is a positive multiple of 32 and for
every outcome of the random fill, the modulus produced by `generate_modulus`
is odd and has bit `bits-1` set, and every operand produced by
`generate_operand` has bit `bits-1` clear, so that operand < modulus as
`bits/32`-word little-endian integers. -/
theorem generate_operand_lt_modulus (rndM rndX : Nat → Nat) (bufM bufX : List Nat)
    (bits : Nat) (hpos : 0 < bits) (hmul : bits % 32 = 0)
    (hbufM : bufM.length = bits / 32) (hbufX : bufX.length = bits / 32) :
    fromWords (generate_modulus rndM bufM bits) % 2 = 1 ∧
      (fromWords (generate_modulus rndM bufM bits)).testBit (bits - 1) = true ∧
      (fromWords (generate_operand rndX bufX bits)).testBit (bits - 1) = false ∧
      fromWords (generate_operand rndX bufX bits) < fromWords (generate_modulus rndM bufM bits) := by
  obtain ⟨n, hn⟩ : ∃ n, bits = 32 * (n + 1) := ⟨bits / 32 - 1, by omega⟩
  subst hn
  have hw : 32 * (n + 1) / 32 = n + 1 := by omega
  have hl : 32 * (n + 1) / 32 - 1 = n := by omega
  rw [hw] at hbufM hbufX
  obtain ⟨hMok, hMlen⟩ := fill_random_words_ok rndM bufM (n + 1) hbufM
  obtain ⟨hXok, hXlen⟩ := fill_random_words_ok rndX bufX (n + 1) hbufX
  -- the operand
  have hXdef : generate_operand rndX bufX (32 * (n + 1))
      = (fill_random_words rndX bufX (n + 1)).set n
          ((fill_random_words rndX bufX (n + 1)).getD n 0 &&& 0x7FFFFFFF) := by
    simp only [generate_operand, clear_msb, hw, Nat.add_sub_cancel]
  have hXw : ∀ w : Nat, w &&& 0x7FFFFFFF < 2 ^ 32 := fun w =>
    lt_of_le_of_lt Nat.and_le_right (by norm_num)
  have hXok2 : words_ok (generate_operand rndX bufX (32 * (n + 1))) := by
    rw [hXdef]; exact words_ok_set _ _ _ hXok (hXw _)
  have hXlen2 : (generate_operand rndX bufX (32 * (n + 1))).length = n + 1 := by
    rw [hXdef, List.length_set, hXlen]
  have hXbit : ((generate_operand rndX bufX (32 * (n + 1))).getD n 0).testBit 31 = false := by
    rw [hXdef, getD_set_self _ _ _ (by omega), Nat.testBit_and]
    have : (0x7FFFFFFF : Nat).testBit 31 = false := by decide
    rw [this, Bool.and_false]
  -- the modulus
  set M2 := (fill_random_words rndM bufM (n + 1)).set n
      ((fill_random_words rndM bufM (n + 1)).getD n 0 ||| 0x80000000) with hM2
  have hMdef : generate_modulus rndM bufM (32 * (n + 1)) = M2.set 0 (M2.getD 0 0 ||| 0x01) := by
    simp only [generate_modulus, set_msb, hw, Nat.add_sub_cancel, hM2]
  have hor : ∀ w : Nat, w < 2 ^ 32 → w ||| 0x80000000 < 2 ^ 32 := fun w h =>
    Nat.or_lt_two_pow h (by norm_num)
  have hor1 : ∀ w : Nat, w < 2 ^ 32 → w ||| 0x01 < 2 ^ 32 := fun w h =>
    Nat.or_lt_two_pow h (by norm_num)
  have hM2len : M2.length = n + 1 := by rw [hM2, List.length_set, hMlen]
  have hget : ∀ (l : List Nat) (i : Nat), words_ok l → l.getD i 0 < 2 ^ 32 := by
    intro l i hlok
    by_cases hi : i < l.length
    · rw [List.getD_eq_getElem _ _ hi]; exact hlok _ (List.getElem_mem _)
    · rw [List.getD_eq_default _ _ (by omega)]; norm_num
  have hM2ok : words_ok M2 := words_ok_set _ _ _ hMok (hor _ (hget _ _ hMok))
  have hMok2 : words_ok (generate_modulus rndM bufM (32 * (n + 1))) := by
    rw [hMdef]; exact words_ok_set _ _ _ hM2ok (hor1 _ (hget _ _ hM2ok))
  have hMlen2 : (generate_modulus rndM bufM (32 * (n + 1))).length = n + 1 := by
    rw [hMdef, List.length_set, hM2len]
  have hM2bit : (M2.getD n 0).testBit 31 = true := by
    rw [hM2, getD_set_self _ _ _ (by omega), Nat.testBit_or]
    have : (0x80000000 : Nat).testBit 31 = true := by decide
    rw [this, Bool.or_true]
  have hMbit : ((generate_modulus rndM bufM (32 * (n + 1))).getD n 0).testBit 31 = true := by
    rw [hMdef]
    by_cases h0 : n = 0
    · subst h0
      rw [getD_set_self _ _ _ (by omega), Nat.testBit_or, hM2bit, Bool.true_or]
    · rw [getD_set_ne _ _ _ _ (fun h => h0 h.symm)]; exact hM2bit
  have hodd : fromWords (generate_modulus rndM bufM (32 * (n + 1))) % 2 = 1 := by
    have h1 : (fromWords (generate_modulus rndM bufM (32 * (n + 1)))).testBit 0 = true := by
      rw [fromWords_testBit _ hMok2, hMdef]
      simp only [Nat.zero_div, Nat.zero_mod]
      rw [getD_set_self _ _ _ (by omega), Nat.testBit_or]
      have : (0x01 : Nat).testBit 0 = true := by decide
      rw [this, Bool.or_true]
    rw [Nat.testBit_zero] at h1
    simpa using h1
  obtain ⟨hb1, hb2, hlt⟩ := fromWords_lt_of_testBit _ _ n hXok2 hMok2 hXlen2 hMlen2 hXbit hMbit
  exact ⟨hodd, hb1, hb2, hlt⟩

theorem generate_operand_lt_modulus_witness :
    fromWords (generate_modulus (fun i => i) [0, 0] 64) % 2 = 1 ∧
      (fromWords (generate_modulus (fun i => i) [0, 0] 64)).testBit (64 - 1) = true ∧
      (fromWords (generate_operand (fun _ => 255) [0, 0] 64)).testBit (64 - 1) = false ∧
      fromWords (generate_operand (fun _ => 255) [0, 0] 64)
        < fromWords (generate_modulus (fun i => i) [0, 0] 64) :=
  generate_operand_lt_modulus (fun i => i) (fun _ => 255) [0, 0] [0, 0] 64
    (by decide) (by decide) (by decide) (by decide)

/-! ## The Montgomery constant as the specification describes it: proofs -/

/-- The loop body of the code is the iteration step of the specification. -/
theorem montmul_init_step_eq_spec (M0 x : Nat) :
    Int.toNat (((x : Int) * (2 - (M0 : Int) * x)) % 2 ^ 32) = montmul_init_step M0 x := by
  have h := montmul_init_step_modEq M0 x
  have hlt := montmul_init_step_lt M0 x
  have h2 : ((x : Int) * (2 - (M0 : Int) * x)) % 2 ^ 32 = (montmul_init_step M0 x : Int) := by
    rw [← h]
    exact Int.emod_eq_of_lt (by positivity) (by exact_mod_cast hlt)
  rw [h2]
  exact Int.toNat_ofNat _

/-- After the three passes of the code the iterate inverts `M0` modulo `2^32`. -/
theorem montmul_init_inverse (M0 : Nat) (hodd : M0 % 2 = 1) :
    ((2 : ℤ) ^ 32) ∣ ((M0 : ℤ) *
      (montmul_init_loop M0 32 32
        ((M0 + ((((M0 + 2) % 2 ^ 32) &&& 4) <<< 1)) % 2 ^ 32) : ℕ) - 1) := by
  rw [montmul_init_loop_eq]
  have h4 := montmul_init_start M0 hodd
  have h8 := montmul_init_step_lift M0 _ 4 (by norm_num) h4
  have h16 := montmul_init_step_lift M0 _ 8 (by norm_num) h8
  exact montmul_init_step_lift M0 _ 16 (by norm_num) h16

/-- An exact inverse modulo `2^32` is a fixed point of the iteration. -/
theorem montmul_init_step_fixed (M0 x : Nat) (hx : x < 2 ^ 32)
    (h : ((2 : ℤ) ^ 32) ∣ ((M0 : ℤ) * x - 1)) : montmul_init_step M0 x = x := by
  have h1 := montmul_init_step_modEq M0 x
  have h2 : (x : ℤ) * (2 - (M0 : ℤ) * x) ≡ x [ZMOD (2 : ℤ) ^ 32] := by
    obtain ⟨c, hc⟩ := h
    apply Int.modEq_iff_dvd.mpr
    refine ⟨x * c, ?_⟩
    have : (M0 : ℤ) * x = 2 ^ 32 * c + 1 := by linarith
    rw [this]
    ring
  have h3 := h1.trans h2
  have hlt := montmul_init_step_lt M0 x
  have h4 : (montmul_init_step M0 x : ℤ) = x := by
    have e1 := Int.emod_eq_of_lt (a := (montmul_init_step M0 x : ℤ)) (b := 2 ^ 32)
      (by positivity) (by exact_mod_cast hlt)
    have e2 := Int.emod_eq_of_lt (a := (x : ℤ)) (b := 2 ^ 32)
      (by positivity) (by exact_mod_cast hx)
    unfold Int.ModEq at h3
    rw [e1, e2] at h3
    exact h3
  exact_mod_cast h4

/-- C18: for every odd 32-bit word `M0`, `montmul_init_u32(M0)` returns the
same value as the procedure the specification describes with the iteration
count `log2(32) = 5` (start value with parity correction, five iterations
`x <- x*(2 - M0*x) mod 2^32`, result `-x mod 2^32`), although the loop of the
code runs three times (`i = 32, 16, 8`). -/
theorem montmul_init_u32_refines_spec (M0 : Nat) (rest : List Nat)
    (h32 : M0 < 2 ^ 32) (hodd : M0 % 2 = 1) :
    montmul_init_u32 (M0 :: rest) = montmul_init_spec M0 := by
  have _ := h32
  have hinv := montmul_init_inverse M0 hodd
  set x1 := (M0 + ((((M0 + 2) % 2 ^ 32) &&& 4) <<< 1)) % 2 ^ 32 with hx1
  have hloop := montmul_init_loop_eq M0 x1
  set x3 := montmul_init_loop M0 32 32 x1 with hx3
  have hx3lt : x3 < 2 ^ 32 := by rw [hloop]; exact montmul_init_step_lt _ _
  have hfix : montmul_init_step M0 x3 = x3 := montmul_init_step_fixed M0 x3 hx3lt hinv
  have hiter : montmul_spec_iterate M0 5 x1 = x3 := by
    simp only [montmul_spec_iterate, montmul_init_step_eq_spec]
    rw [← hloop, hfix, hfix]
  have hcode : montmul_init_u32 (M0 :: rest) = (2 ^ 32 - 1 - x3 + 1) % 2 ^ 32 := by
    simp only [montmul_init_u32, List.getD_cons_zero]
  have hspec : montmul_init_spec M0 = Int.toNat ((-(x3 : Int)) % 2 ^ 32) := by
    simp only [montmul_init_spec]
    rw [hiter]
  rw [hcode, hspec]
  omega

theorem montmul_init_u32_refines_spec_witness :
    montmul_init_u32 [5] = montmul_init_spec 5 :=
  montmul_init_u32_refines_spec 5 [] (by decide) (by decide)

/-! ## Hardware calls of the engines: lemmas -/

theorem mont_op_trace (fault : Nat → Bool) (site : mont_site) (Z X Y M : mbedtls_mpi)
    (mp hw : Nat) (again : Bool) (st : hw_state) :
    (esp_mont_hw_op fault site Z X Y M mp hw again st).st.trace
      = st.trace ++ [hw_event.mont_op site (mpi_value X) (mpi_value Y)] := by
  unfold esp_mont_hw_op
  by_cases hf : fault st.calls = true <;> simp [hf, hw_log, hw_tick]

theorem mont_op_calls (fault : Nat → Bool) (site : mont_site) (Z X Y M : mbedtls_mpi)
    (mp hw : Nat) (again : Bool) (st : hw_state) :
    (esp_mont_hw_op fault site Z X Y M mp hw again st).st.calls = st.calls + 1 := by
  unfold esp_mont_hw_op
  by_cases hf : fault st.calls = true <;> simp [hf, hw_log, hw_tick]

theorem mont_op_ok_iff (fault : Nat → Bool) (site : mont_site) (Z X Y M : mbedtls_mpi)
    (mp hw : Nat) (again : Bool) (st : hw_state) :
    (esp_mont_hw_op fault site Z X Y M mp hw again st).ok = true ↔ fault st.calls = false := by
  unfold esp_mont_hw_op
  by_cases hf : fault st.calls = true <;> simp [hf, hw_log, hw_tick]

theorem grow_trace (fault : Nat → Bool) (X : mbedtls_mpi) (n : Nat) (st : hw_state) :
    (mbedtls_mpi_grow fault X n st).st.trace = st.trace := by
  unfold mbedtls_mpi_grow
  by_cases hf : fault st.calls = true <;> simp [hf, hw_tick]

theorem grow_calls (fault : Nat → Bool) (X : mbedtls_mpi) (n : Nat) (st : hw_state) :
    (mbedtls_mpi_grow fault X n st).st.calls = st.calls + 1 := by
  unfold mbedtls_mpi_grow
  by_cases hf : fault st.calls = true <;> simp [hf, hw_tick]

theorem grow_ok_iff (fault : Nat → Bool) (X : mbedtls_mpi) (n : Nat) (st : hw_state) :
    (mbedtls_mpi_grow fault X n st).ok = true ↔ fault st.calls = false := by
  unfold mbedtls_mpi_grow
  by_cases hf : fault st.calls = true <;> simp [hf, hw_tick]

theorem set_bit_trace (fault : Nat → Bool) (X : mbedtls_mpi) (pos val : Nat) (st : hw_state) :
    (mbedtls_mpi_set_bit fault X pos val st).st.trace = st.trace := by
  unfold mbedtls_mpi_set_bit
  by_cases hf : fault st.calls = true
  · simp [hf, hw_tick]
  · by_cases hc : X.p.length * 32 ≤ pos ∧ val = 0 <;> simp [hf, hc, hw_tick]

theorem set_bit_calls (fault : Nat → Bool) (X : mbedtls_mpi) (pos val : Nat) (st : hw_state) :
    (mbedtls_mpi_set_bit fault X pos val st).st.calls = st.calls + 1 := by
  unfold mbedtls_mpi_set_bit
  by_cases hf : fault st.calls = true
  · simp [hf, hw_tick]
  · by_cases hc : X.p.length * 32 ≤ pos ∧ val = 0 <;> simp [hf, hc, hw_tick]

theorem set_bit_ok_iff (fault : Nat → Bool) (X : mbedtls_mpi) (pos val : Nat) (st : hw_state) :
    (mbedtls_mpi_set_bit fault X pos val st).ok = true ↔ fault st.calls = false := by
  unfold mbedtls_mpi_set_bit
  by_cases hf : fault st.calls = true
  · simp [hf, hw_tick]
  · by_cases hc : X.p.length * 32 ≤ pos ∧ val = 0 <;> simp [hf, hc, hw_tick]

theorem lset_trace (fault : Nat → Bool) (X : mbedtls_mpi) (z : Int) (st : hw_state) :
    (mbedtls_mpi_lset fault X z st).st.trace = st.trace := by
  unfold mbedtls_mpi_lset
  simp only []
  by_cases hg : (mbedtls_mpi_grow fault X 1 st).ok = true
  · rw [if_pos hg]; exact grow_trace fault X 1 st
  · rw [if_neg hg]; exact grow_trace fault X 1 st

theorem lset_calls (fault : Nat → Bool) (X : mbedtls_mpi) (z : Int) (st : hw_state) :
    (mbedtls_mpi_lset fault X z st).st.calls = st.calls + 1 := by
  unfold mbedtls_mpi_lset
  simp only []
  by_cases hg : (mbedtls_mpi_grow fault X 1 st).ok = true
  · rw [if_pos hg]; exact grow_calls fault X 1 st
  · rw [if_neg hg]; exact grow_calls fault X 1 st

theorem lset_ok_iff (fault : Nat → Bool) (X : mbedtls_mpi) (z : Int) (st : hw_state) :
    (mbedtls_mpi_lset fault X z st).ok = true ↔ fault st.calls = false := by
  unfold mbedtls_mpi_lset
  simp only []
  by_cases hg : (mbedtls_mpi_grow fault X 1 st).ok = true
  · rw [if_pos hg]
    exact ⟨fun _ => (grow_ok_iff fault X 1 st).mp hg, fun _ => rfl⟩
  · rw [if_neg hg]
    exact grow_ok_iff fault X 1 st

theorem disable_trace (st : hw_state) :
    (esp_mpi_disable_hardware_hw_op st).trace = st.trace ++ [hw_event.disable] := rfl

theorem disable_calls (st : hw_state) :
    (esp_mpi_disable_hardware_hw_op st).calls = st.calls := rfl

theorem enable_trace (st : hw_state) :
    (esp_mpi_enable_hardware_hw_op st).trace = st.trace ++ [hw_event.enable] := rfl

theorem enable_calls (st : hw_state) :
    (esp_mpi_enable_hardware_hw_op st).calls = st.calls := rfl

/-- A Montgomery step that is taken only under a condition: the events and
collaborator calls it adds, and when it succeeds. -/
theorem cond_step (c : Prop) [Decidable c] (fault : Nat → Bool) (site : mont_site)
    (Z X Y M : mbedtls_mpi) (mp hw : Nat) (again : Bool) (st : hw_state) (r0 : mpi_result)
    (hok : r0.ok = true) (hst : r0.st = st) :
    ∃ pre : List hw_event,
      pre = (if c then [hw_event.mont_op site (mpi_value X) (mpi_value Y)] else []) ∧
      (if c then esp_mont_hw_op fault site Z X Y M mp hw again st else r0).st.trace
        = st.trace ++ pre ∧
      (if c then esp_mont_hw_op fault site Z X Y M mp hw again st else r0).st.calls
        = st.calls + pre.length ∧
      ((if c then esp_mont_hw_op fault site Z X Y M mp hw again st else r0).ok = true ↔
        ∀ j, st.calls ≤ j → j < st.calls + pre.length → fault j = false) := by
  by_cases hc : c
  · refine ⟨[hw_event.mont_op site (mpi_value X) (mpi_value Y)], by rw [if_pos hc], ?_, ?_, ?_⟩
    · rw [if_pos hc]; exact mont_op_trace _ _ _ _ _ _ _ _ _ _
    · rw [if_pos hc]; exact mont_op_calls _ _ _ _ _ _ _ _ _ _
    · rw [if_pos hc, mont_op_ok_iff]
      constructor
      · intro h j h1 h2
        have hj : j = st.calls := by simp at h2; omega
        rw [hj]; exact h
      · intro h
        exact h st.calls (le_refl _) (by simp)
  · refine ⟨[], by rw [if_neg hc], ?_, ?_, ?_⟩
    · rw [if_neg hc, hst]; simp
    · rw [if_neg hc, hst]; simp
    · rw [if_neg hc]
      constructor
      · intro _ j h1 h2
        simp at h2; omega
      · intro _; exact hok

/-- The hardware calls of the square-and-multiply loop under any fault oracle:
only Montgomery multiplications, one collaborator call each; a successful run
has met no fault and has issued one squaring per bit below the top bit and one
multiplication per set bit; a failing run ends by releasing the hardware. -/
theorem exp_loop_trace (fault : Nat → Bool) (ctx : rsa_mont_ctx_t) (E X_mont : mbedtls_mpi)
    (t : Nat) :
    ∀ (k : Nat) (Z : mbedtls_mpi) (st : hw_state),
      ∃ ms : List hw_event,
        (∀ e ∈ ms, is_mont e = true) ∧
        (exp_loop fault ctx E X_mont t k Z st).st.calls = st.calls + ms.length ∧
        ms.length = ms.countP (is_mont_at mont_site.square)
          + ms.countP (is_mont_at mont_site.mul_x) ∧
        ((exp_loop fault ctx E X_mont t k Z st).ok = true →
          (exp_loop fault ctx E X_mont t k Z st).st.trace = st.trace ++ ms ∧
          (∀ j, st.calls ≤ j → j < st.calls + ms.length → fault j = false) ∧
          ms.countP (is_mont_at mont_site.square) = (if t < k then k - 1 else k) ∧
          ms.countP (is_mont_at mont_site.mul_x) = exp_bits E k) ∧
        ((exp_loop fault ctx E X_mont t k Z st).ok = false →
          (exp_loop fault ctx E X_mont t k Z st).st.trace
            = st.trace ++ ms ++ [hw_event.disable]) := by
  intro k
  induction k with
  | zero =>
    intro Z st
    refine ⟨[], by simp, by simp [exp_loop], by simp, ?_, ?_⟩
    · intro _
      refine ⟨by simp [exp_loop], ?_, by simp, by simp [exp_bits]⟩
      intro j h1 h2; simp at h2; omega
    · intro h; simp [exp_loop] at h
  | succ k ih =>
    intro Z st
    obtain ⟨pre1, hpre1, ht1, hc1, hok1⟩ := cond_step (k ≠ t) fault mont_site.square Z Z Z
      ctx.M ctx.mprime ctx.hw_words true st { ok := true, X := Z, st := st } rfl rfl
    generalize hr1 : (if k ≠ t then
        esp_mont_hw_op fault mont_site.square Z Z Z ctx.M ctx.mprime ctx.hw_words true st
      else ({ ok := true, X := Z, st := st } : mpi_result)) = r1 at ht1 hc1 hok1
    have hm1 : ∀ e ∈ pre1, is_mont e = true := by
      intro e he
      rw [hpre1] at he
      by_cases hkt : k ≠ t
      · rw [if_pos hkt] at he; simp at he; rw [he]; rfl
      · rw [if_neg hkt] at he; simp at he
    have hsq1 : pre1.countP (is_mont_at mont_site.square) = (if k ≠ t then 1 else 0) := by
      rw [hpre1]
      by_cases hkt : k ≠ t
      · rw [if_pos hkt, if_pos hkt]; simp [is_mont_at]
      · rw [if_neg hkt, if_neg hkt]; simp
    have hmx1 : pre1.countP (is_mont_at mont_site.mul_x) = 0 := by
      rw [hpre1]
      by_cases hkt : k ≠ t
      · rw [if_pos hkt]; simp [is_mont_at]
      · rw [if_neg hkt]; simp
    have hl1 : pre1.length = (if k ≠ t then 1 else 0) := by
      rw [hpre1]
      by_cases hkt : k ≠ t
      · rw [if_pos hkt, if_pos hkt]; simp
      · rw [if_neg hkt, if_neg hkt]; simp
    have hunf : exp_loop fault ctx E X_mont t (k + 1) Z st
        = (if ¬ r1.ok = true then
            { ok := false, X := r1.X, st := esp_mpi_disable_hardware_hw_op r1.st }
          else
            if ¬ (if mbedtls_mpi_get_bit E k ≠ 0 then
                esp_mont_hw_op fault mont_site.mul_x r1.X r1.X X_mont ctx.M ctx.mprime
                  ctx.hw_words true r1.st
              else r1).ok = true then
              { ok := false
                X := (if mbedtls_mpi_get_bit E k ≠ 0 then
                    esp_mont_hw_op fault mont_site.mul_x r1.X r1.X X_mont ctx.M ctx.mprime
                      ctx.hw_words true r1.st
                  else r1).X
                st := esp_mpi_disable_hardware_hw_op
                  (if mbedtls_mpi_get_bit E k ≠ 0 then
                    esp_mont_hw_op fault mont_site.mul_x r1.X r1.X X_mont ctx.M ctx.mprime
                      ctx.hw_words true r1.st
                  else r1).st }
            else
              exp_loop fault ctx E X_mont t k
                (if mbedtls_mpi_get_bit E k ≠ 0 then
                    esp_mont_hw_op fault mont_site.mul_x r1.X r1.X X_mont ctx.M ctx.mprime
                      ctx.hw_words true r1.st
                  else r1).X
                (if mbedtls_mpi_get_bit E k ≠ 0 then
                    esp_mont_hw_op fault mont_site.mul_x r1.X r1.X X_mont ctx.M ctx.mprime
                      ctx.hw_words true r1.st
                  else r1).st) := by
      conv_lhs => unfold exp_loop
      simp only []
      rw [hr1]
    rw [hunf]
    by_cases h1 : r1.ok = true
    swap
    · -- the squaring fails
      rw [if_pos h1]
      refine ⟨pre1, hm1, ?_, ?_, ?_, ?_⟩
      · rw [disable_calls, hc1]
      · rw [hsq1, hmx1, hl1, Nat.add_zero]
      · intro h; simp at h
      · intro _; rw [disable_trace, ht1]
    rw [if_neg (not_not.mpr h1)]
    obtain ⟨pre2, hpre2, ht2, hc2, hok2⟩ := cond_step (mbedtls_mpi_get_bit E k ≠ 0) fault
      mont_site.mul_x r1.X r1.X X_mont ctx.M ctx.mprime ctx.hw_words true r1.st r1 h1 rfl
    generalize hr2 : (if mbedtls_mpi_get_bit E k ≠ 0 then
        esp_mont_hw_op fault mont_site.mul_x r1.X r1.X X_mont ctx.M ctx.mprime
          ctx.hw_words true r1.st
      else r1) = r2 at ht2 hc2 hok2
    have hm2 : ∀ e ∈ pre2, is_mont e = true := by
      intro e he
      rw [hpre2] at he
      by_cases hb : mbedtls_mpi_get_bit E k ≠ 0
      · rw [if_pos hb] at he; simp at he; rw [he]; rfl
      · rw [if_neg hb] at he; simp at he
    have hsq2 : pre2.countP (is_mont_at mont_site.square) = 0 := by
      rw [hpre2]
      by_cases hb : mbedtls_mpi_get_bit E k ≠ 0
      · rw [if_pos hb]; simp [is_mont_at]
      · rw [if_neg hb]; simp
    have hmx2 : pre2.countP (is_mont_at mont_site.mul_x)
        = (if mbedtls_mpi_get_bit E k ≠ 0 then 1 else 0) := by
      rw [hpre2]
      by_cases hb : mbedtls_mpi_get_bit E k ≠ 0
      · rw [if_pos hb, if_pos hb]; simp [is_mont_at]
      · rw [if_neg hb, if_neg hb]; simp
    have hl2 : pre2.length = (if mbedtls_mpi_get_bit E k ≠ 0 then 1 else 0) := by
      rw [hpre2]
      by_cases hb : mbedtls_mpi_get_bit E k ≠ 0
      · rw [if_pos hb, if_pos hb]; simp
      · rw [if_neg hb, if_neg hb]; simp
    have hm12 : ∀ e ∈ pre1 ++ pre2, is_mont e = true := by
      intro e he
      rcases List.mem_append.mp he with h | h
      · exact hm1 e h
      · exact hm2 e h
    by_cases h2 : r2.ok = true
    swap
    · -- the multiplication fails
      rw [if_pos h2]
      refine ⟨pre1 ++ pre2, hm12, ?_, ?_, ?_, ?_⟩
      · rw [disable_calls, hc2, hc1, List.length_append]; omega
      · rw [List.countP_append, List.countP_append, List.length_append, hsq1, hmx1, hsq2,
          hmx2, hl1, hl2]
        omega
      · intro h; simp at h
      · intro _; rw [disable_trace, ht2, ht1]; simp only [List.append_assoc]
    rw [if_neg (not_not.mpr h2)]
    obtain ⟨ms, hms, hcs, hlen, hsucc, hfail⟩ := ih r2.X r2.st
    refine ⟨pre1 ++ pre2 ++ ms, ?_, ?_, ?_, ?_, ?_⟩
    · intro e he
      rcases List.mem_append.mp he with h | h
      · exact hm12 e h
      · exact hms e h
    · rw [hcs, hc2, hc1, List.length_append, List.length_append]; omega
    · rw [List.countP_append, List.countP_append, List.countP_append, List.countP_append,
        List.length_append, List.length_append, hsq1, hmx1, hsq2, hmx2, hl1, hl2, hlen]
      omega
    · intro hok
      obtain ⟨htr, hnf, hsq, hmx⟩ := hsucc hok
      refine ⟨?_, ?_, ?_, ?_⟩
      · rw [htr, ht2, ht1]; simp only [List.append_assoc]
      · intro j hj1 hj2
        rw [List.length_append, List.length_append] at hj2
        by_cases ha : j < st.calls + pre1.length
        · exact (hok1.mp h1) j hj1 ha
        · by_cases hb : j < r1.st.calls + pre2.length
          · exact (hok2.mp h2) j (by rw [hc1]; omega) hb
          · exact hnf j (by rw [hc2]; omega) (by rw [hc2, hc1]; omega)
      · rw [List.countP_append, List.countP_append, hsq1, hsq2, hsq]
        by_cases hkt : k ≠ t
        · rw [if_pos hkt]
          by_cases hlt : t < k
          · rw [if_pos hlt, if_pos (by omega)]; omega
          · rw [if_neg hlt, if_neg (by omega)]; omega
        · rw [if_neg hkt]
          have hkt2 : k = t := not_not.mp hkt
          rw [if_neg (by omega), if_pos (by omega)]; omega
      · rw [List.countP_append, List.countP_append, hmx1, hmx2, hmx]
        simp only [exp_bits]
        omega
    · intro hok
      rw [hfail hok, ht2, ht1]; simp only [List.append_assoc]

/-- The hardware calls of one `rsa_mod_exp_hw_ctx` execution with a non-zero
exponent, under any fault oracle: either none (an allocation failed first), or
one enable, then only Montgomery multiplications, then one disable.  A
successful execution has met no fault in any of its collaborator calls and has
issued `mpi_msb(E)` squarings and one multiplication per set exponent bit
between the two conversions and the accumulator initialisation. -/
theorem exp_run_trace (fault : Nat → Bool) (ctx : rsa_mont_ctx_t) (X E Z : mbedtls_mpi)
    (feed_wdt : Bool) (st : hw_state) (hE : ¬ mbedtls_mpi_cmp_int E 0 = 0) :
    ∃ evs : List hw_event,
      (rsa_mod_exp_hw_ctx fault ctx X E Z feed_wdt st).st.trace = st.trace ++ evs ∧
      (evs = [] ∨ ∃ ms : List hw_event, (∀ e ∈ ms, is_mont e = true) ∧
        evs = hw_event.enable :: ms ++ [hw_event.disable]) ∧
      ((rsa_mod_exp_hw_ctx fault ctx X E Z feed_wdt st).ok = true →
        (∀ j, st.calls ≤ j → j < (rsa_mod_exp_hw_ctx fault ctx X E Z feed_wdt st).st.calls →
          fault j = false) ∧
        ∃ ms : List hw_event, (∀ e ∈ ms, is_mont e = true) ∧
          evs = hw_event.enable :: ms ++ [hw_event.disable] ∧
          ms.countP (is_mont_at mont_site.square) = mpi_msb E ∧
          ms.countP (is_mont_at mont_site.mul_x) = exp_bits E (mpi_msb E + 1) ∧
          ms.length = mpi_msb E + exp_bits E (mpi_msb E + 1) + 3) := by
  simp only [rsa_mod_exp_hw_ctx]
  rw [if_neg hE]
  -- the four allocations
  have hg1t := grow_trace fault mbedtls_mpi_init ctx.hw_words st
  have hg1c := grow_calls fault mbedtls_mpi_init ctx.hw_words st
  have hg1o := grow_ok_iff fault mbedtls_mpi_init ctx.hw_words st
  generalize mbedtls_mpi_grow fault mbedtls_mpi_init ctx.hw_words st = g1 at hg1t hg1c hg1o ⊢
  by_cases h1 : g1.ok = true
  swap
  · rw [if_pos h1]
    exact ⟨[], by simp [hg1t], Or.inl rfl, fun h => by simp at h⟩
  rw [if_neg (not_not.mpr h1)]
  have hg2t := grow_trace fault Z ctx.hw_words g1.st
  have hg2c := grow_calls fault Z ctx.hw_words g1.st
  have hg2o := grow_ok_iff fault Z ctx.hw_words g1.st
  generalize mbedtls_mpi_grow fault Z ctx.hw_words g1.st = g2 at hg2t hg2c hg2o ⊢
  by_cases h2 : g2.ok = true
  swap
  · rw [if_pos h2]
    exact ⟨[], by simp [hg2t, hg1t], Or.inl rfl, fun h => by simp at h⟩
  rw [if_neg (not_not.mpr h2)]
  have hg3t := grow_trace fault mbedtls_mpi_init ctx.hw_words g2.st
  have hg3c := grow_calls fault mbedtls_mpi_init ctx.hw_words g2.st
  have hg3o := grow_ok_iff fault mbedtls_mpi_init ctx.hw_words g2.st
  generalize mbedtls_mpi_grow fault mbedtls_mpi_init ctx.hw_words g2.st = g3 at hg3t hg3c hg3o ⊢
  by_cases h3 : g3.ok = true
  swap
  · rw [if_pos h3]
    exact ⟨[], by simp [hg3t, hg2t, hg1t], Or.inl rfl, fun h => by simp at h⟩
  rw [if_neg (not_not.mpr h3)]
  have hg4t := set_bit_trace fault g3.X 0 1 g3.st
  have hg4c := set_bit_calls fault g3.X 0 1 g3.st
  have hg4o := set_bit_ok_iff fault g3.X 0 1 g3.st
  generalize mbedtls_mpi_set_bit fault g3.X 0 1 g3.st = g4 at hg4t hg4c hg4o ⊢
  by_cases h4 : g4.ok = true
  swap
  · rw [if_pos h4]
    exact ⟨[], by simp [hg4t, hg3t, hg2t, hg1t], Or.inl rfl, fun h => by simp at h⟩
  rw [if_neg (not_not.mpr h4)]
  have hbase : g4.st.trace = st.trace := by rw [hg4t, hg3t, hg2t, hg1t]
  have hcalls4 : g4.st.calls = st.calls + 4 := by rw [hg4c, hg3c, hg2c, hg1c]
  -- conversion of X to the Montgomery domain
  have hm1t := mont_op_trace fault mont_site.to_mont g1.X X ctx.Rinv ctx.M ctx.mprime
    ctx.hw_words false (esp_mpi_enable_hardware_hw_op g4.st)
  have hm1c := mont_op_calls fault mont_site.to_mont g1.X X ctx.Rinv ctx.M ctx.mprime
    ctx.hw_words false (esp_mpi_enable_hardware_hw_op g4.st)
  have hm1o := mont_op_ok_iff fault mont_site.to_mont g1.X X ctx.Rinv ctx.M ctx.mprime
    ctx.hw_words false (esp_mpi_enable_hardware_hw_op g4.st)
  rw [enable_trace, hbase] at hm1t
  rw [enable_calls, hcalls4] at hm1c hm1o
  generalize esp_mont_hw_op fault mont_site.to_mont g1.X X ctx.Rinv ctx.M ctx.mprime
    ctx.hw_words false (esp_mpi_enable_hardware_hw_op g4.st) = m1 at hm1t hm1c hm1o ⊢
  by_cases h5 : m1.ok = true
  swap
  · rw [if_pos h5]
    refine ⟨hw_event.enable :: [hw_event.mont_op mont_site.to_mont (mpi_value X)
      (mpi_value ctx.Rinv)] ++ [hw_event.disable], ?_, Or.inr ⟨_, ?_, rfl⟩,
      fun h => by simp at h⟩
    · rw [disable_trace, hm1t]; simp
    · intro e he; simp at he; rw [he]; rfl
  rw [if_neg (not_not.mpr h5)]
  -- initialisation of the accumulator
  have hm2t := mont_op_trace fault mont_site.init_acc g2.X ctx.Rinv g4.X ctx.M ctx.mprime
    ctx.hw_words true m1.st
  have hm2c := mont_op_calls fault mont_site.init_acc g2.X ctx.Rinv g4.X ctx.M ctx.mprime
    ctx.hw_words true m1.st
  have hm2o := mont_op_ok_iff fault mont_site.init_acc g2.X ctx.Rinv g4.X ctx.M ctx.mprime
    ctx.hw_words true m1.st
  rw [hm1t] at hm2t
  rw [hm1c] at hm2c hm2o
  generalize esp_mont_hw_op fault mont_site.init_acc g2.X ctx.Rinv g4.X ctx.M ctx.mprime
    ctx.hw_words true m1.st = m2 at hm2t hm2c hm2o ⊢
  by_cases h6 : m2.ok = true
  swap
  · rw [if_pos h6]
    refine ⟨hw_event.enable :: [hw_event.mont_op mont_site.to_mont (mpi_value X)
      (mpi_value ctx.Rinv), hw_event.mont_op mont_site.init_acc (mpi_value ctx.Rinv)
      (mpi_value g4.X)] ++ [hw_event.disable], ?_, Or.inr ⟨_, ?_, rfl⟩,
      fun h => by simp at h⟩
    · rw [disable_trace, hm2t]; simp
    · intro e he
      simp at he
      rcases he with he | he <;> rw [he] <;> rfl
  rw [if_neg (not_not.mpr h6)]
  -- the loop
  obtain ⟨ms, hms, hlc, hllen, hlsucc, hlfail⟩ :=
    exp_loop_trace fault ctx E m1.X (mpi_msb E) (mpi_msb E + 1) m2.X m2.st
  rw [hm2t] at hlsucc hlfail
  rw [hm2c] at hlc hlsucc
  generalize exp_loop fault ctx E m1.X (mpi_msb E) (mpi_msb E + 1) m2.X m2.st = l
    at hlc hlsucc hlfail ⊢
  have hpre : ∀ e ∈ [hw_event.mont_op mont_site.to_mont (mpi_value X) (mpi_value ctx.Rinv),
      hw_event.mont_op mont_site.init_acc (mpi_value ctx.Rinv) (mpi_value g4.X)] ++ ms,
      is_mont e = true := by
    intro e he
    rcases List.mem_append.mp he with h | h
    · simp at h
      rcases h with h | h <;> rw [h] <;> rfl
    · exact hms e h
  by_cases h7 : l.ok = true
  swap
  · rw [if_pos h7]
    have hlf := hlfail (by simpa using h7)
    refine ⟨hw_event.enable :: ([hw_event.mont_op mont_site.to_mont (mpi_value X)
      (mpi_value ctx.Rinv), hw_event.mont_op mont_site.init_acc (mpi_value ctx.Rinv)
      (mpi_value g4.X)] ++ ms) ++ [hw_event.disable], ?_, Or.inr ⟨_, hpre, rfl⟩, ?_⟩
    · rw [hlf]; simp
    · intro h; exact absurd h h7
  rw [if_neg (not_not.mpr h7)]
  obtain ⟨hlt, hlnf, hlsq, hlmx⟩ := hlsucc h7
  -- conversion back from the Montgomery domain
  have hm3t := mont_op_trace fault mont_site.from_mont l.X l.X g4.X ctx.M ctx.mprime
    ctx.hw_words true l.st
  have hm3c := mont_op_calls fault mont_site.from_mont l.X l.X g4.X ctx.M ctx.mprime
    ctx.hw_words true l.st
  have hm3o := mont_op_ok_iff fault mont_site.from_mont l.X l.X g4.X ctx.M ctx.mprime
    ctx.hw_words true l.st
  rw [hlt] at hm3t
  rw [hlc] at hm3c hm3o
  generalize esp_mont_hw_op fault mont_site.from_mont l.X l.X g4.X ctx.M ctx.mprime
    ctx.hw_words true l.st = m3 at hm3t hm3c hm3o ⊢
  have hall : ∀ e ∈ [hw_event.mont_op mont_site.to_mont (mpi_value X) (mpi_value ctx.Rinv),
      hw_event.mont_op mont_site.init_acc (mpi_value ctx.Rinv) (mpi_value g4.X)] ++ ms
      ++ [hw_event.mont_op mont_site.from_mont (mpi_value l.X) (mpi_value g4.X)],
      is_mont e = true := by
    intro e he
    rcases List.mem_append.mp he with h | h
    · exact hpre e h
    · simp at h; rw [h]; rfl
  by_cases h8 : m3.ok = true
  swap
  · rw [if_pos h8]
    refine ⟨hw_event.enable :: ([hw_event.mont_op mont_site.to_mont (mpi_value X)
      (mpi_value ctx.Rinv), hw_event.mont_op mont_site.init_acc (mpi_value ctx.Rinv)
      (mpi_value g4.X)] ++ ms
      ++ [hw_event.mont_op mont_site.from_mont (mpi_value l.X) (mpi_value g4.X)])
      ++ [hw_event.disable], ?_, Or.inr ⟨_, hall, rfl⟩, fun h => by simp at h⟩
    rw [disable_trace, hm3t]; simp
  rw [if_neg (not_not.mpr h8)]
  refine ⟨hw_event.enable :: ([hw_event.mont_op mont_site.to_mont (mpi_value X)
    (mpi_value ctx.Rinv), hw_event.mont_op mont_site.init_acc (mpi_value ctx.Rinv)
    (mpi_value g4.X)] ++ ms
    ++ [hw_event.mont_op mont_site.from_mont (mpi_value l.X) (mpi_value g4.X)])
    ++ [hw_event.disable], ?_, Or.inr ⟨_, hall, rfl⟩, ?_⟩
  · rw [disable_trace, hm3t]; simp
  · intro _
    refine ⟨?_, _, hall, rfl, ?_, ?_, ?_⟩
    · intro j hj1 hj2
      rw [disable_calls, hm3c] at hj2
      have f0 := hg1o.mp h1
      have f1 := hg2o.mp h2
      have f2 := hg3o.mp h3
      have f3 := hg4o.mp h4
      have f4 := hm1o.mp h5
      have f5 := hm2o.mp h6
      have f6 := hm3o.mp h8
      rw [hg1c] at f1
      rw [hg2c, hg1c] at f2
      rw [hg3c, hg2c, hg1c] at f3
      have hcase : j = st.calls ∨ j = st.calls + 1 ∨ j = st.calls + 1 + 1 ∨
          j = st.calls + 1 + 1 + 1 ∨ j = st.calls + 4 ∨ j = st.calls + 4 + 1 ∨
          (st.calls + 4 + 1 + 1 ≤ j ∧ j < st.calls + 4 + 1 + 1 + ms.length) ∨
          j = st.calls + 4 + 1 + 1 + ms.length := by omega
      rcases hcase with h | h | h | h | h | h | h | h
      · rw [h]; exact f0
      · rw [h]; exact f1
      · rw [h]; exact f2
      · rw [h]; exact f3
      · rw [h]; exact f4
      · rw [h]; exact f5
      · exact hlnf j h.1 h.2
      · rw [h]; exact f6
    · rw [List.countP_append, List.countP_append, hlsq]
      simp [is_mont_at]
    · rw [List.countP_append, List.countP_append, hlmx]
      simp [is_mont_at]
    · rw [List.length_append, List.length_append, hllen, hlsq, hlmx]
      simp
      omega

/-! ## Claims about the hardware calls of the engines -/

theorem events_since_append (st st2 : hw_state) (evs : List hw_event)
    (h : st2.trace = st.trace ++ evs) : events_since st st2 = evs := by
  unfold events_since
  rw [h, List.drop_left]

theorem filter_toggle_mont (ms : List hw_event) (h : ∀ e ∈ ms, is_mont e = true) :
    ms.filter is_toggle = [] := by
  apply List.filter_eq_nil_iff.mpr
  intro e he
  have hm := h e he
  cases e <;> simp [is_mont, is_toggle] at hm ⊢

theorem cmp_int_zero_of_value (E : mbedtls_mpi) (h : mpi_value E = 0) :
    mbedtls_mpi_cmp_int E 0 = 0 := by
  unfold mbedtls_mpi_cmp_int
  simp [h]

theorem cmp_int_ne_zero_of_pos (E : mbedtls_mpi) (hs : E.s = 1) (h : 1 ≤ mpi_value E) :
    ¬ mbedtls_mpi_cmp_int E 0 = 0 := by
  intro hc
  exact cmp_int_zero_pos E hs (by omega) (by rw [hc])

/-- The hardware calls of the zero-exponent path: none, under any fault oracle. -/
theorem exp_zero_trace (fault : Nat → Bool) (ctx : rsa_mont_ctx_t) (X E Z : mbedtls_mpi)
    (feed_wdt : Bool) (st : hw_state) (hE : mbedtls_mpi_cmp_int E 0 = 0) :
    rsa_mod_exp_hw_ctx fault ctx X E Z feed_wdt st = mbedtls_mpi_lset fault Z 1 st := by
  simp only [rsa_mod_exp_hw_ctx]
  rw [if_pos hE]

/-- The hardware calls of `rsa_mod_mult_hw_ctx` under any fault oracle. -/
theorem mult_run_trace (fault : Nat → Bool) (ctx : rsa_mont_ctx_t) (X Y Z : mbedtls_mpi)
    (st : hw_state) :
    (rsa_mod_mult_hw_ctx fault ctx X Y Z st).st.trace
        = st.trace ++ [hw_event.enable, hw_event.mul_mod_op (mpi_value X) (mpi_value Y),
            hw_event.disable] ∨
      (rsa_mod_mult_hw_ctx fault ctx X Y Z st).st.trace
        = st.trace ++ [hw_event.enable, hw_event.mul_mod_op (mpi_value X) (mpi_value Y),
            hw_event.read_result, hw_event.disable] := by
  simp only [rsa_mod_mult_hw_ctx]
  have hgt := grow_trace fault Z ctx.hw_words
    (esp_mpi_mul_mpi_mod_hw_op X Y ctx.M ctx.Rinv ctx.mprime ctx.hw_words
      (esp_mpi_enable_hardware_hw_op st))
  have hbase : (esp_mpi_mul_mpi_mod_hw_op X Y ctx.M ctx.Rinv ctx.mprime ctx.hw_words
      (esp_mpi_enable_hardware_hw_op st)).trace
      = st.trace ++ [hw_event.enable, hw_event.mul_mod_op (mpi_value X) (mpi_value Y)] := by
    simp [esp_mpi_mul_mpi_mod_hw_op, esp_mpi_enable_hardware_hw_op, hw_log]
  rw [hbase] at hgt
  generalize mbedtls_mpi_grow fault Z ctx.hw_words
    (esp_mpi_mul_mpi_mod_hw_op X Y ctx.M ctx.Rinv ctx.mprime ctx.hw_words
      (esp_mpi_enable_hardware_hw_op st)) = g at hgt ⊢
  by_cases h : g.ok = true
  · right
    rw [if_neg (not_not.mpr h)]
    simp [mpi_hal_read_result_hw_op, esp_mpi_disable_hardware_hw_op, hw_log, hgt]
  · left
    rw [if_pos h]
    simp [esp_mpi_disable_hardware_hw_op, hw_log, hgt]

/-- C14: in every execution of `rsa_mod_mult_hw_ctx` and of
`rsa_mod_exp_hw_ctx`, on the success path and on every failure path (any
fault oracle, so also a failure partway through the exponentiation), the
acquire and release calls issued by the execution are either none or exactly
one `enable` followed by exactly one `disable`: each enable is followed by one
disable before the function returns and the multiplier is never enabled again
while held. -/
theorem hardware_enable_disable_balanced (fault : Nat → Bool) (ctx : rsa_mont_ctx_t)
    (X Y E Z : mbedtls_mpi) (feed_wdt : Bool) (st : hw_state) :
    ((rsa_mod_mult_hw_ctx fault ctx X Y Z st).st.trace
        = st.trace ++ events_since st (rsa_mod_mult_hw_ctx fault ctx X Y Z st).st ∧
      (events_since st (rsa_mod_mult_hw_ctx fault ctx X Y Z st).st).filter is_toggle
        = [hw_event.enable, hw_event.disable]) ∧
    ((rsa_mod_exp_hw_ctx fault ctx X E Z feed_wdt st).st.trace
        = st.trace ++ events_since st (rsa_mod_exp_hw_ctx fault ctx X E Z feed_wdt st).st ∧
      ((events_since st (rsa_mod_exp_hw_ctx fault ctx X E Z feed_wdt st).st).filter is_toggle
          = [] ∨
        (events_since st (rsa_mod_exp_hw_ctx fault ctx X E Z feed_wdt st).st).filter is_toggle
          = [hw_event.enable, hw_event.disable])) := by
  constructor
  · rcases mult_run_trace fault ctx X Y Z st with h | h
    · rw [events_since_append st _ _ h]
      exact ⟨h, by simp [is_toggle]⟩
    · rw [events_since_append st _ _ h]
      exact ⟨h, by simp [is_toggle]⟩
  · by_cases hE : mbedtls_mpi_cmp_int E 0 = 0
    · have htr : (rsa_mod_exp_hw_ctx fault ctx X E Z feed_wdt st).st.trace = st.trace ++ [] := by
        rw [exp_zero_trace fault ctx X E Z feed_wdt st hE, lset_trace, List.append_nil]
      rw [events_since_append st _ _ htr]
      exact ⟨htr, Or.inl rfl⟩
    · obtain ⟨evs, htr, hshape, _⟩ := exp_run_trace fault ctx X E Z feed_wdt st hE
      rw [events_since_append st _ _ htr]
      refine ⟨htr, ?_⟩
      rcases hshape with h | ⟨ms, hms, h⟩
      · left; rw [h]; rfl
      · right
        rw [h, List.cons_append, List.filter_cons_of_pos (by rfl), List.filter_append,
          filter_toggle_mont ms hms]
        simp [is_toggle]

/-- C15 as stated fails: `Z` is the accumulator that every step overwrites in
place.  With modulus 5, `X = 2`, `E = 3` and an empty `Z` (value 0), let the
final conversion out of the Montgomery domain (collaborator call number 9)
fail: the call reports failure, but `Z` holds 3, not its value before the call. -/
theorem exp_failure_leaves_partial_result :
    (rsa_mod_exp_hw_ctx (fault_at 9)
        (rsa_mont_ctx_init hardware_words_16 no_fault ctx_unset [5] 1 hw_idle).ctx
        (mpi_of_words [2]) (mpi_of_words [3]) mbedtls_mpi_init false hw_idle).ok = false ∧
      (events_since hw_idle (rsa_mod_exp_hw_ctx (fault_at 9)
        (rsa_mont_ctx_init hardware_words_16 no_fault ctx_unset [5] 1 hw_idle).ctx
        (mpi_of_words [2]) (mpi_of_words [3]) mbedtls_mpi_init false hw_idle).st).getLast?
        = some hw_event.disable ∧
      mpi_value (rsa_mod_exp_hw_ctx (fault_at 9)
        (rsa_mont_ctx_init hardware_words_16 no_fault ctx_unset [5] 1 hw_idle).ctx
        (mpi_of_words [2]) (mpi_of_words [3]) mbedtls_mpi_init false hw_idle).X = 3 ∧
      mpi_value mbedtls_mpi_init = 0 := by
  decide!

/-- C15 (amended): if any Montgomery step of `rsa_mod_exp_hw_ctx` fails
(domain conversion, accumulator initialisation, a squaring, a multiply-by-X
or the final conversion), or any other status-returning collaborator call
made by the execution, the call reports failure.  (Nothing is promised about
`Z`, the in-place accumulator.)  The collaborator calls of the execution are
those numbered from `st.calls` up to the final call count. -/
theorem exp_fault_reported (fault : Nat → Bool) (ctx : rsa_mont_ctx_t)
    (X E Z : mbedtls_mpi) (feed_wdt : Bool) (st : hw_state)
    (hfault : ∃ j, st.calls ≤ j ∧
      j < (rsa_mod_exp_hw_ctx fault ctx X E Z feed_wdt st).st.calls ∧ fault j = true) :
    (rsa_mod_exp_hw_ctx fault ctx X E Z feed_wdt st).ok = false := by
  obtain ⟨j, hj1, hj2, hj3⟩ := hfault
  cases hok : (rsa_mod_exp_hw_ctx fault ctx X E Z feed_wdt st).ok with
  | false => rfl
  | true =>
    exfalso
    by_cases hE : mbedtls_mpi_cmp_int E 0 = 0
    · rw [exp_zero_trace fault ctx X E Z feed_wdt st hE] at hok hj2
      rw [lset_calls] at hj2
      have hf := (lset_ok_iff fault Z 1 st).mp hok
      have hjeq : j = st.calls := by omega
      rw [hjeq, hf] at hj3
      exact absurd hj3 (by decide)
    · obtain ⟨_, _, _, hsucc⟩ := exp_run_trace fault ctx X E Z feed_wdt st hE
      have hf := (hsucc hok).1 j hj1 hj2
      rw [hf] at hj3
      exact absurd hj3 (by decide)

theorem exp_fault_reported_witness :
    (rsa_mod_exp_hw_ctx (fault_at 9)
        (rsa_mont_ctx_init hardware_words_16 no_fault ctx_unset [5] 1 hw_idle).ctx
        (mpi_of_words [2]) (mpi_of_words [3]) mbedtls_mpi_init false hw_idle).ok = false :=
  exp_fault_reported (fault_at 9)
    (rsa_mont_ctx_init hardware_words_16 no_fault ctx_unset [5] 1 hw_idle).ctx
    (mpi_of_words [2]) (mpi_of_words [3]) mbedtls_mpi_init false hw_idle
    ⟨9, by decide, by decide!, by decide⟩

/-- C16: for every context and every `X`, `rsa_mod_exp_hw_ctx` called with
`E = 0` performs no hardware access at all: its event trace contains no
enable, no disable and no Montgomery multiply (it is empty), under any fault
oracle. -/
theorem exp_zero_no_hardware (fault : Nat → Bool) (ctx : rsa_mont_ctx_t)
    (X E Z : mbedtls_mpi) (feed_wdt : Bool) (st : hw_state) (hE : mpi_value E = 0) :
    (rsa_mod_exp_hw_ctx fault ctx X E Z feed_wdt st).st.trace = st.trace ∧
      events_since st (rsa_mod_exp_hw_ctx fault ctx X E Z feed_wdt st).st = [] := by
  have htr : (rsa_mod_exp_hw_ctx fault ctx X E Z feed_wdt st).st.trace = st.trace := by
    rw [exp_zero_trace fault ctx X E Z feed_wdt st (cmp_int_zero_of_value E hE), lset_trace]
  refine ⟨htr, events_since_append st _ [] ?_⟩
  rw [htr, List.append_nil]

theorem exp_zero_no_hardware_witness :
    (rsa_mod_exp_hw_ctx no_fault
        (rsa_mont_ctx_init hardware_words_16 no_fault ctx_unset [5] 1 hw_idle).ctx
        (mpi_of_words [2]) (mpi_of_words [0]) mbedtls_mpi_init false hw_idle).st.trace
        = hw_idle.trace ∧
      events_since hw_idle (rsa_mod_exp_hw_ctx no_fault
        (rsa_mont_ctx_init hardware_words_16 no_fault ctx_unset [5] 1 hw_idle).ctx
        (mpi_of_words [2]) (mpi_of_words [0]) mbedtls_mpi_init false hw_idle).st = [] :=
  exp_zero_no_hardware no_fault
    (rsa_mont_ctx_init hardware_words_16 no_fault ctx_unset [5] 1 hw_idle).ctx
    (mpi_of_words [2]) (mpi_of_words [0]) mbedtls_mpi_init false hw_idle (by decide)

/-- C17 as stated fails: the multiplier is acquired once for the whole
exponentiation.  For modulus 5, `X = 2`, `E = 3` the execution logs one
enable, six Montgomery multiplies in a row and one disable; the first
multiply is followed by another multiply, not by a disable, and the second is
preceded by a multiply, not by an enable. -/
theorem exp_steps_share_one_acquire :
    events_since hw_idle (rsa_mod_exp_hw_ctx no_fault
        (rsa_mont_ctx_init hardware_words_16 no_fault ctx_unset [5] 1 hw_idle).ctx
        (mpi_of_words [2]) (mpi_of_words [3]) mbedtls_mpi_init false hw_idle).st
      = [hw_event.enable,
          hw_event.mont_op mont_site.to_mont 2 1,
          hw_event.mont_op mont_site.init_acc 1 1,
          hw_event.mont_op mont_site.mul_x 1 2,
          hw_event.mont_op mont_site.square 2 2,
          hw_event.mont_op mont_site.mul_x 4 2,
          hw_event.mont_op mont_site.from_mont 3 1,
          hw_event.disable] ∧
      hw_event.mont_op mont_site.init_acc 1 1 ≠ hw_event.disable ∧
      hw_event.mont_op mont_site.to_mont 2 1 ≠ hw_event.enable := by
  decide!

/-- C17 (amended): `rsa_mod_exp_hw_ctx` acquires the hardware multiplier once
before the first Montgomery step and releases it once after the last one (or
after the failing one).  In the event trace of any call with `E ≥ 1`, under
any fault oracle, the events are either none (an allocation failed before the
hardware was touched) or one enable, then only Montgomery multiplies, then one
disable; a successful call has the second form with at least three multiplies. -/
theorem exp_single_acquire (fault : Nat → Bool) (ctx : rsa_mont_ctx_t)
    (X E Z : mbedtls_mpi) (feed_wdt : Bool) (st : hw_state)
    (hE : mpi_ok E) (hE1 : 1 ≤ mpi_value E) :
    (events_since st (rsa_mod_exp_hw_ctx fault ctx X E Z feed_wdt st).st = [] ∨
      ∃ ms : List hw_event, (∀ e ∈ ms, is_mont e = true) ∧
        events_since st (rsa_mod_exp_hw_ctx fault ctx X E Z feed_wdt st).st
          = hw_event.enable :: ms ++ [hw_event.disable]) ∧
    ((rsa_mod_exp_hw_ctx fault ctx X E Z feed_wdt st).ok = true →
      ∃ ms : List hw_event, (∀ e ∈ ms, is_mont e = true) ∧ 3 ≤ ms.length ∧
        events_since st (rsa_mod_exp_hw_ctx fault ctx X E Z feed_wdt st).st
          = hw_event.enable :: ms ++ [hw_event.disable]) := by
  obtain ⟨evs, htr, hshape, hsucc⟩ :=
    exp_run_trace fault ctx X E Z feed_wdt st (cmp_int_ne_zero_of_pos E hE.1 hE1)
  rw [events_since_append st _ _ htr]
  refine ⟨hshape, ?_⟩
  intro hok
  obtain ⟨_, ms, hms, hevs, _, _, hlen⟩ := hsucc hok
  exact ⟨ms, hms, by omega, hevs⟩

theorem exp_single_acquire_witness :
    (events_since hw_idle (rsa_mod_exp_hw_ctx no_fault
        (rsa_mont_ctx_init hardware_words_16 no_fault ctx_unset [5] 1 hw_idle).ctx
        (mpi_of_words [2]) (mpi_of_words [3]) mbedtls_mpi_init false hw_idle).st = [] ∨
      ∃ ms : List hw_event, (∀ e ∈ ms, is_mont e = true) ∧
        events_since hw_idle (rsa_mod_exp_hw_ctx no_fault
          (rsa_mont_ctx_init hardware_words_16 no_fault ctx_unset [5] 1 hw_idle).ctx
          (mpi_of_words [2]) (mpi_of_words [3]) mbedtls_mpi_init false hw_idle).st
          = hw_event.enable :: ms ++ [hw_event.disable]) ∧
    ((rsa_mod_exp_hw_ctx no_fault
        (rsa_mont_ctx_init hardware_words_16 no_fault ctx_unset [5] 1 hw_idle).ctx
        (mpi_of_words [2]) (mpi_of_words [3]) mbedtls_mpi_init false hw_idle).ok = true →
      ∃ ms : List hw_event, (∀ e ∈ ms, is_mont e = true) ∧ 3 ≤ ms.length ∧
        events_since hw_idle (rsa_mod_exp_hw_ctx no_fault
          (rsa_mont_ctx_init hardware_words_16 no_fault ctx_unset [5] 1 hw_idle).ctx
          (mpi_of_words [2]) (mpi_of_words [3]) mbedtls_mpi_init false hw_idle).st
          = hw_event.enable :: ms ++ [hw_event.disable]) :=
  exp_single_acquire no_fault
    (rsa_mont_ctx_init hardware_words_16 no_fault ctx_unset [5] 1 hw_idle).ctx
    (mpi_of_words [2]) (mpi_of_words [3]) mbedtls_mpi_init false hw_idle
    (by decide) (by decide)

/-! ## Counting the Montgomery steps -/

theorem bit_sum_zero (k : Nat) : ∑ i in Finset.range k, (0 / 2 ^ i % 2) = 0 := by
  apply Finset.sum_eq_zero
  intro i _
  simp

/-- The binary digit sum of `e < 2^k` is the sum of its `k` lowest bits. -/
theorem popcount_eq_bit_sum : ∀ (k e : Nat), e < 2 ^ k →
    popcount e = ∑ i in Finset.range k, (e / 2 ^ i % 2) := by
  intro k
  induction k with
  | zero =>
    intro e he
    have : e = 0 := by simpa using he
    subst this
    simp [popcount]
  | succ k ih =>
    intro e he
    by_cases h0 : e = 0
    · subst h0
      rw [bit_sum_zero]
      simp [popcount]
    · have hpos : 0 < e := Nat.pos_of_ne_zero h0
      have hhalf : e / 2 < 2 ^ k := by
        rw [pow_succ] at he; omega
      have hrec := ih (e / 2) hhalf
      unfold popcount at hrec ⊢
      rw [Nat.digits_def' (by norm_num) hpos, List.sum_cons, hrec,
        Finset.sum_range_succ']
      have hshift : ∀ i, e / 2 ^ (i + 1) % 2 = e / 2 / 2 ^ i % 2 := by
        intro i
        rw [Nat.div_div_eq_div_mul, pow_succ, mul_comm]
      simp only [hshift, pow_zero, Nat.div_one]
      omega

theorem exp_bits_eq_bit_sum (E : mbedtls_mpi) (hE : words_ok E.p) (k : Nat) :
    exp_bits E k = ∑ i in Finset.range k, (mpi_value E / 2 ^ i % 2) := by
  induction k with
  | zero => simp [exp_bits]
  | succ k ih =>
    rw [Finset.sum_range_succ, ← ih]
    simp only [exp_bits]
    rw [get_bit_eq E hE k]
    rcases Nat.mod_two_eq_zero_or_one (mpi_value E / 2 ^ k) with h | h
    · rw [h]; simp
    · rw [h]; simp

/-- C19: for every exponent `E ≥ 1` whose most-significant set bit has index
`t = mpi_msb(E)` (so `2^t ≤ E < 2^(t+1)`), a successful `rsa_mod_exp_hw_ctx`
issues exactly `t` squarings and exactly `popcount(E)` multiplications by the
Montgomery-domain `X` inside the loop, for `t + popcount(E) + 3` Montgomery
multiplies in total; in particular for `E = 1` no squaring is issued and
exactly one multiply-by-X runs. -/
theorem exp_montgomery_step_counts (fault : Nat → Bool) (ctx : rsa_mont_ctx_t)
    (X E Z : mbedtls_mpi) (feed_wdt : Bool) (st : hw_state)
    (hE : mpi_ok E) (hE1 : 1 ≤ mpi_value E)
    (hok : (rsa_mod_exp_hw_ctx fault ctx X E Z feed_wdt st).ok = true) :
    (2 ^ mpi_msb E ≤ mpi_value E ∧ mpi_value E < 2 ^ (mpi_msb E + 1)) ∧
      (events_since st (rsa_mod_exp_hw_ctx fault ctx X E Z feed_wdt st).st).countP
          (is_mont_at mont_site.square) = mpi_msb E ∧
      (events_since st (rsa_mod_exp_hw_ctx fault ctx X E Z feed_wdt st).st).countP
          (is_mont_at mont_site.mul_x) = popcount (mpi_value E) ∧
      (events_since st (rsa_mod_exp_hw_ctx fault ctx X E Z feed_wdt st).st).countP is_mont
          = mpi_msb E + popcount (mpi_value E) + 3 ∧
      (mpi_value E = 1 →
        (events_since st (rsa_mod_exp_hw_ctx fault ctx X E Z feed_wdt st).st).countP
            (is_mont_at mont_site.square) = 0 ∧
        (events_since st (rsa_mod_exp_hw_ctx fault ctx X E Z feed_wdt st).st).countP
            (is_mont_at mont_site.mul_x) = 1) := by
  have hmsb := mpi_msb_spec E hE.2 (by omega)
  obtain ⟨evs, htr, _, hsucc⟩ :=
    exp_run_trace fault ctx X E Z feed_wdt st (cmp_int_ne_zero_of_pos E hE.1 hE1)
  obtain ⟨_, ms, hms, hevs, hsq, hmx, hlen⟩ := hsucc hok
  rw [events_since_append st _ _ htr, hevs]
  have hpop : exp_bits E (mpi_msb E + 1) = popcount (mpi_value E) := by
    rw [exp_bits_eq_bit_sum E hE.2, popcount_eq_bit_sum (mpi_msb E + 1) _ hmsb.2]
  have hcsq : (hw_event.enable :: ms ++ [hw_event.disable]).countP
      (is_mont_at mont_site.square) = mpi_msb E := by
    rw [List.cons_append, List.countP_cons, List.countP_append, hsq]
    simp [is_mont_at]
  have hcmx : (hw_event.enable :: ms ++ [hw_event.disable]).countP
      (is_mont_at mont_site.mul_x) = popcount (mpi_value E) := by
    rw [List.cons_append, List.countP_cons, List.countP_append, hmx, hpop]
    simp [is_mont_at]
  have hcall : (hw_event.enable :: ms ++ [hw_event.disable]).countP is_mont
      = mpi_msb E + popcount (mpi_value E) + 3 := by
    rw [List.cons_append, List.countP_cons, List.countP_append,
      List.countP_eq_length.mpr hms, hlen, hpop]
    simp [is_mont]
  refine ⟨hmsb, hcsq, hcmx, hcall, ?_⟩
  intro h1
  rw [hcsq, hcmx, h1]
  have ht : mpi_msb E = 0 := by
    have h2 := hmsb.1
    rw [h1] at h2
    by_contra hne
    have : 2 ^ 1 ≤ 2 ^ mpi_msb E := Nat.pow_le_pow_right (by norm_num) (by omega)
    omega
  exact ⟨ht, by simp [popcount]⟩

theorem exp_montgomery_step_counts_witness :
    (2 ^ mpi_msb (mpi_of_words [3]) ≤ mpi_value (mpi_of_words [3]) ∧
        mpi_value (mpi_of_words [3]) < 2 ^ (mpi_msb (mpi_of_words [3]) + 1)) ∧
      (events_since hw_idle (rsa_mod_exp_hw_ctx no_fault
        (rsa_mont_ctx_init hardware_words_16 no_fault ctx_unset [5] 1 hw_idle).ctx
        (mpi_of_words [2]) (mpi_of_words [3]) mbedtls_mpi_init false hw_idle).st).countP
          (is_mont_at mont_site.square) = mpi_msb (mpi_of_words [3]) ∧
      (events_since hw_idle (rsa_mod_exp_hw_ctx no_fault
        (rsa_mont_ctx_init hardware_words_16 no_fault ctx_unset [5] 1 hw_idle).ctx
        (mpi_of_words [2]) (mpi_of_words [3]) mbedtls_mpi_init false hw_idle).st).countP
          (is_mont_at mont_site.mul_x) = popcount (mpi_value (mpi_of_words [3])) ∧
      (events_since hw_idle (rsa_mod_exp_hw_ctx no_fault
        (rsa_mont_ctx_init hardware_words_16 no_fault ctx_unset [5] 1 hw_idle).ctx
        (mpi_of_words [2]) (mpi_of_words [3]) mbedtls_mpi_init false hw_idle).st).countP is_mont
          = mpi_msb (mpi_of_words [3]) + popcount (mpi_value (mpi_of_words [3])) + 3 ∧
      (mpi_value (mpi_of_words [3]) = 1 →
        (events_since hw_idle (rsa_mod_exp_hw_ctx no_fault
          (rsa_mont_ctx_init hardware_words_16 no_fault ctx_unset [5] 1 hw_idle).ctx
          (mpi_of_words [2]) (mpi_of_words [3]) mbedtls_mpi_init false hw_idle).st).countP
            (is_mont_at mont_site.square) = 0 ∧
        (events_since hw_idle (rsa_mod_exp_hw_ctx no_fault
          (rsa_mont_ctx_init hardware_words_16 no_fault ctx_unset [5] 1 hw_idle).ctx
          (mpi_of_words [2]) (mpi_of_words [3]) mbedtls_mpi_init false hw_idle).st).countP
            (is_mont_at mont_site.mul_x) = 1) :=
  exp_montgomery_step_counts no_fault
    (rsa_mont_ctx_init hardware_words_16 no_fault ctx_unset [5] 1 hw_idle).ctx
    (mpi_of_words [2]) (mpi_of_words [3]) mbedtls_mpi_init false hw_idle
    (by decide) (by decide) (by decide!)

/-! ## The timed benchmark loop: proofs -/

/-- Progress lines added by the loop when every remaining iteration succeeds. -/
theorem benchmark_loop_progress (N : Nat) (outcome : Nat → Option Nat) :
    ∀ (fuel i : Nat) (r : bench_run),
      (∀ j, i ≤ j → j < i + fuel → (outcome j).isSome = true) →
      (benchmark_loop N outcome fuel i r).lines.countP is_progress
        = r.lines.countP is_progress
          + (if N ≥ 5 then (i + fuel) / (N / 5) - i / (N / 5) else 0) := by
  intro fuel
  induction fuel with
  | zero =>
    intro i r _
    simp [benchmark_loop]
  | succ fuel ih =>
    intro i r hall
    obtain ⟨us, hus⟩ := Option.isSome_iff_exists.mp (hall i (le_refl _) (by omega))
    unfold benchmark_loop
    simp only [hus]
    rw [ih (i + 1) _ (fun j h1 h2 => hall j (by omega) (by omega))]
    simp only []
    by_cases hN : N ≥ 5
    · have hd : 0 < N / 5 := by omega
      simp only [hN, true_and, if_true]
      have hsucc := Nat.succ_div i (N / 5)
      have hmono : (i + 1) / (N / 5) ≤ (i + 1 + fuel) / (N / 5) :=
        Nat.div_le_div_right (by omega)
      have hassoc : i + (fuel + 1) = i + 1 + fuel := by omega
      rw [hassoc]
      by_cases hdiv : (i + 1) % (N / 5) = 0
      · have hdvd : N / 5 ∣ i + 1 := Nat.dvd_of_mod_eq_zero hdiv
        rw [if_pos hdvd] at hsucc
        rw [if_pos hdiv, List.countP_append, List.countP_append]
        simp only [List.countP_cons, List.countP_nil, is_progress, Bool.false_eq_true,
          if_false, if_true]
        generalize (i + 1 + fuel) / (N / 5) = c at hmono ⊢
        generalize (i + 1) / (N / 5) = b at hsucc hmono ⊢
        generalize i / (N / 5) = a at hsucc ⊢
        omega
      · have hdvd : ¬ (N / 5 ∣ i + 1) := fun h => hdiv (Nat.mod_eq_zero_of_dvd h)
        rw [if_neg hdvd] at hsucc
        rw [if_neg hdiv, List.countP_append]
        simp only [List.countP_cons, List.countP_nil, is_progress, Bool.false_eq_true,
          if_false]
        generalize (i + 1 + fuel) / (N / 5) = c at hmono ⊢
        generalize (i + 1) / (N / 5) = b at hsucc hmono ⊢
        generalize i / (N / 5) = a at hsucc ⊢
        omega
    · simp only [hN, false_and, if_false]
      rw [List.countP_append]
      simp [is_progress]

theorem benchmark_run_progress (N : Nat) (outcome : Nat → Option Nat)
    (hall : ∀ i, i < N → (outcome i).isSome = true) :
    (benchmark_run N outcome).lines.countP is_progress
      = if N ≥ 5 then N / (N / 5) else 0 := by
  unfold benchmark_run
  rw [benchmark_loop_progress N outcome N 0 _ (fun j _ h => hall j (by omega))]
  simp

/-- C20 as stated fails: with `N = 6` successful iterations `N / 5 = 1`, so
the condition `(i + 1) % (N / 5) == 0` holds in every iteration and six
progress lines are printed, not five. -/
theorem benchmark_progress_six :
    (∀ i, i < 6 → ((fun _ => some 1 : Nat → Option Nat) i).isSome = true) ∧
      (benchmark_run 6 (fun _ => some 1)).lines.countP is_progress = 6 := by
  decide

/-- C20 (amended): in a benchmark loop of `N` iterations that all succeed, a
progress line is printed after every iteration `i` with
`N ≥ 5` and `(i + 1) mod (N / 5) = 0` (integer division); this gives
`N / (N / 5)` progress lines when `N ≥ 5`, which is exactly five if and only
if `N mod 5 < N / 5` (in particular when `N` is a multiple of 5), and none
when `N < 5`. -/
theorem benchmark_progress_lines (N : Nat) (outcome : Nat → Option Nat)
    (hall : ∀ i, i < N → (outcome i).isSome = true) :
    (N < 5 → (benchmark_run N outcome).lines.countP is_progress = 0) ∧
      (N ≥ 5 → (benchmark_run N outcome).lines.countP is_progress = N / (N / 5)) ∧
      (N ≥ 5 → ((benchmark_run N outcome).lines.countP is_progress = 5 ↔ N % 5 < N / 5)) ∧
      (N ≥ 5 → N % 5 = 0 → (benchmark_run N outcome).lines.countP is_progress = 5) := by
  have hcount := benchmark_run_progress N outcome hall
  have hiff : N ≥ 5 → (N / (N / 5) = 5 ↔ N % 5 < N / 5) := by
    intro hN
    have hd : 0 < N / 5 := by omega
    have hlt : N / (N / 5) < 6 ↔ N < 6 * (N / 5) := Nat.div_lt_iff_lt_mul hd
    have hle : 5 ≤ N / (N / 5) ↔ 5 * (N / 5) ≤ N := Nat.le_div_iff_mul_le hd
    constructor
    · intro h
      have h1 : N < 6 * (N / 5) := hlt.mp (by omega)
      omega
    · intro h
      have h1 : N / (N / 5) < 6 := hlt.mpr (by omega)
      have h2 : 5 ≤ N / (N / 5) := hle.mpr (by omega)
      omega
  refine ⟨?_, ?_, ?_, ?_⟩
  · intro hN
    rw [hcount, if_neg (by omega)]
  · intro hN
    rw [hcount, if_pos hN]
  · intro hN
    rw [hcount, if_pos hN]
    exact hiff hN
  · intro hN h0
    rw [hcount, if_pos hN]
    exact (hiff hN).mpr (by omega)

theorem benchmark_progress_lines_witness :
    (10 < 5 → (benchmark_run 10 (fun i => some (i + 7))).lines.countP is_progress = 0) ∧
      (10 ≥ 5 → (benchmark_run 10 (fun i => some (i + 7))).lines.countP is_progress
        = 10 / (10 / 5)) ∧
      (10 ≥ 5 → ((benchmark_run 10 (fun i => some (i + 7))).lines.countP is_progress = 5
        ↔ 10 % 5 < 10 / 5)) ∧
      (10 ≥ 5 → 10 % 5 = 0 →
        (benchmark_run 10 (fun i => some (i + 7))).lines.countP is_progress = 5) :=
  benchmark_progress_lines 10 (fun i => some (i + 7)) (fun _ _ => rfl)

/-- The loop evaluated for five iterations of 7 microseconds each. -/
theorem benchmark_run_example :
    (benchmark_run 5 (fun _ => some 7)).lines
      = [bench_line.csv 1 7, bench_line.progress 1 5, bench_line.csv 2 7,
          bench_line.progress 2 5, bench_line.csv 3 7, bench_line.progress 3 5,
          bench_line.csv 4 7, bench_line.progress 4 5, bench_line.csv 5 7,
          bench_line.progress 5 5] := by
  decide

/-! ## Intermediate values of the reference multiplication: proofs -/

/-- With `res, x < mod ≤ 2^63` every sum `res + x` and every doubling `x << 1`
of the loop stays below `2^64`. -/
theorem modmul_intermediates_bound (mod : Nat) (hmod : 0 < mod) (hmod63 : mod ≤ 2 ^ 63) :
    ∀ (fuel res x y : Nat), res < mod → x < mod →
      ∀ v ∈ modmul_intermediates mod fuel res x y, v ≤ 2 ^ 64 - 1 := by
  intro fuel
  induction fuel with
  | zero =>
    intro res x y _ _ v hv
    simp [modmul_intermediates] at hv
  | succ fuel ih =>
    intro res x y hres hx v hv
    unfold modmul_intermediates at hv
    by_cases hy : y > 0
    · rw [if_pos hy] at hv
      simp only [] at hv
      rcases List.mem_append.mp hv with h | h
      · rcases List.mem_append.mp h with h1 | h1
        · by_cases hb : y &&& 1 ≠ 0
          · rw [if_pos hb] at h1
            have : v = res + x := by simpa using h1
            omega
          · rw [if_neg hb] at h1
            simp at h1
        · have : v = x <<< 1 := by simpa using h1
          rw [this, Nat.shiftLeft_eq, pow_one]
          omega
      · refine ih _ _ _ ?_ (Nat.mod_lt _ hmod) v h
        by_cases hb : y &&& 1 ≠ 0
        · rw [if_pos hb]; exact Nat.mod_lt _ hmod
        · rw [if_neg hb]; exact hres
    · rw [if_neg hy] at hv
      simp at hv

/-- C21: for all 64-bit `a` and `b` and every modulus with `0 < mod ≤ 2^63`,
no intermediate value of `modmul_u64` (`res + x`, `x << 1`) exceeds
`2^64 - 1`, so the 64-bit computation never wraps, and
`modmul_u64(a, b, mod) = (a*b) mod mod` with `0 ≤ result < mod`. -/
theorem modmul_u64_no_wrap (a b mod : Nat) (ha : a < 2 ^ 64) (hb : b < 2 ^ 64)
    (hmod : 0 < mod) (hmod63 : mod ≤ 2 ^ 63) :
    (∀ v ∈ modmul_u64_intermediates a b mod, v ≤ 2 ^ 64 - 1) ∧
      modmul_u64 a b mod = (a * b) % mod ∧ modmul_u64 a b mod < mod := by
  have _ := ha
  have heq := modmul_u64_eq a b mod hb hmod hmod63
  refine ⟨?_, heq, by rw [heq]; exact Nat.mod_lt _ hmod⟩
  unfold modmul_u64_intermediates
  rw [if_neg (by omega)]
  exact modmul_intermediates_bound mod hmod hmod63 64 0 (a % mod) b hmod (Nat.mod_lt _ hmod)

theorem modmul_u64_no_wrap_witness :
    (∀ v ∈ modmul_u64_intermediates (2 ^ 64 - 1) (2 ^ 64 - 1) (2 ^ 63), v ≤ 2 ^ 64 - 1) ∧
      modmul_u64 (2 ^ 64 - 1) (2 ^ 64 - 1) (2 ^ 63)
        = ((2 ^ 64 - 1) * (2 ^ 64 - 1)) % 2 ^ 63 ∧
      modmul_u64 (2 ^ 64 - 1) (2 ^ 64 - 1) (2 ^ 63) < 2 ^ 63 :=
  modmul_u64_no_wrap (2 ^ 64 - 1) (2 ^ 64 - 1) (2 ^ 63)
    (by decide) (by decide) (by decide) (by decide)

/-- The intermediate values evaluated for `modmul_u64(2, 3, 5)`, and a wrapping
run beyond the bound: for `mod = 2^64 - 1` the doubling of `x = 2^63` is `2^64`. -/
theorem modmul_u64_intermediates_example :
    modmul_u64_intermediates 2 3 5 = [2, 4, 6, 8] ∧
      2 ^ 64 ∈ modmul_u64_intermediates (2 ^ 63) 2 (2 ^ 64 - 1) := by
  decide

/-! ## Small-exponent search: the chosen exponent -/

/-- For every mask enumerated by the search the 64-bit product fits in 32 bits. -/
theorem mask_product_fits : ∀ mask ∈ List.range' 1 ((1 <<< primes_count) - 1),
    (mask_product mask (List.range primes_count) 0 1).2 ≤ UINT32_MAX := by
  decide!

/-- C22: `choose_small_exponent` returns exactly 19635 and writes the factor
list `[3, 5, 7, 11, 17]` with `factor_count = 5` (`19635 = 3*5*7*11*17`, at
distance 365 from 20000); the written factors are strictly increasing and
their product equals the returned value, and the "product exceeds
`UINT32_MAX`" branch is never taken: for every mask of the loop
(`1 ≤ mask < 1 << primes_count`) the product is at most `UINT32_MAX`. -/
theorem choose_small_exponent_value (factors : List Nat) (mask : Nat)
    (hlo : 1 ≤ mask) (hhi : mask < 1 <<< primes_count) :
    (choose_small_exponent factors).1 = 19635 ∧
      (choose_small_exponent factors).2.2 = 5 ∧
      (choose_small_exponent factors).2.1.take (choose_small_exponent factors).2.2
        = [3, 5, 7, 11, 17] ∧
      (choose_small_exponent factors).2.1 = [3, 5, 7, 11, 17] ++ factors.drop 5 ∧
      (19635 : Nat) = 3 * 5 * 7 * 11 * 17 ∧
      Int.natAbs (((choose_small_exponent factors).1 : Int) - 20000) = 365 ∧
      List.Pairwise (fun p q => p < q)
        ((choose_small_exponent factors).2.1.take (choose_small_exponent factors).2.2) ∧
      ((choose_small_exponent factors).2.1.take (choose_small_exponent factors).2.2).prod
        = (choose_small_exponent factors).1 ∧
      ¬ ((mask_product mask (List.range primes_count) 0 1).2 > UINT32_MAX) := by
  have hval : choose_small_exponent factors
      = (19635, [3, 5, 7, 11, 17] ++ factors.drop 5, 5) := by
    simp only [choose_small_exponent, search_all_eq]
    rfl
  have htake : ([3, 5, 7, 11, 17] ++ factors.drop 5).take 5 = [3, 5, 7, 11, 17] := by
    rfl
  have hfit := mask_product_fits mask (List.mem_range'_1.mpr ⟨hlo, by
    have h512 : (1 : Nat) <<< primes_count = 512 := by decide
    rw [h512] at hhi ⊢
    omega⟩)
  rw [hval]
  have hdist : Int.natAbs (((19635 : Nat) : Int) - 20000) = 365 := by decide
  refine ⟨rfl, rfl, htake, rfl, by norm_num, hdist, ?_, ?_, by omega⟩
  · show List.Pairwise (fun p q => p < q) (([3, 5, 7, 11, 17] ++ factors.drop 5).take 5)
    rw [htake]
    decide
  · show (([3, 5, 7, 11, 17] ++ factors.drop 5).take 5).prod = 19635
    rw [htake]
    decide

theorem choose_small_exponent_value_witness :
    (choose_small_exponent [0, 0, 0, 0, 0]).1 = 19635 ∧
      (choose_small_exponent [0, 0, 0, 0, 0]).2.2 = 5 ∧
      (choose_small_exponent [0, 0, 0, 0, 0]).2.1.take
          (choose_small_exponent [0, 0, 0, 0, 0]).2.2 = [3, 5, 7, 11, 17] ∧
      (choose_small_exponent [0, 0, 0, 0, 0]).2.1 = [3, 5, 7, 11, 17] ++ [0, 0, 0, 0, 0].drop 5 ∧
      (19635 : Nat) = 3 * 5 * 7 * 11 * 17 ∧
      Int.natAbs (((choose_small_exponent [0, 0, 0, 0, 0]).1 : Int) - 20000) = 365 ∧
      List.Pairwise (fun p q => p < q)
        ((choose_small_exponent [0, 0, 0, 0, 0]).2.1.take
          (choose_small_exponent [0, 0, 0, 0, 0]).2.2) ∧
      ((choose_small_exponent [0, 0, 0, 0, 0]).2.1.take
          (choose_small_exponent [0, 0, 0, 0, 0]).2.2).prod
        = (choose_small_exponent [0, 0, 0, 0, 0]).1 ∧
      ¬ ((mask_product 511 (List.range primes_count) 0 1).2 > UINT32_MAX) :=
  choose_small_exponent_value [0, 0, 0, 0, 0] 511 (by decide) (by decide)

end Esp32Rsa
